import Mathlib

/-!
# BioBin bin manager: classification and realignment

A shallow embedding of `BioBin::BinManager`
(`src/branches/automake/trunk/src/biobin/binmanager.cpp`,
`src/branches/automake/src/biobin/binmanager.h`).

Containers of the standard library are embedded as lists kept in the
container's iteration order:

* `std::set<uint>` is an ascending list without repetitions,
* `std::map<uint, uint>` is a list of pairs with strictly ascending keys,
* `std::multimap<uint, uint>` is a list of pairs with ascending keys, entries
  of equal key in the order of their insertion.

The operations below keep these shapes; they are defined on every list, and
the shape is a hypothesis only where a statement needs it.
`uint` values are natural numbers, reduced modulo `2 ^ 32` where the source
does arithmetic on them.
-/

namespace BioBin

/-! ## Standard containers -/

/-- Insertion `std::set<uint>::insert`: the value goes to its place in
ascending order, and a value already present is not inserted again. -/
def setInsert : List Nat → Nat → List Nat
  | [], x => [x]
  | y :: ys, x =>
    if x < y then x :: y :: ys
    else if x = y then y :: ys
    else y :: setInsert ys x

/-- Insertion `std::multimap<uint, uint>::insert`: the pair goes behind the
last entry whose key is not greater than its key (the upper bound of the
key), so entries of one key stay in insertion order. -/
def mmInsert : List (Nat × Nat) → Nat → Nat → List (Nat × Nat)
  | [], k, v => [(k, v)]
  | e :: es, k, v =>
    if k < e.1 then (k, v) :: e :: es
    else e :: mmInsert es k v

/-- Lookup `std::map<uint, uint>::find`: the value stored under the key. -/
def mapFind : List (Nat × Nat) → Nat → Option Nat
  | [], _ => none
  | e :: es, k => if e.1 = k then some e.2 else mapFind es k

/-- Assignment `m[k] = v` on a `std::map<uint, uint>`: overwrites the value of
an existing key, otherwise inserts the pair at the key's place. -/
def mapSet : List (Nat × Nat) → Nat → Nat → List (Nat × Nat)
  | [], k, v => [(k, v)]
  | e :: es, k, v =>
    if k < e.1 then (k, v) :: e :: es
    else if k = e.1 then (k, v) :: es
    else e :: mapSet es k v

/-- Read access `m[k]` on a `std::map<uint, uint>`: returns the stored value;
for a key that is absent it inserts the key with the value-initialised
`uint` (zero) and returns that. The map is passed by reference, so the
possibly extended map is returned with the value. -/
def mapIndex (m : List (Nat × Nat)) (k : Nat) : Nat × List (Nat × Nat) :=
  match mapFind m k with
  | some v => (v, m)
  | none => (0, mapSet m k 0)

/-- The keys of a map or multimap, in iteration order. -/
def keys (m : List (Nat × Nat)) : List Nat := m.map Prod.fst

/-- The shape of a `std::map`: strictly ascending keys. -/
def MapWF (m : List (Nat × Nat)) : Prop := m.Pairwise (fun a b => a.1 < b.1)

/-- The shape of a `std::multimap`: ascending keys. -/
def MultimapWF (m : List (Nat × Nat)) : Prop := m.Pairwise (fun a b => a.1 ≤ b.1)

/-! ## Data model -/

/-- Modelled from the spec: `Utility::Locus` is declared outside the sources
at hand. Of a locus the classifier reads the chromosome `chrom`, the base
pair position `pos` and the value of `MinorAlleleFreq()`, here the field
`maf`; the comparison of two `float` frequencies is the order of the
rationals. -/
structure Locus where
  chrom : Nat
  pos : Nat
  maf : ℚ
deriving DecidableEq

/-- Modelled from the spec: `Knowledge::RegionContainer::Region` is declared
outside the sources at hand. The classifier reads the bounds `lBound`,
`rBound` and the region identifier `index` of a returned region. -/
structure Region where
  lBound : Nat
  rBound : Nat
  index : Nat
deriving DecidableEq

/-- Modelled from the spec: the answer of
`RegionContainer::GetRegionCoverage(pos, regionIDs)`, whose body is outside
the sources at hand: the returned `bool` and the content of the out-set
`regionIDs` in its iteration order. -/
structure Coverage where
  found : Bool
  regions : List Region
deriving DecidableEq

/-- State of a `BinManager` (binmanager.h, lines 175-197). The member
`variantEncoding` is read by none of the functions embedded here. -/
structure BinManager where
  chromosome : Nat
  bpStart : Nat
  bpStop : Nat
  effStop : Nat
  genotypeBoundaries : Nat × Nat
  intergenicRareVariants : List Nat
  binLookup : List (Nat × Nat)
  genotypeOffsets : List (Nat × Nat)
deriving DecidableEq

/-- The three sets `binnable`, `genotypes`, `intronic` that `InitBin` and
`InitBins` receive by reference and extend. -/
structure OutSets where
  binnable : List Nat
  genotypes : List Nat
  intronic : List Nat
deriving DecidableEq

/-- Constructor `BinManager(char chrom, uint begin, uint end)`
(binmanager.h, line 206); the containers start empty and the pair
`genotypeBoundaries` is value-initialised. -/
def BinManager.init (chrom bpStart bpStop : Nat) : BinManager :=
  { chromosome := chrom, bpStart := bpStart, bpStop := bpStop, effStop := bpStop,
    genotypeBoundaries := (0, 0), intergenicRareVariants := [], binLookup := [],
    genotypeOffsets := [] }

/-! ## Classification -/

/-- The loop over the returned regions (binmanager.cpp, lines 33-45 and
88-100). A region whose left bound lies in `[bpStart, bpStop]` is recorded
for locus `i`, may grow `effStop`, and is reported in `binnable`. -/
def regionLoop (i : Nat) : List Region → BinManager → List Nat → BinManager × List Nat
  | [], bm, binnable => (bm, binnable)
  | r :: rs, bm, binnable =>
    if r.lBound ≤ bm.bpStop ∧ r.lBound ≥ bm.bpStart then
      let bm1 := { bm with binLookup := mmInsert bm.binLookup i r.index }
      let bm2 := if r.rBound > bm1.effStop then { bm1 with effStop := r.rBound } else bm1
      regionLoop i rs bm2 (setInsert binnable r.index)
    else regionLoop i rs bm binnable

/-- The block `if (l.chrom == chromosome) { ... }` that `InitBin`
(binmanager.cpp, lines 22-60) and `InitBins` (lines 78-115) both contain,
for the locus `l` at index `i`. -/
def classifyLocus (bm : BinManager) (i : Nat) (l : Locus) (regionData : Nat → Coverage)
    (mafCutoff : ℚ) (o : OutSets) : BinManager × OutSets :=
  if l.chrom = bm.chromosome then
    if l.pos > bm.bpStart then
      if l.pos < bm.effStop then
        let bm1 := { bm with
          genotypeBoundaries := (bm.genotypeBoundaries.1, (bm.genotypeBoundaries.2 + 1) % 2 ^ 32) }
        if l.maf < mafCutoff then
          let c := regionData l.pos
          if c.found then
            let res := regionLoop i c.regions bm1 o.binnable
            (res.1, { o with binnable := res.2 })
          else
            (bm1, { o with intronic := setInsert o.intronic i })
        else
          ({ bm1 with genotypeOffsets := mapSet bm1.genotypeOffsets i i },
            { o with genotypes := setInsert o.genotypes i })
      else (bm, o)
    else
      let s := (bm.genotypeBoundaries.2 + 1) % 2 ^ 32
      ({ bm with genotypeBoundaries := (s, s) }, o)
  else (bm, o)

/-- Per-locus classification `BinManager::InitBin` (binmanager.cpp, lines
15-61). `freqs[i]` is read without a bounds check; an index outside the
vector has no defined result and yields `none`. The static `mafCutoff` is an
argument. -/
def InitBin (bm : BinManager) (i : Nat) (regionData : Nat → Coverage) (freqs : List Locus)
    (mafCutoff : ℚ) (o : OutSets) : Option (BinManager × OutSets) :=
  match freqs[i]? with
  | none => none
  | some l => some (classifyLocus bm i l regionData mafCutoff o)

/-- The loop of `InitBins` over the loci (binmanager.cpp, lines 76-118); the
index `i` is a `uint` counted up with each locus. -/
def initBinsLoop (regionData : Nat → Coverage) (mafCutoff : ℚ) :
    List Locus → Nat → BinManager → OutSets → BinManager × OutSets
  | [], _, bm, o => (bm, o)
  | l :: ls, i, bm, o =>
    let res := classifyLocus bm i l regionData mafCutoff o
    initBinsLoop regionData mafCutoff ls ((i + 1) % 2 ^ 32) res.1 res.2

/-- Batch classification `BinManager::InitBins` (binmanager.cpp, lines
64-120): resets `genotypeBoundaries`, classifies every locus of `freqs`, and
at the end copies the set `intronic` into `intergenicRareVariants`. -/
def InitBins (bm : BinManager) (i : Nat) (regionData : Nat → Coverage) (freqs : List Locus)
    (mafCutoff : ℚ) (o : OutSets) : BinManager × OutSets :=
  let res := initBinsLoop regionData mafCutoff freqs i { bm with genotypeBoundaries := (i, i) } o
  ({ res.1 with intergenicRareVariants := res.2.intronic.foldl setInsert res.1.intergenicRareVariants },
    res.2)

/-! ## Realignment -/

/-- Realignment of the genotype slots, `BinManager::RealignGenotypes`
(binmanager.cpp, lines 123-132): every entry's value becomes
`genotypeIndexConversion[itr->first]`. The conversion map is passed by
reference and read with `operator[]`, so it is returned as well. -/
def realignGenotypesLoop : List (Nat × Nat) → List (Nat × Nat) → List (Nat × Nat) × List (Nat × Nat)
  | [], conv => ([], conv)
  | e :: es, conv =>
    let r := mapIndex conv e.1
    let rest := realignGenotypesLoop es r.2
    ((e.1, r.1) :: rest.1, rest.2)

/-- The function `BinManager::RealignGenotypes` on the manager's state. -/
def RealignGenotypes (bm : BinManager) (genotypeIndexConversion : List (Nat × Nat)) :
    BinManager × List (Nat × Nat) :=
  let res := realignGenotypesLoop bm.genotypeOffsets genotypeIndexConversion
  ({ bm with genotypeOffsets := res.1 }, res.2)

/-- The loop of `RealignBins` (binmanager.cpp, lines 144-147): each entry of
the copied lookup is inserted again with its bin read from the conversion
map by `operator[]`. -/
def realignBinsLoop : List (Nat × Nat) → List (Nat × Nat) → List (Nat × Nat) →
    List (Nat × Nat) × List (Nat × Nat)
  | [], lookup, conv => (lookup, conv)
  | e :: es, lookup, conv =>
    let r := mapIndex conv e.2
    realignBinsLoop es (mmInsert lookup e.1 r.1) r.2

/-- Realignment of the bins, `BinManager::RealignBins` (binmanager.cpp, lines
134-151): `binLookup` is copied, cleared and rebuilt. -/
def RealignBins (bm : BinManager) (regIndexConversion : List (Nat × Nat)) :
    BinManager × List (Nat × Nat) :=
  let originalLookup := bm.binLookup
  let res := realignBinsLoop originalLookup [] regIndexConversion
  ({ bm with binLookup := res.1 }, res.2)

/-! ## Vocabulary of the statements -/

/-- The test of binmanager.cpp, line 37, on a returned region: its left bound
lies within the manager's true bounds `[bpStart, bpStop]`. -/
def inTrueBounds (bm : BinManager) (r : Region) : Bool :=
  decide (r.lBound ≤ bm.bpStop ∧ r.lBound ≥ bm.bpStart)

/-- The locus index is a key of `binLookup`. -/
def InBinLookup (bm : BinManager) (i : Nat) : Prop := i ∈ keys bm.binLookup

/-- The locus index is in the intergenic-rare set `intergenicRareVariants`. -/
def InIntergenic (bm : BinManager) (i : Nat) : Prop := i ∈ bm.intergenicRareVariants

/-- The locus index is a key of `genotypeOffsets`. -/
def InGenotypeOffsets (bm : BinManager) (i : Nat) : Prop := i ∈ keys bm.genotypeOffsets

/-- The locus index is in none of the three collections. -/
def InNone (bm : BinManager) (i : Nat) : Prop :=
  ¬ InBinLookup bm i ∧ ¬ InIntergenic bm i ∧ ¬ InGenotypeOffsets bm i

/-- The locus index is in one of the three collections and in no other. -/
def InExactlyOne (bm : BinManager) (i : Nat) : Prop :=
  (InBinLookup bm i ∧ ¬ InIntergenic bm i ∧ ¬ InGenotypeOffsets bm i) ∨
  (¬ InBinLookup bm i ∧ InIntergenic bm i ∧ ¬ InGenotypeOffsets bm i) ∨
  (¬ InBinLookup bm i ∧ ¬ InIntergenic bm i ∧ InGenotypeOffsets bm i)

/-- The locus index is in no two of the three collections. -/
def InAtMostOne (bm : BinManager) (i : Nat) : Prop :=
  ¬ (InBinLookup bm i ∧ InIntergenic bm i) ∧
  ¬ (InBinLookup bm i ∧ InGenotypeOffsets bm i) ∧
  ¬ (InIntergenic bm i ∧ InGenotypeOffsets bm i)

/-- Every entry of `genotypeOffsets` holds its provisional slot: `InitBin` and
`InitBins` write the locus index itself as the slot (binmanager.cpp, lines 54
and 109), a placeholder until `RealignGenotypes` (comment at line 128). -/
def Provisional (bm : BinManager) : Prop := ∀ e ∈ bm.genotypeOffsets, e.2 = e.1

/-- One classification call on a manager, with the arguments it is given. -/
inductive InitCall where
  | bin (i : Nat) (regionData : Nat → Coverage) (freqs : List Locus) (mafCutoff : ℚ) (o : OutSets)
  | bins (i : Nat) (regionData : Nat → Coverage) (freqs : List Locus) (mafCutoff : ℚ) (o : OutSets)

/-- The manager after one classification call. -/
def InitCall.run (bm : BinManager) : InitCall → Option BinManager
  | .bin i regionData freqs mafCutoff o => (InitBin bm i regionData freqs mafCutoff o).map Prod.fst
  | .bins i regionData freqs mafCutoff o => some (InitBins bm i regionData freqs mafCutoff o).1

/-- The manager after a sequence of classification calls. -/
def runCalls : BinManager → List InitCall → Option BinManager
  | bm, [] => some bm
  | bm, c :: cs => (c.run bm).bind (fun bm1 => runCalls bm1 cs)

/-- The region was returned by a coverage query that the call makes for one
of the loci it is given. -/
def InitCall.queried : InitCall → Region → Prop
  | .bin i regionData freqs _ _, r => ∃ l, freqs[i]? = some l ∧ r ∈ (regionData l.pos).regions
  | .bins _ regionData freqs _ _, r => ∃ l, l ∈ freqs ∧ r ∈ (regionData l.pos).regions

/-- The bin that `operator[]` reads from a conversion map: the stored value,
or zero for a key without entry. -/
def convImage (conv : List (Nat × Nat)) (k : Nat) : Nat := (mapFind conv k).getD 0


/-! ## Genotype streaming -/

/-- Modelled from the spec: `GenotypeStorage` (genotypestorage.h) is declared
outside the sources at hand. The compact genotype vector of an individual
is the list of the codes of its slots, and `SetGenotype(index, code)` writes
the raw code into the slot `index`; a slot outside the vector has no defined
result and yields `none`. -/
def SetGenotype (genotypes : List Int) (index : Nat) (code : Int) : Option (List Int) :=
  if index < genotypes.length then some (genotypes.set index code) else none

/-- The members of `Individual` (individual.h, lines 65-68) that the
streaming works on: the identifier, the genotype store and the bin counts.
The members `pedID` and `status` are touched by none of the functions
embedded here. -/
structure Individual where
  indID : String
  genotypes : List Int
  binData : List Nat
deriving DecidableEq

/-- The statement `binData[b] += code` on a `std::vector<uint>` for a code
that is not negative; an index outside the vector has no defined result
and yields `none`. -/
def addToBin (binData : List Nat) (b : Nat) (code : Int) : Option (List Nat) :=
  match binData[b]? with
  | none => none
  | some v => some (binData.set b ((v + code.toNat) % 2 ^ 32))

/-- The bins of the entries of `binLookup` between `lower_bound(snpIndex)`
and `upper_bound(snpIndex)`, the entries of key `snpIndex`, in their order. -/
def adjacentBins (bm : BinManager) (snpIndex : Nat) : List Nat :=
  (bm.binLookup.filter (fun e => decide (e.1 = snpIndex))).map Prod.snd

/-- The loop `while (first != last)` of `ParseSNP` (binmanager.cpp, lines
197-201) for one individual: every adjacent bin receives the code unless the
code is missing. -/
def binsLoop : List Nat → Int → List Nat → Option (List Nat)
  | [], _, binData => some binData
  | b :: bs, code, binData =>
    if code > -1 then (addToBin binData b code).bind (binsLoop bs code)
    else binsLoop bs code binData

/-- The body of the loop over the individuals in `ParseSNP` (binmanager.cpp,
lines 187-204) for the individual `ind = data[i]` and its code
`genotypes[i]`. The manager is returned as well, because `genotypeOffsets`
is read with `operator[]`. -/
def parseStep (isRareIntron : Bool) (snpIndex : Nat) (code : Int) (bm : BinManager)
    (ind : Individual) : Option (BinManager × Individual) :=
  if isRareIntron then
    if code > -1 then
      (addToBin ind.binData 0 code).map (fun bd => (bm, { ind with binData := bd }))
    else some (bm, ind)
  else
    if (mapFind bm.binLookup snpIndex).isSome then
      (binsLoop (adjacentBins bm snpIndex) code ind.binData).map
        (fun bd => (bm, { ind with binData := bd }))
    else
      let r := mapIndex bm.genotypeOffsets snpIndex
      (SetGenotype ind.genotypes r.1 code).map
        (fun g => ({ bm with genotypeOffsets := r.2 }, { ind with genotypes := g }))

/-- The loop `for (uint i=0; i<count; i++)` of `ParseSNP` (binmanager.cpp,
lines 186-205): code `i` goes to individual `data[i]`; a code without
individual has no defined result and yields `none`. -/
def parseLoop (isRareIntron : Bool) (snpIndex : Nat) :
    List Int → List Individual → BinManager → Option (BinManager × List Individual)
  | [], data, bm => some (bm, data)
  | _ :: _, [], _ => none
  | code :: codes, ind :: data, bm =>
    match parseStep isRareIntron snpIndex code bm ind with
    | none => none
    | some r =>
      match parseLoop isRareIntron snpIndex codes data r.1 with
      | none => none
      | some rest => some (rest.1, r.2 :: rest.2)

/-- Streaming of one locus, `BinManager::ParseSNP` (binmanager.cpp, lines
181-218). The count of codes is taken as a `uint`. Returns the set `bins`,
the manager and the individuals. -/
def ParseSNP (bm : BinManager) (snpIndex : Nat) (genotypes : List Int) (data : List Individual) :
    Option (List Nat × BinManager × List Individual) :=
  let isRareIntron := decide (snpIndex ∈ bm.intergenicRareVariants)
  let count := genotypes.length % 2 ^ 32
  match parseLoop isRareIntron snpIndex (genotypes.take count) data bm with
  | none => none
  | some r => some ((adjacentBins r.1 snpIndex).foldl setInsert [], r.1, r.2)

/-! ## The coordinator -/

/-- The two loops of `LoadVcfFile` that number the elements of a set in
ascending order with a `uint` counter and store the numbers in a map:
`genotypeLocusIndex[*gitr++] = genotypeCount++` (binapplication.cpp, lines
130-133) and `binIndex[*itr] = i++` (lines 164-167). Returns the map and the
counter. -/
def assignIndices : List Nat → List (Nat × Nat) → Nat → List (Nat × Nat) × Nat
  | [], m, n => (m, n)
  | x :: xs, m, n => assignIndices xs (mapSet m x n) ((n + 1) % 2 ^ 32)

/-- The loop over `locusRemap[c+1]` that calls `InitBin` for every index
(binapplication.cpp, lines 120-123). -/
def initBinAll (regionData : Nat → Coverage) (locusArray : List Locus) (mafCutoff : ℚ) :
    List Nat → BinManager → OutSets → Option (BinManager × OutSets)
  | [], bm, o => some (bm, o)
  | i :: is, bm, o =>
    match InitBin bm i regionData locusArray mafCutoff o with
    | none => none
    | some r => initBinAll regionData locusArray mafCutoff is r.1 r.2

/-- The variables that the classification loop of `LoadVcfFile` carries from
one chromosome slot to the next: the managers `binData[0]`, `binData[1]`, ...
created so far, in the order of their slots, the member `binnable` and the
local `genotypeCount`. -/
structure LoadState where
  binData : List BinManager
  binnable : List Nat
  genotypeCount : Nat
deriving DecidableEq

/-- The body of the loop `for (char c=0; c<26; c++)` of `LoadVcfFile`
(binapplication.cpp, lines 103-149) for the slot `c`, which is the number of
managers created so far: a fresh manager of chromosome `c + 1`, the
classification of the loci of `locusRemap[c+1]` with fresh out-sets, the
numbering of the retained genotypes, `RealignGenotypes`, and the union of the
local bins into `binnable`. `regions c` stands for the region container that
`BuildRegionSegments(c+1, bins)` fills. -/
def chromosomeStep (regions : Nat → Nat → Coverage) (locusRemap : Nat → List Nat)
    (locusArray : List Locus) (mafCutoff : ℚ) (st : LoadState) : Option LoadState :=
  let c := st.binData.length
  match initBinAll (regions c) locusArray mafCutoff (locusRemap (c + 1))
      (BinManager.init (c + 1) 0 (2 ^ 32 - 1)) ⟨[], [], []⟩ with
  | none => none
  | some r =>
    let genotypeLocusIndex := assignIndices r.2.genotypes [] st.genotypeCount
    some { binData := st.binData ++ [(RealignGenotypes r.1 genotypeLocusIndex.1).1],
           binnable := r.2.binnable.foldl setInsert st.binnable,
           genotypeCount := genotypeLocusIndex.2 }

/-- The classification loop of `LoadVcfFile` run for `n` more chromosome
slots. -/
def classifySlots (regions : Nat → Nat → Coverage) (locusRemap : Nat → List Nat)
    (locusArray : List Locus) (mafCutoff : ℚ) : Nat → LoadState → Option LoadState
  | 0, st => some st
  | n + 1, st =>
    match chromosomeStep regions locusRemap locusArray mafCutoff st with
    | none => none
    | some st1 => classifySlots regions locusRemap locusArray mafCutoff n st1

/-- The classification loop of `LoadVcfFile` over the 26 chromosome slots
`c = 0 .. 25` (binapplication.cpp, line 103), from the member `binnable` as
it is before the call. -/
def classificationLoop (regions : Nat → Nat → Coverage) (locusRemap : Nat → List Nat)
    (locusArray : List Locus) (mafCutoff : ℚ) (binnable : List Nat) : Option LoadState :=
  classifySlots regions locusRemap locusArray mafCutoff 26
    { binData := [], binnable := binnable, genotypeCount := 0 }

/-- The map `binIndex` after the loop of binapplication.cpp, lines 158-167:
the elements of `binnable` are numbered from 1. -/
def buildBinIndex (binnable : List Nat) (binIndex : List (Nat × Nat)) : List (Nat × Nat) :=
  (assignIndices binnable binIndex 1).1

/-- A run of `RealignBins` with one conversion map over a list of managers. -/
def realignBinsAll : List BinManager → List (Nat × Nat) → List BinManager × List (Nat × Nat)
  | [], conv => ([], conv)
  | bm :: bms, conv =>
    let r := RealignBins bm conv
    let rest := realignBinsAll bms r.2
    (r.1 :: rest.1, rest.2)

/-- The loop `for (char c=0; c<25; c++) binData[c].RealignBins(binIndex)`
(binapplication.cpp, lines 177-178) on the managers in slot order. -/
def realignLoop (binData : List BinManager) (binIndex : List (Nat × Nat)) :
    List BinManager × List (Nat × Nat) :=
  let r := realignBinsAll (binData.take 25) binIndex
  (r.1 ++ binData.drop 25, r.2)

/-- Classification and compaction in `LoadVcfFile` (binapplication.cpp,
lines 103-178): the classification loop, the map `binIndex`, and the
realignment loop, from the members `binnable` and `binIndex` as they are
before the call. Returns the managers, `binnable`, `binIndex` and
`genotypeCount`. -/
def loadAndCompact (regions : Nat → Nat → Coverage) (locusRemap : Nat → List Nat)
    (locusArray : List Locus) (mafCutoff : ℚ) (binnable : List Nat)
    (binIndex : List (Nat × Nat)) :
    Option (List BinManager × List Nat × List (Nat × Nat) × Nat) :=
  match classificationLoop regions locusRemap locusArray mafCutoff binnable with
  | none => none
  | some st =>
    let r := realignLoop st.binData (buildBinIndex st.binnable binIndex)
    some (r.1, st.binnable, r.2, st.genotypeCount)

/-- The number of entries in the `genotypeOffsets` of all managers. -/
def LoadState.retained (st : LoadState) : Nat :=
  (st.binData.map (fun m => m.genotypeOffsets.length)).sum

/-- What the classification of one chromosome keeps true of a manager and
its out-sets: `genotypeOffsets` holds the provisional slot `k` for every
index `k` of the set `genotypes` and nothing else, both sets are ascending,
every region identifier in `binLookup` is in the set `binnable`, and every
index in `genotypes` is the index of a locus of the manager's chromosome. -/
def Classified (locusArray : List Locus) (bm : BinManager) (o : OutSets) : Prop :=
  bm.genotypeOffsets = o.genotypes.map (fun k => (k, k)) ∧
  o.genotypes.Pairwise (fun a b => a < b) ∧
  o.binnable.Pairwise (fun a b => a < b) ∧
  (∀ e ∈ bm.binLookup, e.2 ∈ o.binnable) ∧
  (∀ k ∈ o.genotypes, ∃ l, locusArray[k]? = some l ∧ l.chrom = bm.chromosome)

/-- The state of the bins between two chromosome slots: `binnable` is
ascending and holds every region identifier recorded in a `binLookup`. -/
def BinsRecorded (st : LoadState) : Prop :=
  st.binnable.Pairwise (fun a b => a < b) ∧
  ∀ m ∈ st.binData, ∀ e ∈ m.binLookup, e.2 ∈ st.binnable

/-- The state of the genotype slots between two chromosome slots:
`genotypeCount` is the number of retained loci, the slots in use are the
numbers below `genotypeCount`, a slot is smaller than another exactly when
its manager comes earlier or, in one manager, its locus index is smaller,
and the loci of the manager in slot `c` lie on chromosome `c + 1`. -/
def SlotsOrdered (locusArray : List Locus) (st : LoadState) : Prop :=
  st.genotypeCount = st.retained ∧
  (∀ (c : Nat) (m : BinManager) (k s : Nat), st.binData[c]? = some m →
    (k, s) ∈ m.genotypeOffsets → s < st.genotypeCount) ∧
  (∀ s : Nat, s < st.genotypeCount →
    ∃ (c : Nat) (m : BinManager) (k : Nat), st.binData[c]? = some m ∧
      (k, s) ∈ m.genotypeOffsets) ∧
  (∀ (c1 c2 : Nat) (m1 m2 : BinManager) (k1 s1 k2 s2 : Nat), st.binData[c1]? = some m1 →
    st.binData[c2]? = some m2 → (k1, s1) ∈ m1.genotypeOffsets →
    (k2, s2) ∈ m2.genotypeOffsets → (s1 < s2 ↔ c1 < c2 ∨ (c1 = c2 ∧ k1 < k2))) ∧
  (∀ (c : Nat) (m : BinManager) (k s : Nat), st.binData[c]? = some m →
    (k, s) ∈ m.genotypeOffsets → ∃ l, locusArray[k]? = some l ∧ l.chrom = c + 1)

/-! ## Individuals and the reports on the bins -/

/-- Modelled from the spec: the constructor `GenotypeStorage(genotypeCount)`
(genotypestorage.h) is outside the sources at hand. It gives the compact
genotype vector one slot for each of the `genotypeCount` retained loci; the
code that a fresh slot holds is not fixed by the spec and is the argument
`fresh`. -/
def GenotypeStorage.new (genotypeCount : Nat) (fresh : Int) : List Int :=
  List.replicate genotypeCount fresh

/-- The function `Individual::Init` (individual.h, lines 37-41): sets the
identifier, a new genotype store and `binData = std::vector<uint>(binCount+1,
0)`, the sum taken as a `uint`. -/
def Individual.Init (ind : Individual) (indID : String) (genotypeCount binCount : Nat)
    (fresh : Int) : Individual :=
  { ind with
    indID := indID,
    genotypes := GenotypeStorage.new genotypeCount fresh,
    binData := List.replicate ((binCount + 1) % 2 ^ 32) 0 }

/-- The sizing constructor `Individual(indID, genotypeCount, binCount, pedID)`
(individual.h, lines 24-29), on the members that the embedding keeps; it sets
`pedID` and `status` as well. -/
def Individual.construct (indID : String) (genotypeCount binCount : Nat) (fresh : Int) :
    Individual :=
  { indID := indID,
    genotypes := GenotypeStorage.new genotypeCount fresh,
    binData := List.replicate ((binCount + 1) % 2 ^ 32) 0 }

/-- The loop of `ApplyBinCounts` (individual.h, lines 52-53):
`binCounts[i++] += *itr++` over `binData`; an index outside `binCounts` has
no defined result and yields `none`. -/
def applyBinCountsLoop : List Nat → Nat → List Nat → Option (List Nat)
  | [], _, binCounts => some binCounts
  | v :: vs, i, binCounts =>
    match binCounts[i]? with
    | none => none
    | some c => applyBinCountsLoop vs ((i + 1) % 2 ^ 32) (binCounts.set i ((c + v) % 2 ^ 32))

/-- The function `Individual::ApplyBinCounts` (individual.h, lines 47-55). -/
def Individual.ApplyBinCounts (ind : Individual) (binCounts : List Nat) : Option (List Nat) :=
  applyBinCountsLoop ind.binData 0 binCounts

/-- The vector `binCounts(dataset.Size()-genotypeCount+1, 0)` of `LoadVcfFile`
(binapplication.cpp, line 236), the size computed on `uint`; `datasetSize`
stands for `dataset.Size()`, whose class is outside the sources at hand. -/
def binCountsInit (datasetSize genotypeCount : Nat) : List Nat :=
  List.replicate ((datasetSize % 2 ^ 32 + 2 ^ 32 - genotypeCount % 2 ^ 32 + 1) % 2 ^ 32) 0

/-- The loop of `CountBinContributors` (binmanager.h, lines 238-241):
`contributorCounts[itr->second]++` for every entry of `binLookup`. -/
def countLoop : List (Nat × Nat) → List Nat → Option (List Nat)
  | [], counts => some counts
  | e :: es, counts =>
    match counts[e.2]? with
    | none => none
    | some v => countLoop es (counts.set e.2 ((v + 1) % 2 ^ 32))

/-- The function `BinManager::CountBinContributors` (binmanager.h, lines
232-242): adds the size of `intergenicRareVariants` to entry 0 and then runs
the loop over `binLookup`. -/
def CountBinContributors (bm : BinManager) (contributorCounts : List Nat) : Option (List Nat) :=
  match contributorCounts[0]? with
  | none => none
  | some v =>
    countLoop bm.binLookup
      (contributorCounts.set 0 ((v + bm.intergenicRareVariants.length) % 2 ^ 32))

/-- The loop of `BuildContributorList` (binmanager.h, lines 226-229):
`contributors[itr->second].push_back(itr->first)` for every entry of
`binLookup`. -/
def contributorLoop : List (Nat × Nat) → List (List Nat) → Option (List (List Nat))
  | [], contributors => some contributors
  | e :: es, contributors =>
    match contributors[e.2]? with
    | none => none
    | some l => contributorLoop es (contributors.set e.2 (l ++ [e.1]))

/-- The function `BinManager::BuildContributorList` (binmanager.h, lines
221-230). -/
def BuildContributorList (bm : BinManager) (contributors : List (List Nat)) :
    Option (List (List Nat)) :=
  contributorLoop bm.binLookup contributors

/-- The manager after one pass of the loop body of `ParseSNP` that returns:
the read `genotypeOffsets[snpIndex]` is reached for a locus that is neither
intergenic-rare nor in `binLookup`. -/
def stepManager (isRareIntron : Bool) (snpIndex : Nat) (bm : BinManager) : BinManager :=
  if isRareIntron then bm
  else if (mapFind bm.binLookup snpIndex).isSome then bm
  else { bm with genotypeOffsets := (mapIndex bm.genotypeOffsets snpIndex).2 }

/-- The locus is rare for the streaming: it is in the intergenic-rare set or
has an entry in `binLookup`. -/
def IsRare (bm : BinManager) (snpIndex : Nat) : Prop :=
  snpIndex ∈ bm.intergenicRareVariants ∨ (mapFind bm.binLookup snpIndex).isSome = true

/-- The locus is retained with the genotype slot `s`: it is neither in the
intergenic-rare set nor in `binLookup`, and `genotypeOffsets` maps it to
`s`. -/
def RetainedAt (bm : BinManager) (snpIndex s : Nat) : Prop :=
  snpIndex ∉ bm.intergenicRareVariants ∧ mapFind bm.binLookup snpIndex = none ∧
    mapFind bm.genotypeOffsets snpIndex = some s

/-! ## Regions of the knowledge base -/

namespace Knowledge

/-- Modelled from the spec: `GroupManager` (groupmanager.h) is declared
outside the sources at hand. A region keys its groups by the address of the
group source, here the field `source`, and reads `diseaseDependent()` of
it. -/
structure GroupManager where
  source : Nat
  diseaseDependent : Bool
deriving DecidableEq

/-- The members of `Knowledge::Region` (region.h, lines 89-105). -/
structure Region where
  name : String
  enID : String
  chrom : Nat
  id : Nat
  effStart : Nat
  effEnd : Nat
  trueStart : Nat
  trueEnd : Nat
  aliases : List String
  snps : List Nat
  groups : List (GroupManager × List Nat)
deriving DecidableEq

/-- The function `Region::SnpCount` (region.h, lines 141-144): the size of
`snps` as a `uint`. -/
def Region.SnpCount (r : Region) : Nat := r.snps.length % 2 ^ 32

/-- The copy constructor `Region(const Region& orig)` (region.h, line 118):
it copies `name`, `chrom`, `id`, the four bounds, `aliases`, `snps` and
`groups`; `enID` is not in its initialiser list and is left the empty
string. -/
def Region.copy (orig : Region) : Region :=
  { name := orig.name, enID := "", chrom := orig.chrom, id := orig.id,
    effStart := orig.effStart, effEnd := orig.effEnd, trueStart := orig.trueStart,
    trueEnd := orig.trueEnd, aliases := orig.aliases, snps := orig.snps, groups := orig.groups }

/-- The loop of `CountDDCapable` (region.cpp, lines 208-210), run for at most
`fuel` evaluations of its condition, from the position `itr` given by the
entries of `groups` that are left. The body adds `diseaseDependent()` to
`num_dd` and does not move `itr`. The result is `none` when the loop has not
ended within `fuel`. -/
def countDDLoop : Nat → List (GroupManager × List Nat) → Nat → Option Nat
  | 0, _, _ => none
  | _ + 1, [], num_dd => some num_dd
  | fuel + 1, g :: rest, num_dd =>
    countDDLoop fuel (g :: rest) ((num_dd + (if g.1.diseaseDependent then 1 else 0)) % 2 ^ 32)

/-- The function `Region::CountDDCapable` (region.cpp, lines 203-213) with
`fuel` for its loop. -/
def Region.CountDDCapable (self : Region) (fuel : Nat) : Option Nat :=
  countDDLoop fuel self.groups 0

/-- The members of `RegionManager` (regionmanager.h, lines 137-139). -/
structure RegionManager where
  idToIndex : List (Nat × Nat)
  aliasToIndex : List (String × Nat)
  regions : List Region
deriving DecidableEq

/-- The first loop of `Squeeze` (regionmanager.h, lines 282-285) from index
`i` on: the indices of the regions with `SnpCount() == 0` go into the set
`empties`. -/
def collectEmpties : List Region → Nat → List Nat → List Nat
  | [], _, empties => empties
  | r :: rs, i, empties =>
    collectEmpties rs (i + 1) (if r.SnpCount = 0 then setInsert empties i else empties)

/-- The second loop of `Squeeze` (regionmanager.h, lines 291-298) from index
`i` of `backup` on: a region whose index is not in `empties` is appended to
`regions` with `push_back(backup[i])`, which copy-constructs it, and its new
index is noted in `remap`; the index of a removed region is mapped to
`(uint)-1`. A reallocation of the vector copies the regions appended before
once more, which `Region.copy` does not change again. -/
def rebuildRegions (empties : List Nat) :
    List Region → Nat → List Region → List (Nat × Nat) → List Region × List (Nat × Nat)
  | [], _, regions, remap => (regions, remap)
  | r :: rs, i, regions, remap =>
    if i ∉ empties then
      rebuildRegions empties rs (i + 1) (regions ++ [r.copy])
        (mapSet remap i (regions.length % 2 ^ 32))
    else
      rebuildRegions empties rs (i + 1) regions (mapSet remap i (2 ^ 32 - 1))

/-- The loops `itr->second = remap[itr->second]` of `Squeeze`
(regionmanager.h, lines 302-305 and 309-312) over a lookup map. -/
def remapValues {α : Type} : List (α × Nat) → List (Nat × Nat) → List (α × Nat) × List (Nat × Nat)
  | [], remap => ([], remap)
  | e :: es, remap =>
    let r := mapIndex remap e.2
    let rest := remapValues es r.2
    ((e.1, r.1) :: rest.1, rest.2)

/-- The function `RegionManager::Squeeze` (regionmanager.h, lines 277-314);
`count` is the size of `regions` as a `uint`, and `backup = regions` copies
the vector, every region through the copy constructor. Returns the manager
and the result `empties.size()`. -/
def RegionManager.Squeeze (rm : RegionManager) : RegionManager × Nat :=
  let count := rm.regions.length % 2 ^ 32
  let empties := collectEmpties (rm.regions.take count) 0 []
  let backup := rm.regions.map Region.copy
  let r := rebuildRegions empties (backup.take count) 0 [] []
  let a := remapValues rm.aliasToIndex r.2
  let i := remapValues rm.idToIndex a.2
  ({ idToIndex := i.1, aliasToIndex := a.1, regions := r.1 }, empties.length % 2 ^ 32)

end Knowledge

/-! ## Example inputs -/

/-- A run of two classification calls on the manager of segment `[0, 1000]`
of chromosome 1: `InitBin` for a rare locus at position 150 that region 5
(`[100, 1200]`) covers, then `InitBins` for a rare locus at position 1100
without coverage. -/
def exampleCalls : List InitCall :=
  [InitCall.bin 0 (fun _ => ⟨true, [⟨100, 1200, 5⟩]⟩) [⟨1, 150, 1 / 100⟩] (1 / 20) ⟨[], [], []⟩,
    InitCall.bins 1 (fun _ => ⟨false, []⟩) [⟨1, 1100, 1 / 100⟩] (1 / 20) ⟨[], [], []⟩]

/-- The manager after the run `exampleCalls`. -/
def exampleFinal : BinManager :=
  { chromosome := 1, bpStart := 0, bpStop := 1000, effStop := 1200,
    genotypeBoundaries := (1, 2), intergenicRareVariants := [1],
    binLookup := [(0, 5)], genotypeOffsets := [] }

/-- A run of `LoadVcfFile` up to the streaming, on one rare locus of
chromosome 1 at position 290 that the regions 5 and 6 cover and one
individual `I` with the code 1: classification and compaction, the set-up of
the individual with `Init(id, genotypeCount, binnable.size())`, and
`ParseSNP` for the locus on the manager of chromosome 1. Gives `binnable`,
`genotypeCount` and the individuals. -/
def exampleStreamed : Option (List Nat × Nat × List Individual) :=
  (loadAndCompact
    (fun c => if c = 0 then fun _ => ⟨true, [⟨100, 300, 5⟩, ⟨280, 320, 6⟩]⟩
      else fun _ => ⟨false, []⟩)
    (fun ch => if ch = 1 then [0] else []) [⟨1, 290, 1 / 100⟩] (1 / 20) [] []).bind
      (fun r => (r.1[0]?).bind (fun m =>
        (ParseSNP m 0 [1] [(Individual.mk "" [] []).Init "I" r.2.2.2 r.2.1.length 0]).map
          (fun p => (r.2.1, r.2.2.2, p.2.2))))

/-! ## Container lemmas -/

theorem mem_setInsert (s : List Nat) (x y : Nat) : y ∈ setInsert s x ↔ y = x ∨ y ∈ s := by
  induction s with
  | nil => simp [setInsert]
  | cons a t ih =>
    unfold setInsert
    split
    · simp
    · split
      · rename_i h; subst h; simp
      · simp only [List.mem_cons, ih]; tauto

theorem mem_foldl_setInsert (xs s : List Nat) (y : Nat) :
    y ∈ xs.foldl setInsert s ↔ y ∈ xs ∨ y ∈ s := by
  induction xs generalizing s with
  | nil => simp
  | cons a t ih => simp only [List.foldl_cons, ih, mem_setInsert, List.mem_cons]; tauto

theorem mmInsert_perm (m : List (Nat × Nat)) (k v : Nat) : (mmInsert m k v).Perm ((k, v) :: m) := by
  induction m with
  | nil => simp [mmInsert]
  | cons e es ih =>
    unfold mmInsert
    split
    · exact List.Perm.refl _
    · exact (List.Perm.cons e ih).trans (List.Perm.swap _ _ _)

theorem mem_mmInsert (m : List (Nat × Nat)) (k v : Nat) (p : Nat × Nat) :
    p ∈ mmInsert m k v ↔ p = (k, v) ∨ p ∈ m := by
  rw [(mmInsert_perm m k v).mem_iff, List.mem_cons]

theorem mapFind_mapSet (m : List (Nat × Nat)) (k v a : Nat) :
    mapFind (mapSet m k v) a = if a = k then some v else mapFind m a := by
  induction m with
  | nil =>
    by_cases h : a = k
    · simp [mapSet, mapFind, h]
    · have h' : ¬ k = a := fun e => h e.symm
      simp [mapSet, mapFind, h, h']
  | cons e es ih =>
    unfold mapSet
    by_cases h1 : k < e.1
    · by_cases h : a = k
      · simp [h1, mapFind, h]
      · have h' : ¬ k = a := fun e => h e.symm
        simp [h1, mapFind, h, h']
    · by_cases h2 : k = e.1
      · by_cases h : a = k
        · simp [h1, h2, mapFind, h]
        · have h' : ¬ e.1 = a := fun e' => h (by omega)
          have h'' : ¬ a = e.1 := fun e' => h (by omega)
          simp [h1, h2, mapFind, h', h'']
      · by_cases h : a = k
        · have h' : ¬ e.1 = k := fun e' => h2 e'.symm
          subst h
          simp [h1, h2, mapFind, h'] at ih ⊢
          exact ih
        · simp [h1, h2, mapFind, h, ih]

theorem mem_keys_mapSet (m : List (Nat × Nat)) (k v a : Nat) :
    a ∈ keys (mapSet m k v) ↔ a = k ∨ a ∈ keys m := by
  induction m with
  | nil => simp [mapSet, keys]
  | cons e es ih =>
    unfold mapSet
    split
    · simp [keys]
    · split
      · rename_i h; simp [keys, h]
      · simp only [keys, List.map_cons, List.mem_cons] at ih ⊢
        rw [ih]; tauto


/-! ## The region loop in closed form -/

theorem inTrueBounds_eq (bm1 bm : BinManager) (h1 : bm1.bpStart = bm.bpStart)
    (h2 : bm1.bpStop = bm.bpStop) : inTrueBounds bm1 = inTrueBounds bm := by
  funext x; simp [inTrueBounds, h1, h2]

theorem regionLoop_eq (i : Nat) (rs : List Region) (bm : BinManager) (b : List Nat) :
    regionLoop i rs bm b =
      ({ bm with
          binLookup := ((rs.filter (inTrueBounds bm)).foldl (fun m r => mmInsert m i r.index)
            bm.binLookup),
          effStop := ((rs.filter (inTrueBounds bm)).foldl
            (fun e r => if r.rBound > e then r.rBound else e) bm.effStop) },
        ((rs.filter (inTrueBounds bm)).map Region.index).foldl setInsert b) := by
  induction rs generalizing bm b with
  | nil => simp [regionLoop]
  | cons r rs ih =>
    unfold regionLoop
    by_cases h : r.lBound ≤ bm.bpStop ∧ r.lBound ≥ bm.bpStart
    · have hq : inTrueBounds bm r = true := by simp [inTrueBounds, h]
      rw [if_pos h]
      dsimp only
      by_cases h2 : r.rBound > bm.effStop
      · have e1 : ∀ (bl : List (Nat × Nat)) (es : Nat),
            inTrueBounds { bm with binLookup := bl, effStop := es } = inTrueBounds bm :=
          fun _ _ => inTrueBounds_eq _ _ rfl rfl
        rw [if_pos h2, ih]
        simp [hq, h2, e1]
      · have e1 : ∀ (bl : List (Nat × Nat)),
            inTrueBounds { bm with binLookup := bl } = inTrueBounds bm :=
          fun _ => inTrueBounds_eq _ _ rfl rfl
        rw [if_neg h2, ih]
        simp [hq, h2, e1]
    · have hq : inTrueBounds bm r = false := by simp [inTrueBounds, h]
      rw [if_neg h, ih]
      simp [hq]

theorem foldl_mmInsert_perm (i : Nat) (rs : List Region) (m : List (Nat × Nat)) :
    (rs.foldl (fun m r => mmInsert m i r.index) m).Perm (m ++ rs.map (fun r => (i, r.index))) := by
  induction rs generalizing m with
  | nil => simp
  | cons r rs ih =>
    simp only [List.foldl_cons, List.map_cons]
    refine (ih _).trans ?_
    refine ((mmInsert_perm m i r.index).append_right _).trans ?_
    simpa using (@List.perm_middle _ (i, r.index) m (rs.map fun r => (i, r.index))).symm

theorem foldl_effStop_ge (rs : List Region) (e : Nat) :
    e ≤ rs.foldl (fun e r => if r.rBound > e then r.rBound else e) e := by
  induction rs generalizing e with
  | nil => simp
  | cons r rs ih =>
    simp only [List.foldl_cons]
    split
    · exact le_trans (by omega) (ih _)
    · exact ih _

theorem foldl_effStop_cases (rs : List Region) (e : Nat) :
    rs.foldl (fun e r => if r.rBound > e then r.rBound else e) e = e ∨
      ∃ r ∈ rs, rs.foldl (fun e r => if r.rBound > e then r.rBound else e) e = r.rBound ∧
        e < r.rBound := by
  induction rs generalizing e with
  | nil => simp
  | cons r rs ih =>
    simp only [List.foldl_cons]
    by_cases h : r.rBound > e
    · rw [if_pos h]
      rcases ih r.rBound with h1 | ⟨r', hr', h1, h2⟩
      · exact Or.inr ⟨r, List.mem_cons_self _ _, h1, h⟩
      · exact Or.inr ⟨r', List.mem_cons_of_mem _ hr', h1, by omega⟩
    · rw [if_neg h]
      rcases ih e with h1 | ⟨r', hr', h1, h2⟩
      · exact Or.inl h1
      · exact Or.inr ⟨r', List.mem_cons_of_mem _ hr', h1, h2⟩

theorem mem_foldl_mmInsert (i : Nat) (rs : List Region) (m : List (Nat × Nat)) (p : Nat × Nat) :
    p ∈ rs.foldl (fun m r => mmInsert m i r.index) m ↔ p ∈ m ∨ ∃ r ∈ rs, p = (i, r.index) := by
  rw [(foldl_mmInsert_perm i rs m).mem_iff, List.mem_append, List.mem_map]
  constructor
  · rintro (h | ⟨r, hr, rfl⟩)
    · exact Or.inl h
    · exact Or.inr ⟨r, hr, rfl⟩
  · rintro (h | ⟨r, hr, rfl⟩)
    · exact Or.inl h
    · exact Or.inr ⟨r, hr, rfl⟩

theorem mem_keys_foldl_mmInsert (i : Nat) (rs : List Region) (m : List (Nat × Nat)) (k : Nat) :
    k ∈ keys (rs.foldl (fun m r => mmInsert m i r.index) m) ↔
      k ∈ keys m ∨ (k = i ∧ ∃ r, r ∈ rs) := by
  simp only [keys, List.mem_map, mem_foldl_mmInsert]
  constructor
  · rintro ⟨p, hp | ⟨r, hr, rfl⟩, rfl⟩
    · exact Or.inl ⟨p, hp, rfl⟩
    · exact Or.inr ⟨rfl, r, hr⟩
  · rintro (⟨p, hp, rfl⟩ | ⟨rfl, r, hr⟩)
    · exact ⟨p, Or.inl hp, rfl⟩
    · exact ⟨(k, r.index), Or.inr ⟨r, hr, rfl⟩, rfl⟩

/-! ## The classification block, case by case -/

theorem classifyLocus_other_chrom (bm : BinManager) (i : Nat) (l : Locus)
    (regionData : Nat → Coverage) (mafCutoff : ℚ) (o : OutSets) (hc : l.chrom ≠ bm.chromosome) :
    classifyLocus bm i l regionData mafCutoff o = (bm, o) := by
  simp [classifyLocus, hc]

theorem classifyLocus_left (bm : BinManager) (i : Nat) (l : Locus)
    (regionData : Nat → Coverage) (mafCutoff : ℚ) (o : OutSets) (hc : l.chrom = bm.chromosome)
    (hp : l.pos ≤ bm.bpStart) :
    classifyLocus bm i l regionData mafCutoff o =
      ({ bm with genotypeBoundaries :=
          ((bm.genotypeBoundaries.2 + 1) % 2 ^ 32, (bm.genotypeBoundaries.2 + 1) % 2 ^ 32) }, o) := by
  have hp' : ¬ l.pos > bm.bpStart := by omega
  simp [classifyLocus, hc, hp']

theorem classifyLocus_right (bm : BinManager) (i : Nat) (l : Locus)
    (regionData : Nat → Coverage) (mafCutoff : ℚ) (o : OutSets) (hc : l.chrom = bm.chromosome)
    (hp : bm.bpStart < l.pos) (he : bm.effStop ≤ l.pos) :
    classifyLocus bm i l regionData mafCutoff o = (bm, o) := by
  have he' : ¬ l.pos < bm.effStop := by omega
  simp [classifyLocus, hc, hp, he']

theorem classifyLocus_common (bm : BinManager) (i : Nat) (l : Locus)
    (regionData : Nat → Coverage) (mafCutoff : ℚ) (o : OutSets) (hc : l.chrom = bm.chromosome)
    (hp : bm.bpStart < l.pos) (he : l.pos < bm.effStop) (hm : mafCutoff ≤ l.maf) :
    classifyLocus bm i l regionData mafCutoff o =
      ({ bm with
          genotypeBoundaries := (bm.genotypeBoundaries.1, (bm.genotypeBoundaries.2 + 1) % 2 ^ 32),
          genotypeOffsets := mapSet bm.genotypeOffsets i i },
        { o with genotypes := setInsert o.genotypes i }) := by
  have hm' : ¬ l.maf < mafCutoff := not_lt.mpr hm
  simp [classifyLocus, hc, hp, he, hm']

theorem classifyLocus_intergenic (bm : BinManager) (i : Nat) (l : Locus)
    (regionData : Nat → Coverage) (mafCutoff : ℚ) (o : OutSets) (hc : l.chrom = bm.chromosome)
    (hp : bm.bpStart < l.pos) (he : l.pos < bm.effStop) (hm : l.maf < mafCutoff)
    (hf : (regionData l.pos).found = false) :
    classifyLocus bm i l regionData mafCutoff o =
      ({ bm with
          genotypeBoundaries := (bm.genotypeBoundaries.1, (bm.genotypeBoundaries.2 + 1) % 2 ^ 32) },
        { o with intronic := setInsert o.intronic i }) := by
  simp [classifyLocus, hc, hp, he, hm, hf]

theorem classifyLocus_covered (bm : BinManager) (i : Nat) (l : Locus)
    (regionData : Nat → Coverage) (mafCutoff : ℚ) (o : OutSets) (hc : l.chrom = bm.chromosome)
    (hp : bm.bpStart < l.pos) (he : l.pos < bm.effStop) (hm : l.maf < mafCutoff)
    (hf : (regionData l.pos).found = true) :
    classifyLocus bm i l regionData mafCutoff o =
      ({ bm with
          genotypeBoundaries := (bm.genotypeBoundaries.1, (bm.genotypeBoundaries.2 + 1) % 2 ^ 32),
          binLookup := ((((regionData l.pos).regions).filter (inTrueBounds bm)).foldl
            (fun m r => mmInsert m i r.index) bm.binLookup),
          effStop := ((((regionData l.pos).regions).filter (inTrueBounds bm)).foldl
            (fun e r => if r.rBound > e then r.rBound else e) bm.effStop) },
        { o with binnable := (List.foldl setInsert o.binnable
            ((((regionData l.pos).regions).filter (inTrueBounds bm)).map Region.index)) }) := by
  have e1 : ∀ (gb : Nat × Nat),
      inTrueBounds { bm with genotypeBoundaries := gb } = inTrueBounds bm :=
    fun _ => inTrueBounds_eq _ _ rfl rfl
  simp [classifyLocus, hc, hp, he, hm, hf, regionLoop_eq, e1]

theorem classifyLocus_membership (bm : BinManager) (i : Nat) (l : Locus)
    (regionData : Nat → Coverage) (mafCutoff : ℚ) (o : OutSets) (k : Nat) :
    (classifyLocus bm i l regionData mafCutoff o).1.intergenicRareVariants =
        bm.intergenicRareVariants ∧
      (k ∈ keys (classifyLocus bm i l regionData mafCutoff o).1.genotypeOffsets ↔
        k ∈ keys bm.genotypeOffsets ∨
          (k = i ∧ l.chrom = bm.chromosome ∧ bm.bpStart < l.pos ∧ l.pos < bm.effStop ∧
            mafCutoff ≤ l.maf)) ∧
      (k ∈ keys (classifyLocus bm i l regionData mafCutoff o).1.binLookup ↔
        k ∈ keys bm.binLookup ∨
          (k = i ∧ l.chrom = bm.chromosome ∧ bm.bpStart < l.pos ∧ l.pos < bm.effStop ∧
            l.maf < mafCutoff ∧ (regionData l.pos).found = true ∧
            ∃ r ∈ (regionData l.pos).regions, inTrueBounds bm r = true)) := by
  by_cases hc : l.chrom = bm.chromosome
  · by_cases hp : bm.bpStart < l.pos
    · by_cases he : l.pos < bm.effStop
      · by_cases hm : l.maf < mafCutoff
        · have hm' : ¬ mafCutoff ≤ l.maf := not_le.mpr hm
          cases hf : (regionData l.pos).found
          · rw [classifyLocus_intergenic bm i l regionData mafCutoff o hc hp he hm hf]
            simp [hm']
          · rw [classifyLocus_covered bm i l regionData mafCutoff o hc hp he hm hf]
            simp [hm', hm, hc, hp, he, mem_keys_foldl_mmInsert, List.mem_filter]
        · have hm' : mafCutoff ≤ l.maf := not_lt.mp hm
          rw [classifyLocus_common bm i l regionData mafCutoff o hc hp he hm']
          simp [hm', hm, hc, hp, he, mem_keys_mapSet]
          tauto
      · rw [classifyLocus_right bm i l regionData mafCutoff o hc hp (by omega)]
        simp [he]
    · rw [classifyLocus_left bm i l regionData mafCutoff o hc (by omega)]
      simp [hp]
  · rw [classifyLocus_other_chrom bm i l regionData mafCutoff o hc]
    simp [hc]

theorem inTrueBounds_iff (bm : BinManager) (r : Region) :
    inTrueBounds bm r = true ↔ bm.bpStart ≤ r.lBound ∧ r.lBound ≤ bm.bpStop := by
  simp [inTrueBounds]; tauto

theorem filter_key_mapSet (m : List (Nat × Nat)) (k v : Nat) (hwf : MapWF m) :
    (mapSet m k v).filter (fun e => decide (e.1 = k)) = [(k, v)] := by
  induction m with
  | nil => simp [mapSet]
  | cons e es ih =>
    have hes : ∀ x ∈ es, e.1 < x.1 := (List.pairwise_cons.mp hwf).1
    unfold mapSet
    by_cases h1 : k < e.1
    · rw [if_pos h1]
      have hne : ¬ e.1 = k := by omega
      have hnil : es.filter (fun e => decide (e.1 = k)) = [] := by
        rw [List.filter_eq_nil_iff]
        intro x hx
        have := hes x hx
        simp; omega
      simp [List.filter_cons, hne, hnil]
    · rw [if_neg h1]
      by_cases h2 : k = e.1
      · rw [if_pos h2]
        have hnil : es.filter (fun e => decide (e.1 = k)) = [] := by
          rw [List.filter_eq_nil_iff]
          intro x hx
          have := hes x hx
          simp; omega
        simp [List.filter_cons, hnil]
      · rw [if_neg h2]
        have hne : ¬ e.1 = k := fun h => h2 h.symm
        simp [List.filter_cons, hne, ih (List.pairwise_cons.mp hwf).2]

/-! ## Classification: the claims -/

/-- C1 (as stated, refuted): a locus on the manager's chromosome that lies at
or before `bpStart` is skipped by `InitBin`; after the call its index is in
none of `binLookup`, `intergenicRareVariants`, `genotypeOffsets`. -/
theorem InitBin_skipped_locus_in_no_collection :
    InitBin (BinManager.init 1 100 1000) 0 (fun _ => ⟨false, []⟩) [⟨1, 50, 1 / 5⟩] (1 / 20)
        ⟨[], [], []⟩ =
      some ({ BinManager.init 1 100 1000 with genotypeBoundaries := (1, 1) }, ⟨[], [], []⟩) ∧
    (⟨1, 50, 1 / 5⟩ : Locus).chrom = (BinManager.init 1 100 1000).chromosome ∧
    ¬ InExactlyOne { BinManager.init 1 100 1000 with genotypeBoundaries := (1, 1) } 0 := by
  refine ⟨?_, rfl, ?_⟩
  · simp [InitBin, classifyLocus, BinManager.init]
  · simp [InExactlyOne, InBinLookup, InIntergenic, InGenotypeOffsets, BinManager.init, keys]

/-- C1 (amended): for a locus `i` on the manager's chromosome that is in none
of the three collections before the call, `InitBin` returns, and afterwards
`i` is in no two of `binLookup`, `intergenicRareVariants`, `genotypeOffsets`;
it is in exactly one of them when the locus is in range
(`bpStart < pos < effStop`) and is either common (`mafCutoff ≤ maf`) or has
coverage with a returned region whose left bound lies in `[bpStart, bpStop]`;
it is in none of them when the locus is out of range. -/
theorem InitBin_at_most_one_collection (bm : BinManager) (i : Nat)
    (regionData : Nat → Coverage) (freqs : List Locus) (mafCutoff : ℚ) (o : OutSets) (l : Locus)
    (hl : freqs[i]? = some l) (hc : l.chrom = bm.chromosome) (hnone : InNone bm i) :
    ∃ bm1 o1, InitBin bm i regionData freqs mafCutoff o = some (bm1, o1) ∧
      InAtMostOne bm1 i ∧
      (bm.bpStart < l.pos → l.pos < bm.effStop →
        (mafCutoff ≤ l.maf ∨ ((regionData l.pos).found = true ∧
          ∃ r ∈ (regionData l.pos).regions, inTrueBounds bm r = true)) →
        InExactlyOne bm1 i) ∧
      ((l.pos ≤ bm.bpStart ∨ bm.effStop ≤ l.pos) → InNone bm1 i) := by
  refine ⟨(classifyLocus bm i l regionData mafCutoff o).1,
    (classifyLocus bm i l regionData mafCutoff o).2, by simp [InitBin, hl], ?_, ?_, ?_⟩
  all_goals
    obtain ⟨h1, h2, h3⟩ := classifyLocus_membership bm i l regionData mafCutoff o i
    obtain ⟨n1, n2, n3⟩ := hnone
    simp only [InBinLookup, InIntergenic, InGenotypeOffsets] at n1 n2 n3
  · simp only [InAtMostOne, InBinLookup, InIntergenic, InGenotypeOffsets, h1, h2, h3]
    refine ⟨fun h => n2 h.2, ?_, fun h => n2 h.1⟩
    rintro ⟨a | ⟨_, _, _, _, a, _⟩, b | ⟨_, _, _, _, b⟩⟩
    · exact n1 a
    · exact n1 a
    · exact n3 b
    · exact absurd a (not_lt.mpr b)
  · intro hp he hcase
    simp only [InExactlyOne, InBinLookup, InIntergenic, InGenotypeOffsets, h1, h2, h3]
    by_cases hm : l.maf < mafCutoff
    · have hm' : ¬ mafCutoff ≤ l.maf := not_le.mpr hm
      rcases hcase with hcase | ⟨hf, hr⟩
      · exact absurd hcase hm'
      · refine Or.inl ⟨Or.inr ⟨trivial, hc, hp, he, hm, hf, hr⟩, n2, ?_⟩
        rintro (a | ⟨_, _, _, _, a⟩)
        · exact n3 a
        · exact hm' a
    · have hm' : mafCutoff ≤ l.maf := not_lt.mp hm
      refine Or.inr (Or.inr ⟨?_, n2, Or.inr ⟨trivial, hc, hp, he, hm'⟩⟩)
      rintro (a | ⟨_, _, _, _, a, _⟩)
      · exact n1 a
      · exact hm a
  · intro hout
    simp only [InNone, InBinLookup, InIntergenic, InGenotypeOffsets, h1, h2, h3]
    refine ⟨?_, n2, ?_⟩
    · rintro (a | ⟨_, _, hp, he, _⟩)
      · exact n1 a
      · omega
    · rintro (a | ⟨_, _, hp, he, _⟩)
      · exact n3 a
      · omega

/-- C1 (amended), at a rare locus of Scenario A: region `[100, 300]` with
identifier 5 covers position 150, and the locus is in `binLookup` only. -/
theorem InitBin_at_most_one_collection_witness :
    ∃ bm1 o1, InitBin (BinManager.init 1 0 1000) 0 (fun _ => ⟨true, [⟨100, 300, 5⟩]⟩)
        [⟨1, 150, 1 / 100⟩] (1 / 20) ⟨[], [], []⟩ = some (bm1, o1) ∧
      InAtMostOne bm1 0 ∧
      ((BinManager.init 1 0 1000).bpStart < 150 → 150 < (BinManager.init 1 0 1000).effStop →
        ((1 / 20 : ℚ) ≤ 1 / 100 ∨ (true = true ∧
          ∃ r ∈ [(⟨100, 300, 5⟩ : Region)], inTrueBounds (BinManager.init 1 0 1000) r = true)) →
        InExactlyOne bm1 0) ∧
      (((150 : Nat) ≤ (BinManager.init 1 0 1000).bpStart ∨
        (BinManager.init 1 0 1000).effStop ≤ 150) → InNone bm1 0) :=
  InitBin_at_most_one_collection (BinManager.init 1 0 1000) 0 (fun _ => ⟨true, [⟨100, 300, 5⟩]⟩)
    [⟨1, 150, 1 / 100⟩] (1 / 20) ⟨[], [], []⟩ ⟨1, 150, 1 / 100⟩ rfl rfl
    (by simp [InNone, InBinLookup, InIntergenic, InGenotypeOffsets, BinManager.init, keys])

/-- C2: for a locus `i` on the manager's chromosome, in range
(`bpStart < pos < effStop`) and common (`mafCutoff ≤ maf`), `InitBin` returns;
afterwards `genotypeOffsets` holds exactly one entry of key `i`, the entry
`(i, i)`, the out-set `genotypes` holds `i`, and `binLookup`, the intergenic
set and the out-sets `intronic` and `binnable` are as before the call. -/
theorem InitBin_common_locus (bm : BinManager) (i : Nat) (regionData : Nat → Coverage)
    (freqs : List Locus) (mafCutoff : ℚ) (o : OutSets) (l : Locus)
    (hl : freqs[i]? = some l) (hc : l.chrom = bm.chromosome) (hp : bm.bpStart < l.pos)
    (he : l.pos < bm.effStop) (hm : mafCutoff ≤ l.maf) (hwf : MapWF bm.genotypeOffsets) :
    ∃ bm1 o1, InitBin bm i regionData freqs mafCutoff o = some (bm1, o1) ∧
      bm1.genotypeOffsets.filter (fun e => decide (e.1 = i)) = [(i, i)] ∧
      i ∈ o1.genotypes ∧
      bm1.binLookup = bm.binLookup ∧
      bm1.intergenicRareVariants = bm.intergenicRareVariants ∧
      o1.intronic = o.intronic ∧ o1.binnable = o.binnable := by
  refine ⟨(classifyLocus bm i l regionData mafCutoff o).1,
    (classifyLocus bm i l regionData mafCutoff o).2, by simp [InitBin, hl], ?_⟩
  rw [classifyLocus_common bm i l regionData mafCutoff o hc hp he hm]
  refine ⟨?_, ?_, rfl, rfl, rfl, rfl⟩
  · exact filter_key_mapSet _ _ _ hwf
  · simp [mem_setInsert]

/-- C2 at the locus of Scenario B: position 500 in segment `[0, 1000]`,
frequency 0.20 with cutoff 0.05. -/
theorem InitBin_common_locus_witness :
    ∃ bm1 o1, InitBin (BinManager.init 1 0 1000) 0 (fun _ => ⟨false, []⟩)
        [⟨1, 500, 1 / 5⟩] (1 / 20) ⟨[], [], []⟩ = some (bm1, o1) ∧
      bm1.genotypeOffsets.filter (fun e => decide (e.1 = 0)) = [(0, 0)] ∧
      0 ∈ o1.genotypes ∧
      bm1.binLookup = (BinManager.init 1 0 1000).binLookup ∧
      bm1.intergenicRareVariants = (BinManager.init 1 0 1000).intergenicRareVariants ∧
      o1.intronic = [] ∧ o1.binnable = [] :=
  InitBin_common_locus (BinManager.init 1 0 1000) 0 (fun _ => ⟨false, []⟩)
    [⟨1, 500, 1 / 5⟩] (1 / 20) ⟨[], [], []⟩ ⟨1, 500, 1 / 5⟩ rfl rfl
    (by simp [BinManager.init]) (by simp [BinManager.init]) (by norm_num)
    (by simp [MapWF, BinManager.init])

/-- C3: for a locus `i` on the manager's chromosome, in range, rare
(`maf < mafCutoff`), for which the coverage query reports coverage and
returns at least one region whose left bound lies in `[bpStart, bpStop]`,
and which is neither in `genotypeOffsets` nor in the intergenic set before
the call: `InitBin` returns, `binLookup` then holds `(i, r.index)` for every
returned region `r` with left bound in `[bpStart, bpStop]`, and `i` is
neither a key of `genotypeOffsets` nor in the intergenic set. -/
theorem InitBin_rare_covered_locus (bm : BinManager) (i : Nat) (regionData : Nat → Coverage)
    (freqs : List Locus) (mafCutoff : ℚ) (o : OutSets) (l : Locus)
    (hl : freqs[i]? = some l) (hc : l.chrom = bm.chromosome) (hp : bm.bpStart < l.pos)
    (he : l.pos < bm.effStop) (hm : l.maf < mafCutoff)
    (hf : (regionData l.pos).found = true)
    (hq : ∃ r ∈ (regionData l.pos).regions, bm.bpStart ≤ r.lBound ∧ r.lBound ≤ bm.bpStop)
    (hg : ¬ InGenotypeOffsets bm i) (hi : ¬ InIntergenic bm i) :
    ∃ bm1 o1, InitBin bm i regionData freqs mafCutoff o = some (bm1, o1) ∧
      (∀ r ∈ (regionData l.pos).regions, bm.bpStart ≤ r.lBound → r.lBound ≤ bm.bpStop →
        (i, r.index) ∈ bm1.binLookup) ∧
      InBinLookup bm1 i ∧ ¬ InGenotypeOffsets bm1 i ∧ ¬ InIntergenic bm1 i := by
  refine ⟨(classifyLocus bm i l regionData mafCutoff o).1,
    (classifyLocus bm i l regionData mafCutoff o).2, by simp [InitBin, hl], ?_⟩
  rw [classifyLocus_covered bm i l regionData mafCutoff o hc hp he hm hf]
  refine ⟨?_, ?_, hg, hi⟩
  · intro r hr h1 h2
    simp only [mem_foldl_mmInsert, List.mem_filter]
    exact Or.inr ⟨r, ⟨hr, (inTrueBounds_iff bm r).mpr ⟨h1, h2⟩⟩, rfl⟩
  · obtain ⟨r, hr, h1, h2⟩ := hq
    simp only [InBinLookup, mem_keys_foldl_mmInsert, List.mem_filter]
    exact Or.inr ⟨trivial, r, hr, (inTrueBounds_iff bm r).mpr ⟨h1, h2⟩⟩

/-- C3 at the locus of Scenario A: segment `[0, 1000]`, region `[100, 300]`
with identifier 5, locus at position 150 with frequency 0.01, cutoff 0.05. -/
theorem InitBin_rare_covered_locus_witness :
    ∃ bm1 o1, InitBin (BinManager.init 1 0 1000) 0 (fun _ => ⟨true, [⟨100, 300, 5⟩]⟩)
        [⟨1, 150, 1 / 100⟩] (1 / 20) ⟨[], [], []⟩ = some (bm1, o1) ∧
      (∀ r ∈ [(⟨100, 300, 5⟩ : Region)], (BinManager.init 1 0 1000).bpStart ≤ r.lBound →
        r.lBound ≤ (BinManager.init 1 0 1000).bpStop → (0, r.index) ∈ bm1.binLookup) ∧
      InBinLookup bm1 0 ∧ ¬ InGenotypeOffsets bm1 0 ∧ ¬ InIntergenic bm1 0 :=
  InitBin_rare_covered_locus (BinManager.init 1 0 1000) 0 (fun _ => ⟨true, [⟨100, 300, 5⟩]⟩)
    [⟨1, 150, 1 / 100⟩] (1 / 20) ⟨[], [], []⟩ ⟨1, 150, 1 / 100⟩ rfl rfl
    (by simp [BinManager.init]) (by simp [BinManager.init]) (by norm_num) rfl
    ⟨⟨100, 300, 5⟩, by simp, by simp [BinManager.init]⟩
    (by simp [InGenotypeOffsets, BinManager.init, keys])
    (by simp [InIntergenic, BinManager.init])

/-- C4 (the code at the failing input): for a rare in-range locus without
coverage the per-locus `InitBin` reports the index in the out-set `intronic`
only and leaves the manager's `intergenicRareVariants` empty, so the index is
in none of the three collections; the batch `InitBins` on the same input
does record it in `intergenicRareVariants`. -/
theorem InitBin_leaves_intergenicRareVariants_empty :
    InitBin (BinManager.init 1 0 1000) 0 (fun _ => ⟨false, []⟩) [⟨1, 900, 1 / 100⟩] (1 / 20)
        ⟨[], [], []⟩ =
      some ({ BinManager.init 1 0 1000 with genotypeBoundaries := (0, 1) }, ⟨[], [], [0]⟩) ∧
    InNone { BinManager.init 1 0 1000 with genotypeBoundaries := (0, 1) } 0 ∧
    (InitBins (BinManager.init 1 0 1000) 0 (fun _ => ⟨false, []⟩) [⟨1, 900, 1 / 100⟩] (1 / 20)
        ⟨[], [], []⟩).1.intergenicRareVariants = [0] := by
  refine ⟨?_, ?_, ?_⟩
  · norm_num [InitBin, classifyLocus, BinManager.init, setInsert]
  · simp [InNone, InBinLookup, InIntergenic, InGenotypeOffsets, BinManager.init, keys]
  · norm_num [InitBins, initBinsLoop, classifyLocus, BinManager.init, setInsert]

/-- C5: for a locus `i` on the manager's chromosome, in range and rare, for
which the coverage query reports coverage, `InitBin` returns; the entries it
adds to `binLookup` are exactly the pairs `(i, r.index)` of the returned
regions `r` with `bpStart ≤ r.lBound ≤ bpStop`; the out-set `binnable` gains
exactly the identifiers of those regions; `effStop` stays or becomes the
right bound of one of those regions; and the returned regions outside
`[bpStart, bpStop]` have no effect: the call gives the same result when they
are left out of the coverage answer. -/
theorem InitBin_records_regions_in_true_bounds (bm : BinManager) (i : Nat)
    (regionData : Nat → Coverage) (freqs : List Locus) (mafCutoff : ℚ) (o : OutSets) (l : Locus)
    (hl : freqs[i]? = some l) (hc : l.chrom = bm.chromosome) (hp : bm.bpStart < l.pos)
    (he : l.pos < bm.effStop) (hm : l.maf < mafCutoff)
    (hf : (regionData l.pos).found = true) :
    ∃ bm1 o1, InitBin bm i regionData freqs mafCutoff o = some (bm1, o1) ∧
      bm1.binLookup.Perm (bm.binLookup ++
        (((regionData l.pos).regions.filter
          (fun r => decide (bm.bpStart ≤ r.lBound ∧ r.lBound ≤ bm.bpStop))).map
            (fun r => (i, r.index)))) ∧
      (∀ x, x ∈ o1.binnable ↔ x ∈ o.binnable ∨
        ∃ r ∈ (regionData l.pos).regions, (bm.bpStart ≤ r.lBound ∧ r.lBound ≤ bm.bpStop) ∧
          r.index = x) ∧
      (bm1.effStop = bm.effStop ∨
        ∃ r ∈ (regionData l.pos).regions, (bm.bpStart ≤ r.lBound ∧ r.lBound ≤ bm.bpStop) ∧
          bm1.effStop = r.rBound ∧ bm.effStop < r.rBound) ∧
      InitBin bm i (fun p => ⟨(regionData p).found,
          (regionData p).regions.filter
            (fun r => decide (bm.bpStart ≤ r.lBound ∧ r.lBound ≤ bm.bpStop))⟩)
        freqs mafCutoff o = some (bm1, o1) := by
  have hfun : (fun r => decide (bm.bpStart ≤ r.lBound ∧ r.lBound ≤ bm.bpStop)) =
      inTrueBounds bm := by
    funext r
    simp only [inTrueBounds, ge_iff_le, decide_eq_decide]
    tauto
  rw [hfun]
  refine ⟨(classifyLocus bm i l regionData mafCutoff o).1,
    (classifyLocus bm i l regionData mafCutoff o).2, by simp [InitBin, hl], ?_⟩
  rw [classifyLocus_covered bm i l regionData mafCutoff o hc hp he hm hf]
  refine ⟨?_, ?_, ?_, ?_⟩
  · exact foldl_mmInsert_perm i _ _
  · intro x
    simp only [mem_foldl_setInsert, List.mem_map, List.mem_filter, inTrueBounds_iff]
    constructor
    · rintro (⟨r, ⟨hr, hb⟩, rfl⟩ | h)
      · exact Or.inr ⟨r, hr, hb, rfl⟩
      · exact Or.inl h
    · rintro (h | ⟨r, hr, hb, rfl⟩)
      · exact Or.inr h
      · exact Or.inl ⟨r, ⟨hr, hb⟩, rfl⟩
  · rcases foldl_effStop_cases (((regionData l.pos).regions).filter (inTrueBounds bm))
      bm.effStop with h | ⟨r, hr, h1, h2⟩
    · exact Or.inl h
    · rw [List.mem_filter, inTrueBounds_iff] at hr
      exact Or.inr ⟨r, hr.1, hr.2, h1, h2⟩
  · simp only [InitBin, hl]
    rw [classifyLocus_covered bm i l
      (fun p => ⟨(regionData p).found, (regionData p).regions.filter (inTrueBounds bm)⟩)
      mafCutoff o hc hp he hm hf]
    simp only [List.filter_filter, Bool.and_self]

/-- C5 at a locus of segment `[0, 1000]` covered by region 5 (`[100, 1200]`,
inside the true bounds, growing the effective stop) and by region 9
(`[1100, 1300]`, starting behind `bpStop`, left out). -/
theorem InitBin_records_regions_in_true_bounds_witness :
    ∃ bm1 o1, InitBin (BinManager.init 1 0 1000) 0
        (fun _ => ⟨true, [⟨100, 1200, 5⟩, ⟨1100, 1300, 9⟩]⟩)
        [⟨1, 150, 1 / 100⟩] (1 / 20) ⟨[], [], []⟩ = some (bm1, o1) ∧
      bm1.binLookup.Perm ((BinManager.init 1 0 1000).binLookup ++
        (([(⟨100, 1200, 5⟩ : Region), ⟨1100, 1300, 9⟩].filter
          (fun r => decide ((BinManager.init 1 0 1000).bpStart ≤ r.lBound ∧
            r.lBound ≤ (BinManager.init 1 0 1000).bpStop))).map
            (fun r => (0, r.index)))) ∧
      (∀ x, x ∈ o1.binnable ↔ x ∈ ([] : List Nat) ∨
        ∃ r ∈ [(⟨100, 1200, 5⟩ : Region), ⟨1100, 1300, 9⟩],
          ((BinManager.init 1 0 1000).bpStart ≤ r.lBound ∧
            r.lBound ≤ (BinManager.init 1 0 1000).bpStop) ∧ r.index = x) ∧
      (bm1.effStop = (BinManager.init 1 0 1000).effStop ∨
        ∃ r ∈ [(⟨100, 1200, 5⟩ : Region), ⟨1100, 1300, 9⟩],
          ((BinManager.init 1 0 1000).bpStart ≤ r.lBound ∧
            r.lBound ≤ (BinManager.init 1 0 1000).bpStop) ∧
          bm1.effStop = r.rBound ∧ (BinManager.init 1 0 1000).effStop < r.rBound) ∧
      InitBin (BinManager.init 1 0 1000) 0 (fun _ => ⟨true,
          [(⟨100, 1200, 5⟩ : Region), ⟨1100, 1300, 9⟩].filter
            (fun r => decide ((BinManager.init 1 0 1000).bpStart ≤ r.lBound ∧
              r.lBound ≤ (BinManager.init 1 0 1000).bpStop))⟩)
        [⟨1, 150, 1 / 100⟩] (1 / 20) ⟨[], [], []⟩ = some (bm1, o1) :=
  InitBin_records_regions_in_true_bounds (BinManager.init 1 0 1000) 0
    (fun _ => ⟨true, [⟨100, 1200, 5⟩, ⟨1100, 1300, 9⟩]⟩)
    [⟨1, 150, 1 / 100⟩] (1 / 20) ⟨[], [], []⟩ ⟨1, 150, 1 / 100⟩ rfl rfl
    (by simp [BinManager.init]) (by simp [BinManager.init]) (by norm_num) rfl

/-- C7: for a locus whose chromosome differs from the manager's chromosome,
`InitBin` returns without error and changes nothing: the manager (with
`binLookup`, the intergenic set, `genotypeOffsets`, `effStop`,
`genotypeBoundaries`) and the three out-sets are as before the call. -/
theorem InitBin_other_chromosome_noop (bm : BinManager) (i : Nat) (regionData : Nat → Coverage)
    (freqs : List Locus) (mafCutoff : ℚ) (o : OutSets) (l : Locus)
    (hl : freqs[i]? = some l) (hc : l.chrom ≠ bm.chromosome) :
    InitBin bm i regionData freqs mafCutoff o = some (bm, o) := by
  simp only [InitBin, hl]
  rw [classifyLocus_other_chrom bm i l regionData mafCutoff o hc]

/-- C7 at a locus of chromosome 2 given to the manager of chromosome 1. -/
theorem InitBin_other_chromosome_noop_witness :
    InitBin (BinManager.init 1 0 1000) 0 (fun _ => ⟨true, [⟨100, 300, 5⟩]⟩)
        [⟨2, 150, 1 / 100⟩] (1 / 20) ⟨[], [], []⟩ =
      some (BinManager.init 1 0 1000, ⟨[], [], []⟩) :=
  InitBin_other_chromosome_noop (BinManager.init 1 0 1000) 0
    (fun _ => ⟨true, [⟨100, 300, 5⟩]⟩) [⟨2, 150, 1 / 100⟩] (1 / 20) ⟨[], [], []⟩
    ⟨2, 150, 1 / 100⟩ rfl (by simp [BinManager.init])

/-! ## The effective stop -/

theorem classifyLocus_grows (bm : BinManager) (i : Nat) (l : Locus)
    (regionData : Nat → Coverage) (mafCutoff : ℚ) (o : OutSets) :
    bm.effStop ≤ (classifyLocus bm i l regionData mafCutoff o).1.effStop ∧
      (classifyLocus bm i l regionData mafCutoff o).1.bpStart = bm.bpStart ∧
      (classifyLocus bm i l regionData mafCutoff o).1.bpStop = bm.bpStop ∧
      (∀ p ∈ bm.binLookup, p ∈ (classifyLocus bm i l regionData mafCutoff o).1.binLookup) ∧
      ((classifyLocus bm i l regionData mafCutoff o).1.effStop = bm.effStop ∨
        ∃ r ∈ (regionData l.pos).regions, (bm.bpStart ≤ r.lBound ∧ r.lBound ≤ bm.bpStop) ∧
          (∃ j, (j, r.index) ∈ (classifyLocus bm i l regionData mafCutoff o).1.binLookup) ∧
          (classifyLocus bm i l regionData mafCutoff o).1.effStop = r.rBound ∧
          bm.effStop < r.rBound) := by
  by_cases hc : l.chrom = bm.chromosome
  · by_cases hp : bm.bpStart < l.pos
    · by_cases he : l.pos < bm.effStop
      · by_cases hm : l.maf < mafCutoff
        · cases hf : (regionData l.pos).found
          · rw [classifyLocus_intergenic bm i l regionData mafCutoff o hc hp he hm hf]
            exact ⟨le_refl _, rfl, rfl, fun _ h => h, Or.inl rfl⟩
          · rw [classifyLocus_covered bm i l regionData mafCutoff o hc hp he hm hf]
            refine ⟨foldl_effStop_ge _ _, rfl, rfl, ?_, ?_⟩
            · intro p hp'
              exact (mem_foldl_mmInsert i _ _ p).mpr (Or.inl hp')
            · rcases foldl_effStop_cases (((regionData l.pos).regions).filter (inTrueBounds bm))
                bm.effStop with h | ⟨r, hr, h1, h2⟩
              · exact Or.inl h
              · have hr' := hr
                rw [List.mem_filter, inTrueBounds_iff] at hr'
                exact Or.inr ⟨r, hr'.1, hr'.2,
                  ⟨i, (mem_foldl_mmInsert i _ _ _).mpr (Or.inr ⟨r, hr, rfl⟩)⟩, h1, h2⟩
        · rw [classifyLocus_common bm i l regionData mafCutoff o hc hp he (not_lt.mp hm)]
          exact ⟨le_refl _, rfl, rfl, fun _ h => h, Or.inl rfl⟩
      · rw [classifyLocus_right bm i l regionData mafCutoff o hc hp (by omega)]
        exact ⟨le_refl _, rfl, rfl, fun _ h => h, Or.inl rfl⟩
    · rw [classifyLocus_left bm i l regionData mafCutoff o hc (by omega)]
      exact ⟨le_refl _, rfl, rfl, fun _ h => h, Or.inl rfl⟩
  · rw [classifyLocus_other_chrom bm i l regionData mafCutoff o hc]
    exact ⟨le_refl _, rfl, rfl, fun _ h => h, Or.inl rfl⟩

theorem initBinsLoop_grows (regionData : Nat → Coverage) (mafCutoff : ℚ) (ls : List Locus)
    (i : Nat) (bm : BinManager) (o : OutSets) :
    bm.effStop ≤ (initBinsLoop regionData mafCutoff ls i bm o).1.effStop ∧
      (initBinsLoop regionData mafCutoff ls i bm o).1.bpStart = bm.bpStart ∧
      (initBinsLoop regionData mafCutoff ls i bm o).1.bpStop = bm.bpStop ∧
      (∀ p ∈ bm.binLookup, p ∈ (initBinsLoop regionData mafCutoff ls i bm o).1.binLookup) ∧
      ((initBinsLoop regionData mafCutoff ls i bm o).1.effStop = bm.effStop ∨
        ∃ l ∈ ls, ∃ r ∈ (regionData l.pos).regions,
          (bm.bpStart ≤ r.lBound ∧ r.lBound ≤ bm.bpStop) ∧
          (∃ j, (j, r.index) ∈ (initBinsLoop regionData mafCutoff ls i bm o).1.binLookup) ∧
          (initBinsLoop regionData mafCutoff ls i bm o).1.effStop = r.rBound ∧
          bm.effStop < r.rBound) := by
  induction ls generalizing i bm o with
  | nil => exact ⟨le_refl _, rfl, rfl, fun _ h => h, Or.inl rfl⟩
  | cons l ls ih =>
    obtain ⟨a1, a2, a3, a4, a5⟩ := classifyLocus_grows bm i l regionData mafCutoff o
    obtain ⟨b1, b2, b3, b4, b5⟩ := ih ((i + 1) % 2 ^ 32)
      (classifyLocus bm i l regionData mafCutoff o).1 (classifyLocus bm i l regionData mafCutoff o).2
    simp only [initBinsLoop]
    refine ⟨le_trans a1 b1, b2.trans a2, b3.trans a3, fun p hp => b4 p (a4 p hp), ?_⟩
    rcases b5 with b5 | ⟨l', hl', r, hr, hb, ⟨j, hj⟩, e1, e2⟩
    · rcases a5 with a5 | ⟨r, hr, hb, ⟨j, hj⟩, e1, e2⟩
      · exact Or.inl (b5.trans a5)
      · exact Or.inr ⟨l, List.mem_cons_self _ _, r, hr, hb, ⟨j, b4 _ hj⟩, b5.trans e1, e2⟩
    · rw [a2, a3] at hb
      exact Or.inr ⟨l', List.mem_cons_of_mem _ hl', r, hr, hb, ⟨j, hj⟩, e1, by omega⟩

theorem InitCall.run_grows (bm bm1 : BinManager) (c : InitCall) (h : c.run bm = some bm1) :
    bm.effStop ≤ bm1.effStop ∧ bm1.bpStart = bm.bpStart ∧ bm1.bpStop = bm.bpStop ∧
      (∀ p ∈ bm.binLookup, p ∈ bm1.binLookup) ∧
      (bm1.effStop = bm.effStop ∨
        ∃ r, c.queried r ∧ (bm.bpStart ≤ r.lBound ∧ r.lBound ≤ bm.bpStop) ∧
          (∃ j, (j, r.index) ∈ bm1.binLookup) ∧ bm1.effStop = r.rBound ∧
          bm.effStop < r.rBound) := by
  cases c with
  | bin i regionData freqs mafCutoff o =>
    simp only [InitCall.run, InitBin] at h
    cases hl : freqs[i]? with
    | none => simp [hl] at h
    | some l =>
      simp only [hl, Option.map_some', Option.some.injEq] at h
      subst h
      obtain ⟨a1, a2, a3, a4, a5⟩ := classifyLocus_grows bm i l regionData mafCutoff o
      refine ⟨a1, a2, a3, a4, ?_⟩
      rcases a5 with a5 | ⟨r, hr, hb, hj, e1, e2⟩
      · exact Or.inl a5
      · exact Or.inr ⟨r, ⟨l, hl, hr⟩, hb, hj, e1, e2⟩
  | bins i regionData freqs mafCutoff o =>
    simp only [InitCall.run, InitBins, Option.some.injEq] at h
    subst h
    obtain ⟨a1, a2, a3, a4, a5⟩ := initBinsLoop_grows regionData mafCutoff freqs i
      { bm with genotypeBoundaries := (i, i) } o
    refine ⟨a1, a2, a3, a4, ?_⟩
    rcases a5 with a5 | ⟨l, hl, r, hr, hb, hj, e1, e2⟩
    · exact Or.inl a5
    · exact Or.inr ⟨r, ⟨l, hl, hr⟩, hb, hj, e1, e2⟩

/-- C6: over every sequence of `InitBin` and `InitBins` calls that runs on a
manager, the effective stop does not decrease and `bpStart`, `bpStop` keep
their values; when the effective stop changed, its new value is the right
bound of a region that one of the calls got from a coverage query, whose
left bound lies in `[bpStart, bpStop]`, whose identifier is recorded in
`binLookup`, and whose right bound exceeds the effective stop from before.
A single call is the sequence of length one. -/
theorem effStop_monotone (bm : BinManager) (calls : List InitCall) (bm1 : BinManager)
    (h : runCalls bm calls = some bm1) :
    bm.effStop ≤ bm1.effStop ∧ bm1.bpStart = bm.bpStart ∧ bm1.bpStop = bm.bpStop ∧
      (bm1.effStop = bm.effStop ∨
        ∃ c ∈ calls, ∃ r, c.queried r ∧ (bm.bpStart ≤ r.lBound ∧ r.lBound ≤ bm.bpStop) ∧
          (∃ j, (j, r.index) ∈ bm1.binLookup) ∧ bm1.effStop = r.rBound ∧
          bm.effStop < r.rBound) := by
  have key : ∀ (calls : List InitCall) (bm bm1 : BinManager), runCalls bm calls = some bm1 →
      bm.effStop ≤ bm1.effStop ∧ bm1.bpStart = bm.bpStart ∧ bm1.bpStop = bm.bpStop ∧
      (∀ p ∈ bm.binLookup, p ∈ bm1.binLookup) ∧
      (bm1.effStop = bm.effStop ∨
        ∃ c ∈ calls, ∃ r, c.queried r ∧ (bm.bpStart ≤ r.lBound ∧ r.lBound ≤ bm.bpStop) ∧
          (∃ j, (j, r.index) ∈ bm1.binLookup) ∧ bm1.effStop = r.rBound ∧
          bm.effStop < r.rBound) := by
    intro calls
    induction calls with
    | nil =>
      intro bm bm1 h
      simp only [runCalls, Option.some.injEq] at h
      subst h
      exact ⟨le_refl _, rfl, rfl, fun _ h => h, Or.inl rfl⟩
    | cons c cs ih =>
      intro bm bm1 h
      simp only [runCalls] at h
      cases hc : c.run bm with
      | none => simp [hc] at h
      | some bm2 =>
        simp only [hc, Option.some_bind] at h
        obtain ⟨a1, a2, a3, a4, a5⟩ := InitCall.run_grows bm bm2 c hc
        obtain ⟨b1, b2, b3, b4, b5⟩ := ih bm2 bm1 h
        refine ⟨le_trans a1 b1, b2.trans a2, b3.trans a3, fun p hp => b4 p (a4 p hp), ?_⟩
        rcases b5 with b5 | ⟨c', hc', r, hq, hb, hj, e1, e2⟩
        · rcases a5 with a5 | ⟨r, hq, hb, ⟨j, hj⟩, e1, e2⟩
          · exact Or.inl (b5.trans a5)
          · exact Or.inr ⟨c, List.mem_cons_self _ _, r, hq, hb, ⟨j, b4 _ hj⟩, b5.trans e1, e2⟩
        · rw [a2, a3] at hb
          exact Or.inr ⟨c', List.mem_cons_of_mem _ hc', r, hq, hb, hj, e1, by omega⟩
  obtain ⟨a1, a2, a3, _, a5⟩ := key calls bm bm1 h
  exact ⟨a1, a2, a3, a5⟩

/-- C6 on the run `exampleCalls`: region 5 (`[100, 1200]`) is recorded for
the locus at position 150 of segment `[0, 1000]`, which grows the effective
stop from 1000 to 1200. -/
theorem effStop_monotone_witness :
    runCalls (BinManager.init 1 0 1000) exampleCalls = some exampleFinal ∧
    ((BinManager.init 1 0 1000).effStop ≤ exampleFinal.effStop ∧
      exampleFinal.bpStart = (BinManager.init 1 0 1000).bpStart ∧
      exampleFinal.bpStop = (BinManager.init 1 0 1000).bpStop ∧
      (exampleFinal.effStop = (BinManager.init 1 0 1000).effStop ∨
        ∃ c ∈ exampleCalls, ∃ r, c.queried r ∧
          ((BinManager.init 1 0 1000).bpStart ≤ r.lBound ∧
            r.lBound ≤ (BinManager.init 1 0 1000).bpStop) ∧
          (∃ j, (j, r.index) ∈ exampleFinal.binLookup) ∧ exampleFinal.effStop = r.rBound ∧
          (BinManager.init 1 0 1000).effStop < r.rBound)) :=
  have h : runCalls (BinManager.init 1 0 1000) exampleCalls = some exampleFinal := by
    norm_num [exampleCalls, exampleFinal, runCalls, InitCall.run, InitBin, InitBins,
      initBinsLoop, classifyLocus, regionLoop, mmInsert, setInsert, BinManager.init]
  ⟨h, effStop_monotone (BinManager.init 1 0 1000) exampleCalls exampleFinal h⟩

/-! ## Conversion maps -/

theorem mapIndex_fst (conv : List (Nat × Nat)) (k : Nat) :
    (mapIndex conv k).1 = convImage conv k := by
  unfold mapIndex convImage
  cases mapFind conv k <;> rfl

theorem convImage_mapIndex (conv : List (Nat × Nat)) (k a : Nat) :
    convImage (mapIndex conv k).2 a = convImage conv a := by
  unfold mapIndex convImage
  cases h : mapFind conv k with
  | some v => rfl
  | none =>
    simp only [mapFind_mapSet]
    by_cases ha : a = k
    · subst ha; simp [h]
    · simp [ha]

theorem mapIndex_snd_of_some (conv : List (Nat × Nat)) (k v : Nat) (h : mapFind conv k = some v) :
    (mapIndex conv k).2 = conv := by
  simp [mapIndex, h]

theorem mapFind_mapIndex_self (conv : List (Nat × Nat)) (k : Nat) :
    mapFind (mapIndex conv k).2 k = some (convImage conv k) := by
  unfold mapIndex convImage
  cases h : mapFind conv k with
  | some v => simpa using h
  | none => simp [mapFind_mapSet]

theorem mapFind_mapIndex_of_some (conv : List (Nat × Nat)) (k a v : Nat)
    (h : mapFind conv a = some v) : mapFind (mapIndex conv k).2 a = some v := by
  unfold mapIndex
  cases hk : mapFind conv k with
  | some w => simpa using h
  | none =>
    have hne : a ≠ k := by
      rintro rfl
      rw [h] at hk
      exact Option.noConfusion hk
    simp [mapFind_mapSet, hne, h]

theorem convImage_of_some (conv : List (Nat × Nat)) (k v : Nat) (h : mapFind conv k = some v) :
    convImage conv k = v := by
  simp [convImage, h]

/-! ## Realignment of the bins -/

theorem realignBinsLoop_fst (es lookup conv : List (Nat × Nat)) :
    (realignBinsLoop es lookup conv).1 =
      es.foldl (fun m e => mmInsert m e.1 (convImage conv e.2)) lookup := by
  induction es generalizing lookup conv with
  | nil => rfl
  | cons e es ih =>
    simp only [realignBinsLoop, List.foldl_cons]
    rw [ih, mapIndex_fst]
    have hf : (fun (m : List (Nat × Nat)) (x : Nat × Nat) =>
        mmInsert m x.1 (convImage (mapIndex conv e.2).2 x.2)) =
        (fun m x => mmInsert m x.1 (convImage conv x.2)) := by
      funext m x
      rw [convImage_mapIndex]
    rw [hf]

theorem realignBinsLoop_snd_convImage (es lookup conv : List (Nat × Nat)) (a : Nat) :
    convImage (realignBinsLoop es lookup conv).2 a = convImage conv a := by
  induction es generalizing lookup conv with
  | nil => rfl
  | cons e es ih =>
    simp only [realignBinsLoop]
    rw [ih, convImage_mapIndex]

theorem realignBinsLoop_snd_of_total (es lookup conv : List (Nat × Nat))
    (h : ∀ e ∈ es, ∃ v, mapFind conv e.2 = some v) :
    (realignBinsLoop es lookup conv).2 = conv := by
  induction es generalizing lookup conv with
  | nil => rfl
  | cons e es ih =>
    obtain ⟨v, hv⟩ := h e (List.mem_cons_self _ _)
    simp only [realignBinsLoop]
    rw [mapIndex_snd_of_some conv e.2 v hv]
    exact ih _ conv (fun x hx => h x (List.mem_cons_of_mem _ hx))

theorem realignBinsLoop_snd_some (es lookup conv : List (Nat × Nat)) (a v : Nat)
    (h : mapFind conv a = some v) : mapFind (realignBinsLoop es lookup conv).2 a = some v := by
  induction es generalizing lookup conv with
  | nil => exact h
  | cons e es ih =>
    simp only [realignBinsLoop]
    exact ih _ _ (mapFind_mapIndex_of_some conv e.2 a v h)

theorem realignBinsLoop_snd_mem (es lookup conv : List (Nat × Nat)) (e : Nat × Nat)
    (he : e ∈ es) :
    mapFind (realignBinsLoop es lookup conv).2 e.2 = some (convImage conv e.2) := by
  induction es generalizing lookup conv with
  | nil => simp at he
  | cons x es ih =>
    simp only [realignBinsLoop]
    rcases List.mem_cons.mp he with rfl | he'
    · exact realignBinsLoop_snd_some es _ _ _ _ (mapFind_mapIndex_self conv e.2)
    · rw [ih _ _ he', convImage_mapIndex]

theorem foldl_mmInsert_pairs_perm (f : Nat → Nat) (es m : List (Nat × Nat)) :
    (es.foldl (fun m e => mmInsert m e.1 (f e.2)) m).Perm
      (m ++ es.map (fun e => (e.1, f e.2))) := by
  induction es generalizing m with
  | nil => simp
  | cons e es ih =>
    simp only [List.foldl_cons, List.map_cons]
    refine (ih _).trans ?_
    refine ((mmInsert_perm m e.1 (f e.2)).append_right _).trans ?_
    simpa using (@List.perm_middle _ (e.1, f e.2) m (es.map fun e => (e.1, f e.2))).symm

theorem mmInsert_of_le (m : List (Nat × Nat)) (k v : Nat) (h : ∀ x ∈ m, x.1 ≤ k) :
    mmInsert m k v = m ++ [(k, v)] := by
  induction m with
  | nil => rfl
  | cons e es ih =>
    have h1 : ¬ k < e.1 := by
      have := h e (List.mem_cons_self _ _)
      omega
    simp only [mmInsert, if_neg h1, List.cons_append]
    rw [ih (fun x hx => h x (List.mem_cons_of_mem _ hx))]

theorem foldl_mmInsert_sorted (f : Nat → Nat) (es m : List (Nat × Nat)) (hs : MultimapWF es)
    (hm : ∀ x ∈ m, ∀ e ∈ es, x.1 ≤ e.1) :
    es.foldl (fun m e => mmInsert m e.1 (f e.2)) m = m ++ es.map (fun e => (e.1, f e.2)) := by
  induction es generalizing m with
  | nil => simp
  | cons e es ih =>
    have hs' := List.pairwise_cons.mp hs
    simp only [List.foldl_cons, List.map_cons]
    rw [mmInsert_of_le m e.1 (f e.2) (fun x hx => hm x hx e (List.mem_cons_self _ _))]
    rw [ih _ hs'.2]
    · simp
    · intro x hx y hy
      rcases List.mem_append.mp hx with hx | hx
      · exact hm x hx y (List.mem_cons_of_mem _ hy)
      · simp only [List.mem_singleton] at hx
        subst hx
        exact hs'.1 y hy

theorem RealignBins_binLookup (bm : BinManager) (conv : List (Nat × Nat)) :
    (RealignBins bm conv).1.binLookup =
      bm.binLookup.foldl (fun m e => mmInsert m e.1 (convImage conv e.2)) [] := by
  simp only [RealignBins]
  exact realignBinsLoop_fst _ _ _

theorem RealignBins_perm (bm : BinManager) (conv : List (Nat × Nat)) :
    (RealignBins bm conv).1.binLookup.Perm
      (bm.binLookup.map (fun e => (e.1, convImage conv e.2))) := by
  rw [RealignBins_binLookup]
  simpa using foldl_mmInsert_pairs_perm (convImage conv) bm.binLookup []

theorem map_congr_total (f : Nat → Nat) (conv es : List (Nat × Nat))
    (h : ∀ e ∈ es, mapFind conv e.2 = some (f e.2)) :
    es.map (fun e => (e.1, convImage conv e.2)) = es.map (fun e => (e.1, f e.2)) := by
  apply List.map_congr_left
  intro e he
  rw [convImage_of_some conv e.2 (f e.2) (h e he)]

/-- C8: when the conversion map has the entry `f id` for every region
identifier `id` stored in `binLookup`, `RealignBins` replaces each entry
`(locus, id)` by `(locus, f id)`: the new `binLookup` is a permutation of the
rewritten entries, and is the rewritten list itself, entry by entry and in
the same order, when `binLookup` has the shape of a multimap; the number of
entries of every locus, the total number of entries and the set of locus
keys are unchanged; the intergenic set, `genotypeOffsets`, the bounds and the
conversion map are unchanged. -/
theorem RealignBins_rewrites_entries (bm : BinManager) (conv : List (Nat × Nat)) (f : Nat → Nat)
    (htotal : ∀ e ∈ bm.binLookup, mapFind conv e.2 = some (f e.2)) :
    (RealignBins bm conv).1.binLookup.Perm (bm.binLookup.map (fun e => (e.1, f e.2))) ∧
      (MultimapWF bm.binLookup →
        (RealignBins bm conv).1.binLookup = bm.binLookup.map (fun e => (e.1, f e.2))) ∧
      (∀ k, ((RealignBins bm conv).1.binLookup.filter (fun e => decide (e.1 = k))).length =
        (bm.binLookup.filter (fun e => decide (e.1 = k))).length) ∧
      (RealignBins bm conv).1.binLookup.length = bm.binLookup.length ∧
      (∀ k, k ∈ keys (RealignBins bm conv).1.binLookup ↔ k ∈ keys bm.binLookup) ∧
      (RealignBins bm conv).1.intergenicRareVariants = bm.intergenicRareVariants ∧
      (RealignBins bm conv).1.genotypeOffsets = bm.genotypeOffsets ∧
      (RealignBins bm conv).1.chromosome = bm.chromosome ∧
      (RealignBins bm conv).1.bpStart = bm.bpStart ∧
      (RealignBins bm conv).1.bpStop = bm.bpStop ∧
      (RealignBins bm conv).1.effStop = bm.effStop ∧
      (RealignBins bm conv).1.genotypeBoundaries = bm.genotypeBoundaries ∧
      (RealignBins bm conv).2 = conv := by
  have hperm : (RealignBins bm conv).1.binLookup.Perm
      (bm.binLookup.map (fun e => (e.1, f e.2))) := by
    rw [← map_congr_total f conv bm.binLookup htotal]
    exact RealignBins_perm bm conv
  refine ⟨hperm, ?_, ?_, ?_, ?_, rfl, rfl, rfl, rfl, rfl, rfl, rfl, ?_⟩
  · intro hwf
    rw [RealignBins_binLookup, foldl_mmInsert_sorted (convImage conv) bm.binLookup [] hwf
      (by simp), List.nil_append]
    exact map_congr_total f conv bm.binLookup htotal
  · intro k
    rw [(hperm.filter _).length_eq, List.filter_map, List.length_map]
    rfl
  · rw [hperm.length_eq, List.length_map]
  · intro k
    simp only [keys, List.mem_map]
    constructor
    · rintro ⟨p, hp, rfl⟩
      obtain ⟨e, he, rfl⟩ := List.mem_map.mp (hperm.mem_iff.mp hp)
      exact ⟨e, he, rfl⟩
    · rintro ⟨e, he, rfl⟩
      exact ⟨(e.1, f e.2), hperm.mem_iff.mpr (List.mem_map.mpr ⟨e, he, rfl⟩), rfl⟩
  · exact realignBinsLoop_snd_of_total _ _ _ (fun e he => ⟨f e.2, htotal e he⟩)

/-- C8 on the lookup of Scenario D, locus 0 in the regions 5 and 6, with the
compaction map `5 ↦ 1`, `6 ↦ 2`. -/
theorem RealignBins_rewrites_entries_witness :
    (RealignBins { BinManager.init 1 0 1000 with binLookup := [(0, 5), (0, 6)] }
        [(5, 1), (6, 2)]).1.binLookup = [(0, 1), (0, 2)] :=
  (RealignBins_rewrites_entries { BinManager.init 1 0 1000 with binLookup := [(0, 5), (0, 6)] }
    [(5, 1), (6, 2)] (fun id => id - 4) (by decide)).2.1 (by simp [MultimapWF, BinManager.init])

/-- C9 (as stated, refuted): `binLookup` holds the region identifier 5, the
conversion map is empty, and `RealignBins` returns a rewritten `binLookup`
in which the identifier has become bin 0; the map has gained `5 ↦ 0`. -/
theorem RealignBins_unmapped_identifier_returns :
    mapFind [] 5 = none ∧
    RealignBins { BinManager.init 1 0 1000 with binLookup := [(0, 5)] } [] =
      ({ BinManager.init 1 0 1000 with binLookup := [(0, 0)] }, [(5, 0)]) := by
  decide

/-- C9 (amended): `RealignBins` does not fail on an identifier without entry
in the conversion map: every entry `(locus, id)` is rewritten to the map's
value for `id`, and to bin 0 when `id` has no entry, as `operator[]` inserts
`id ↦ 0` into the conversion map. -/
theorem RealignBins_unmapped_identifier_to_zero (bm : BinManager) (conv : List (Nat × Nat))
    (e : Nat × Nat) (he : e ∈ bm.binLookup) (hmiss : mapFind conv e.2 = none) :
    (RealignBins bm conv).1.binLookup.Perm
        (bm.binLookup.map (fun x => (x.1, (mapFind conv x.2).getD 0))) ∧
      (e.1, 0) ∈ (RealignBins bm conv).1.binLookup ∧
      mapFind (RealignBins bm conv).2 e.2 = some 0 := by
  have hz : convImage conv e.2 = 0 := by simp [convImage, hmiss]
  refine ⟨RealignBins_perm bm conv, ?_, ?_⟩
  · rw [(RealignBins_perm bm conv).mem_iff, List.mem_map]
    exact ⟨e, he, by rw [hz]⟩
  · have := realignBinsLoop_snd_mem bm.binLookup [] conv e he
    rw [hz] at this
    exact this

/-- C9 (amended) on the lookup `[(0, 5)]` with the empty conversion map. -/
theorem RealignBins_unmapped_identifier_to_zero_witness :
    (RealignBins { BinManager.init 1 0 1000 with binLookup := [(0, 5)] } []).1.binLookup.Perm
        ([(0, 5)].map (fun x => (x.1, (mapFind [] x.2).getD 0))) ∧
      (0, 0) ∈ (RealignBins { BinManager.init 1 0 1000 with binLookup := [(0, 5)] } []).1.binLookup ∧
      mapFind (RealignBins { BinManager.init 1 0 1000 with binLookup := [(0, 5)] } []).2 5 =
        some 0 :=
  RealignBins_unmapped_identifier_to_zero { BinManager.init 1 0 1000 with binLookup := [(0, 5)] }
    [] (0, 5) (by decide) (by decide)

/-! ## Realignment of the genotype slots -/

theorem realignGenotypesLoop_fst (es conv : List (Nat × Nat)) :
    (realignGenotypesLoop es conv).1 = es.map (fun e => (e.1, convImage conv e.1)) := by
  induction es generalizing conv with
  | nil => rfl
  | cons e es ih =>
    simp only [realignGenotypesLoop, List.map_cons]
    rw [ih, mapIndex_fst]
    congr 1
    apply List.map_congr_left
    intro x _
    rw [convImage_mapIndex]

theorem mem_mapSet_imp (m : List (Nat × Nat)) (k v : Nat) (e : Nat × Nat)
    (h : e ∈ mapSet m k v) : e = (k, v) ∨ e ∈ m := by
  induction m with
  | nil => simp [mapSet] at h; exact Or.inl h
  | cons x xs ih =>
    unfold mapSet at h
    split at h
    · rcases List.mem_cons.mp h with h | h
      · exact Or.inl h
      · exact Or.inr h
    · split at h
      · rcases List.mem_cons.mp h with h | h
        · exact Or.inl h
        · exact Or.inr (List.mem_cons_of_mem _ h)
      · rcases List.mem_cons.mp h with h | h
        · exact Or.inr (by rw [h]; exact List.mem_cons_self _ _)
        · rcases ih h with h | h
          · exact Or.inl h
          · exact Or.inr (List.mem_cons_of_mem _ h)

theorem classifyLocus_provisional (bm : BinManager) (i : Nat) (l : Locus)
    (regionData : Nat → Coverage) (mafCutoff : ℚ) (o : OutSets) (h : Provisional bm) :
    Provisional (classifyLocus bm i l regionData mafCutoff o).1 := by
  unfold classifyLocus
  simp only [regionLoop_eq]
  split_ifs
  · exact h
  · exact h
  · intro e he
    rcases mem_mapSet_imp _ _ _ _ he with rfl | he
    · rfl
    · exact h e he
  · exact h
  · exact h
  · exact h

theorem initBinsLoop_provisional (regionData : Nat → Coverage) (mafCutoff : ℚ)
    (ls : List Locus) (i : Nat) (bm : BinManager) (o : OutSets) (h : Provisional bm) :
    Provisional (initBinsLoop regionData mafCutoff ls i bm o).1 := by
  induction ls generalizing i bm o with
  | nil => exact h
  | cons l ls ih =>
    simp only [initBinsLoop]
    exact ih _ _ _ (classifyLocus_provisional bm i l regionData mafCutoff o h)

/-- Every state that a sequence of `InitBin` and `InitBins` calls produces
from a new manager holds provisional slots only. -/
theorem runCalls_provisional (calls : List InitCall) (bm bm1 : BinManager)
    (h : Provisional bm) (hrun : runCalls bm calls = some bm1) : Provisional bm1 := by
  induction calls generalizing bm with
  | nil =>
    simp only [runCalls, Option.some.injEq] at hrun
    rw [← hrun]; exact h
  | cons c cs ih =>
    simp only [runCalls] at hrun
    cases hc : c.run bm with
    | none => simp [hc] at hrun
    | some bm2 =>
      simp only [hc, Option.some_bind] at hrun
      refine ih bm2 ?_ hrun
      cases c with
      | bin i regionData freqs mafCutoff o =>
        simp only [InitCall.run, InitBin] at hc
        cases hl : freqs[i]? with
        | none => simp [hl] at hc
        | some l =>
          simp only [hl, Option.map_some', Option.some.injEq] at hc
          rw [← hc]
          exact classifyLocus_provisional bm i l regionData mafCutoff o h
      | bins i regionData freqs mafCutoff o =>
        simp only [InitCall.run, InitBins, Option.some.injEq] at hc
        rw [← hc]
        exact initBinsLoop_provisional regionData mafCutoff freqs i
          { bm with genotypeBoundaries := (i, i) } o h

theorem provisional_init (chrom bpStart bpStop : Nat) :
    Provisional (BinManager.init chrom bpStart bpStop) := by
  intro e he
  simp [BinManager.init] at he

/-- C10: for every manager whose entries of `genotypeOffsets` hold their
provisional slots, as every state that classification produces does, and
every conversion map, `RealignGenotypes` keeps the keys of `genotypeOffsets`
and replaces the value of each entry by the conversion map's image of the
provisional slot that the entry held; `binLookup` and the intergenic set are
unchanged. -/
theorem RealignGenotypes_rewrites_provisional_slots (bm : BinManager)
    (conv : List (Nat × Nat)) (hprov : Provisional bm) :
    keys (RealignGenotypes bm conv).1.genotypeOffsets = keys bm.genotypeOffsets ∧
      (RealignGenotypes bm conv).1.genotypeOffsets =
        bm.genotypeOffsets.map (fun e => (e.1, convImage conv e.2)) ∧
      (RealignGenotypes bm conv).1.binLookup = bm.binLookup ∧
      (RealignGenotypes bm conv).1.intergenicRareVariants = bm.intergenicRareVariants := by
  have h1 : (RealignGenotypes bm conv).1.genotypeOffsets =
      bm.genotypeOffsets.map (fun e => (e.1, convImage conv e.1)) := by
    simp only [RealignGenotypes]
    exact realignGenotypesLoop_fst _ _
  refine ⟨?_, ?_, rfl, rfl⟩
  · rw [h1]
    simp [keys, List.map_map, Function.comp_def]
  · rw [h1]
    apply List.map_congr_left
    intro e he
    rw [hprov e he]

/-- C10 on the state that `InitBin` leaves for the common loci 3 and 5, with
the compaction map `3 ↦ 0`, `5 ↦ 1`: the slots become 0 and 1. -/
theorem RealignGenotypes_rewrites_provisional_slots_witness :
    (RealignGenotypes { BinManager.init 1 0 1000 with genotypeOffsets := [(3, 3), (5, 5)] }
        [(3, 0), (5, 1)]).1.genotypeOffsets =
      [(3, 3), (5, 5)].map (fun e => (e.1, convImage [(3, 0), (5, 1)] e.2)) ∧
    [(3, 3), (5, 5)].map (fun e => (e.1, convImage [(3, 0), (5, 1)] e.2)) = [(3, 0), (5, 1)] :=
  ⟨(RealignGenotypes_rewrites_provisional_slots
    { BinManager.init 1 0 1000 with genotypeOffsets := [(3, 3), (5, 5)] }
    [(3, 0), (5, 1)] (by unfold Provisional; decide)).2.1, by decide⟩

/-! ## Realignment of the bins: identity and composition -/

theorem mmInsert_wf (m : List (Nat × Nat)) (k v : Nat) (h : MultimapWF m) :
    MultimapWF (mmInsert m k v) := by
  induction m with
  | nil => simp [mmInsert, MultimapWF]
  | cons e es ih =>
    have h' := List.pairwise_cons.mp h
    unfold mmInsert
    by_cases hk : k < e.1
    · rw [if_pos hk]
      refine List.pairwise_cons.mpr ⟨?_, h⟩
      intro x hx
      rcases List.mem_cons.mp hx with rfl | hx
      · exact Nat.le_of_lt hk
      · exact le_trans (Nat.le_of_lt hk) (h'.1 x hx)
    · rw [if_neg hk]
      refine List.pairwise_cons.mpr ⟨?_, ih h'.2⟩
      intro x hx
      rcases (mem_mmInsert es k v x).mp hx with rfl | hx
      · exact Nat.le_of_not_lt hk
      · exact h'.1 x hx

theorem foldl_mmInsert_wf (f : Nat → Nat) (es m : List (Nat × Nat)) (h : MultimapWF m) :
    MultimapWF (es.foldl (fun m e => mmInsert m e.1 (f e.2)) m) := by
  induction es generalizing m with
  | nil => exact h
  | cons e es ih => exact ih _ (mmInsert_wf m e.1 (f e.2) h)

theorem RealignBins_wf (bm : BinManager) (conv : List (Nat × Nat)) :
    MultimapWF (RealignBins bm conv).1.binLookup := by
  rw [RealignBins_binLookup]
  exact foldl_mmInsert_wf _ _ _ List.Pairwise.nil

theorem RealignBins_fst_eq (bm : BinManager) (conv : List (Nat × Nat)) :
    (RealignBins bm conv).1 = { bm with binLookup := (RealignBins bm conv).1.binLookup } := rfl

theorem RealignBins_identity (bm : BinManager) (ident : List (Nat × Nat))
    (hwf : MultimapWF bm.binLookup) (hid : ∀ e ∈ bm.binLookup, mapFind ident e.2 = some e.2) :
    RealignBins bm ident = (bm, ident) := by
  have h1 : (RealignBins bm ident).1.binLookup = bm.binLookup := by
    rw [RealignBins_binLookup, foldl_mmInsert_sorted (convImage ident) bm.binLookup [] hwf
      (by simp), List.nil_append, map_congr_total (fun x => x) ident bm.binLookup hid]
    simp
  have h2 : (RealignBins bm ident).2 = ident :=
    realignBinsLoop_snd_of_total _ _ _ (fun e he => ⟨e.2, hid e he⟩)
  have h3 : (RealignBins bm ident).1 = bm := by
    rw [RealignBins_fst_eq, h1]
  exact Prod.ext h3 h2

/-- C11: `RealignBins` with a conversion map that maps every bin identifier
present in `binLookup` to itself changes nothing: the manager, with the
entries of `binLookup` and their order, and the map are as before, for every
manager whose `binLookup` has the shape of a multimap (ascending keys); and
the same holds for the manager that any earlier `RealignBins` returns. -/
theorem RealignBins_identity_noop (bm : BinManager) (ident : List (Nat × Nat)) :
    (MultimapWF bm.binLookup → (∀ e ∈ bm.binLookup, mapFind ident e.2 = some e.2) →
      RealignBins bm ident = (bm, ident)) ∧
    (∀ conv : List (Nat × Nat),
      (∀ e ∈ (RealignBins bm conv).1.binLookup, mapFind ident e.2 = some e.2) →
      RealignBins (RealignBins bm conv).1 ident = ((RealignBins bm conv).1, ident)) :=
  ⟨fun hwf hid => RealignBins_identity bm ident hwf hid,
    fun conv hid => RealignBins_identity _ ident (RealignBins_wf bm conv) hid⟩

/-- C11 on the lookup of Scenario D after compaction, locus 0 in the bins 1
and 2 and locus 3 in bin 2, with the identity map on the bins 1 and 2. -/
theorem RealignBins_identity_noop_witness :
    RealignBins { BinManager.init 1 0 1000 with binLookup := [(0, 1), (0, 2), (3, 2)] }
        [(1, 1), (2, 2)] =
      ({ BinManager.init 1 0 1000 with binLookup := [(0, 1), (0, 2), (3, 2)] },
        [(1, 1), (2, 2)]) :=
  (RealignBins_identity_noop
    { BinManager.init 1 0 1000 with binLookup := [(0, 1), (0, 2), (3, 2)] }
    [(1, 1), (2, 2)]).1 (by simp [MultimapWF, BinManager.init]) (by decide)

theorem mmInsert_map_snd (g : Nat → Nat) (m : List (Nat × Nat)) (k v : Nat) :
    mmInsert (m.map (fun e => (e.1, g e.2))) k (g v) =
      (mmInsert m k v).map (fun e => (e.1, g e.2)) := by
  induction m with
  | nil => rfl
  | cons e es ih =>
    simp only [List.map_cons, mmInsert]
    by_cases hk : k < e.1
    · simp [hk]
    · simp [hk, ih]

theorem foldl_mmInsert_map_snd (f g : Nat → Nat) (es m : List (Nat × Nat)) :
    es.foldl (fun m e => mmInsert m e.1 (g (f e.2))) (m.map (fun e => (e.1, g e.2))) =
      (es.foldl (fun m e => mmInsert m e.1 (f e.2)) m).map (fun e => (e.1, g e.2)) := by
  induction es generalizing m with
  | nil => rfl
  | cons e es ih =>
    simp only [List.foldl_cons]
    rw [mmInsert_map_snd, ih]

theorem foldl_mmInsert_congr (f g : Nat → Nat) (es m : List (Nat × Nat))
    (h : ∀ e ∈ es, f e.2 = g e.2) :
    es.foldl (fun m e => mmInsert m e.1 (f e.2)) m =
      es.foldl (fun m e => mmInsert m e.1 (g e.2)) m := by
  induction es generalizing m with
  | nil => rfl
  | cons e es ih =>
    simp only [List.foldl_cons]
    rw [h e (List.mem_cons_self _ _), ih _ (fun x hx => h x (List.mem_cons_of_mem _ hx))]

theorem RealignBins_twice (bm : BinManager) (m1 m2 : List (Nat × Nat)) :
    (RealignBins (RealignBins bm m1).1 m2).1.binLookup =
      bm.binLookup.foldl (fun m e => mmInsert m e.1 (convImage m2 (convImage m1 e.2))) [] := by
  rw [RealignBins_binLookup, foldl_mmInsert_sorted (convImage m2) _ [] (RealignBins_wf bm m1)
    (by simp), List.nil_append, RealignBins_binLookup]
  exact (foldl_mmInsert_map_snd (convImage m1) (convImage m2) bm.binLookup []).symm

/-- C12: when the map `m1` has the entry `f1 id` for every identifier `id` in
`binLookup`, the map `m2` has the entry `f2 (f1 id)` for every image
`f1 id`, and the map `m12` is the composed map with the entry `f2 (f1 id)`
for every `id`, then `RealignBins` with `m1` followed by `RealignBins` with
`m2` leaves the manager, and so `binLookup`, in the same state as one
`RealignBins` with `m12`. -/
theorem RealignBins_compose (bm : BinManager) (m1 m2 m12 : List (Nat × Nat)) (f1 f2 : Nat → Nat)
    (h1 : ∀ e ∈ bm.binLookup, mapFind m1 e.2 = some (f1 e.2))
    (h2 : ∀ e ∈ bm.binLookup, mapFind m2 (f1 e.2) = some (f2 (f1 e.2)))
    (h12 : ∀ e ∈ bm.binLookup, mapFind m12 e.2 = some (f2 (f1 e.2))) :
    (RealignBins (RealignBins bm m1).1 m2).1 = (RealignBins bm m12).1 := by
  have hb : (RealignBins (RealignBins bm m1).1 m2).1.binLookup =
      (RealignBins bm m12).1.binLookup := by
    rw [RealignBins_twice, RealignBins_binLookup]
    apply foldl_mmInsert_congr (fun x => convImage m2 (convImage m1 x)) (convImage m12)
    intro e he
    show convImage m2 (convImage m1 e.2) = convImage m12 e.2
    rw [convImage_of_some m1 _ _ (h1 e he), convImage_of_some m2 _ _ (h2 e he),
      convImage_of_some m12 _ _ (h12 e he)]
  rw [RealignBins_fst_eq, RealignBins_fst_eq bm m12, ← hb]
  rfl

/-- C12 on the lookup of Scenario D: the regions 5 and 6 go to the bins 1 and
2 and from there to the bins 11 and 12, or directly to 11 and 12. -/
theorem RealignBins_compose_witness :
    (RealignBins (RealignBins { BinManager.init 1 0 1000 with binLookup := [(0, 5), (0, 6)] }
        [(5, 1), (6, 2)]).1 [(1, 11), (2, 12)]).1 =
      (RealignBins { BinManager.init 1 0 1000 with binLookup := [(0, 5), (0, 6)] }
        [(5, 11), (6, 12)]).1 :=
  RealignBins_compose { BinManager.init 1 0 1000 with binLookup := [(0, 5), (0, 6)] }
    [(5, 1), (6, 2)] [(1, 11), (2, 12)] [(5, 11), (6, 12)] (fun id => id - 4) (fun b => b + 10)
    (by decide) (by decide) (by decide)

/-! ## Genotype streaming: the loops -/

theorem take_count (genotypes : List Int) (hlen : genotypes.length < 2 ^ 32) :
    genotypes.take (genotypes.length % 2 ^ 32) = genotypes := by
  rw [Nat.mod_eq_of_lt hlen, List.take_length]

theorem parseLoop_pointwise (isRareIntron : Bool) (snpIndex : Nat) (bm : BinManager)
    (f : Int → Individual → Individual) (codes : List Int) (data : List Individual)
    (hdata : codes.length ≤ data.length)
    (hstep : ∀ (i : Nat) (code : Int) (ind : Individual), codes[i]? = some code →
      data[i]? = some ind →
      parseStep isRareIntron snpIndex code bm ind = some (bm, f code ind)) :
    ∃ data1 : List Individual,
      parseLoop isRareIntron snpIndex codes data bm = some (bm, data1) ∧
      data1.length = data.length ∧
      ∀ (i : Nat) (ind : Individual), data[i]? = some ind →
        data1[i]? = some (match codes[i]? with
          | some code => f code ind
          | none => ind) := by
  induction codes generalizing data with
  | nil =>
    refine ⟨data, by simp [parseLoop], rfl, ?_⟩
    intro i ind hi
    simpa using hi
  | cons code codes ih =>
    cases data with
    | nil => simp at hdata
    | cons ind0 rest =>
      have h0 := hstep 0 code ind0 (by simp) (by simp)
      obtain ⟨data1, h1, h2, h3⟩ := ih rest (by simpa using hdata)
        (fun i c ind hc hi => hstep (i + 1) c ind (by simpa using hc) (by simpa using hi))
      refine ⟨f code ind0 :: data1, by simp [parseLoop, h0, h1], by simp [h2], ?_⟩
      intro i ind hi
      cases i with
      | zero =>
        simp only [List.getElem?_cons_zero, Option.some.injEq] at hi
        subst hi
        simp
      | succ i =>
        simp only [List.getElem?_cons_succ] at hi ⊢
        exact h3 i ind hi

theorem parseLoop_binLookup (isRareIntron : Bool) (snpIndex : Nat) (codes : List Int)
    (data : List Individual) (bm : BinManager) (r : BinManager × List Individual)
    (h : parseLoop isRareIntron snpIndex codes data bm = some r) :
    r.1.binLookup = bm.binLookup := by
  induction codes generalizing data bm r with
  | nil =>
    simp only [parseLoop, Option.some.injEq] at h
    subst h; rfl
  | cons code codes ih =>
    cases data with
    | nil => simp [parseLoop] at h
    | cons ind0 rest =>
      simp only [parseLoop] at h
      cases hs : parseStep isRareIntron snpIndex code bm ind0 with
      | none => simp [hs] at h
      | some r0 =>
        simp only [hs] at h
        cases hl : parseLoop isRareIntron snpIndex codes rest r0.1 with
        | none => simp [hl] at h
        | some r1 =>
          simp only [hl, Option.some.injEq] at h
          subst h
          have e1 := ih rest r0.1 r1 hl
          have e0 : r0.1.binLookup = bm.binLookup := by
            unfold parseStep at hs
            split at hs
            · split at hs
              · cases ha : addToBin ind0.binData 0 code with
                | none => simp [ha] at hs
                | some bd =>
                  simp only [ha, Option.map_some', Option.some.injEq] at hs
                  subst hs; rfl
              · simp only [Option.some.injEq] at hs
                subst hs; rfl
            · split at hs
              · cases ha : binsLoop (adjacentBins bm snpIndex) code ind0.binData with
                | none => simp [ha] at hs
                | some bd =>
                  simp only [ha, Option.map_some', Option.some.injEq] at hs
                  subst hs; rfl
              · cases ha : SetGenotype ind0.genotypes (mapIndex bm.genotypeOffsets snpIndex).1
                    code with
                | none => simp [ha] at hs
                | some g =>
                  simp only [ha, Option.map_some', Option.some.injEq] at hs
                  subst hs; rfl
          exact e1.trans e0

theorem addToBin_some (binData : List Nat) (b : Nat) (code : Int) (v : Nat)
    (h : binData[b]? = some v) :
    addToBin binData b code = some (binData.set b ((v + code.toNat) % 2 ^ 32)) := by
  simp [addToBin, h]

theorem binsLoop_missing (adj : List Nat) (code : Int) (binData : List Nat)
    (hmiss : ¬ code > -1) : binsLoop adj code binData = some binData := by
  induction adj with
  | nil => rfl
  | cons b bs ih => simp [binsLoop, hmiss, ih]

theorem binsLoop_spec (adj : List Nat) (code : Int) (binData : List Nat) (hcode : code > -1)
    (hrange : ∀ b ∈ adj, b < binData.length) :
    ∃ res : List Nat, binsLoop adj code binData = some res ∧ res.length = binData.length ∧
      ∀ (j v : Nat), binData[j]? = some v →
        res[j]? = some (if j ∈ adj then (v + code.toNat * adj.count j) % 2 ^ 32 else v) := by
  induction adj generalizing binData with
  | nil =>
    refine ⟨binData, rfl, rfl, ?_⟩
    intro j v hj
    simpa using hj
  | cons b bs ih =>
    have hb : b < binData.length := hrange b (List.mem_cons_self _ _)
    obtain ⟨res, h1, h2, h3⟩ := ih (binData.set b ((binData[b] + code.toNat) % 2 ^ 32))
      (fun x hx => by
        rw [List.length_set]
        exact hrange x (List.mem_cons_of_mem _ hx))
    refine ⟨res, ?_, ?_, ?_⟩
    · simp only [binsLoop, if_pos hcode]
      rw [addToBin_some binData b code binData[b] (by simp [hb])]
      exact h1
    · rw [h2, List.length_set]
    · intro j v hj
      have hjlt : j < binData.length := by
        rcases List.getElem?_eq_some_iff.mp hj with ⟨hlt, _⟩
        exact hlt
      by_cases hjb : j = b
      · subst hjb
        have hv : binData[j] = v := by
          rcases List.getElem?_eq_some_iff.mp hj with ⟨_, hv⟩
          exact hv
        have hset : (binData.set j ((binData[j] + code.toNat) % 2 ^ 32))[j]? =
            some ((v + code.toNat) % 2 ^ 32) := by
          rw [hv]
          simp [hjlt]
        rw [h3 j _ hset]
        simp only [List.mem_cons, true_or, if_true, List.count_cons_self]
        split
        · congr 1
          rw [Nat.add_mod, Nat.mod_mod, ← Nat.add_mod, Nat.mul_add]
          congr 1
          omega
        · rename_i hnot
          rw [List.count_eq_zero_of_not_mem hnot]
          simp
      · have hset : (binData.set b ((binData[b] + code.toNat) % 2 ^ 32))[j]? = some v := by
          rw [List.getElem?_set_ne (fun e => hjb e.symm)]
          exact hj
        rw [h3 j v hset]
        have hbj : ¬ b = j := fun e => hjb e.symm
        have hc : (b :: bs).count j = bs.count j := by
          rw [List.count_cons]
          simp [hbj]
        simp only [List.mem_cons, hjb, false_or, hc]

theorem mapFind_isSome_iff (m : List (Nat × Nat)) (k : Nat) :
    (mapFind m k).isSome = true ↔ ∃ v, (k, v) ∈ m := by
  induction m with
  | nil => simp [mapFind]
  | cons e es ih =>
    unfold mapFind
    by_cases h : e.1 = k
    · rw [if_pos h]
      simp only [Option.isSome_some, List.mem_cons, true_iff]
      exact ⟨e.2, Or.inl (by rw [← h])⟩
    · rw [if_neg h, ih]
      constructor
      · rintro ⟨v, hv⟩
        exact ⟨v, List.mem_cons_of_mem _ hv⟩
      · rintro ⟨v, hv⟩
        rcases List.mem_cons.mp hv with rfl | hv
        · exact absurd rfl h
        · exact ⟨v, hv⟩

theorem mem_adjacentBins (bm : BinManager) (snpIndex b : Nat) :
    b ∈ adjacentBins bm snpIndex ↔ (snpIndex, b) ∈ bm.binLookup := by
  simp only [adjacentBins, List.mem_map, List.mem_filter, decide_eq_true_eq]
  constructor
  · rintro ⟨e, ⟨he, hk⟩, rfl⟩
    rw [← hk]
    exact he
  · intro h
    exact ⟨(snpIndex, b), ⟨h, rfl⟩, rfl⟩

theorem adjacentBins_eq_nil (bm : BinManager) (snpIndex : Nat)
    (h : mapFind bm.binLookup snpIndex = none) : adjacentBins bm snpIndex = [] := by
  apply List.eq_nil_iff_forall_not_mem.mpr
  intro b hb
  have h1 : (mapFind bm.binLookup snpIndex).isSome = true :=
    (mapFind_isSome_iff _ _).mpr ⟨b, (mem_adjacentBins bm snpIndex b).mp hb⟩
  rw [h] at h1
  exact Bool.noConfusion h1

theorem ParseSNP_pointwise (bm : BinManager) (snpIndex : Nat) (genotypes : List Int)
    (data : List Individual) (f : Int → Individual → Individual)
    (hlen : genotypes.length < 2 ^ 32) (hdata : genotypes.length ≤ data.length)
    (hstep : ∀ (i : Nat) (code : Int) (ind : Individual), genotypes[i]? = some code →
      data[i]? = some ind →
      parseStep (decide (snpIndex ∈ bm.intergenicRareVariants)) snpIndex code bm ind =
        some (bm, f code ind)) :
    ∃ data1 : List Individual,
      ParseSNP bm snpIndex genotypes data =
        some ((adjacentBins bm snpIndex).foldl setInsert [], bm, data1) ∧
      data1.length = data.length ∧
      ∀ (i : Nat) (ind : Individual), data[i]? = some ind →
        data1[i]? = some (match genotypes[i]? with
          | some code => f code ind
          | none => ind) := by
  obtain ⟨data1, h1, h2, h3⟩ := parseLoop_pointwise
    (decide (snpIndex ∈ bm.intergenicRareVariants)) snpIndex bm f genotypes data hdata hstep
  refine ⟨data1, ?_, h2, h3⟩
  simp only [ParseSNP]
  rw [take_count genotypes hlen, h1]

theorem parseStep_intergenic (snpIndex : Nat) (code : Int) (bm : BinManager) (ind : Individual)
    (hbin : code > -1 → ind.binData ≠ []) :
    parseStep true snpIndex code bm ind =
      some (bm, if code > -1 then
        { ind with binData :=
            ind.binData.set 0 (((ind.binData[0]?).getD 0 + code.toNat) % 2 ^ 32) }
        else ind) := by
  unfold parseStep
  by_cases hc : code > -1
  · cases hbd : ind.binData with
    | nil => exact absurd hbd (hbin hc)
    | cons v vs => simp [hc, addToBin]
  · simp [hc]

theorem parseStep_adjacent (snpIndex : Nat) (code : Int) (bm : BinManager) (ind : Individual)
    (hadj : (mapFind bm.binLookup snpIndex).isSome = true)
    (hrange : code > -1 → ∀ b ∈ adjacentBins bm snpIndex, b < ind.binData.length) :
    parseStep false snpIndex code bm ind =
      some (bm, { ind with binData :=
        (binsLoop (adjacentBins bm snpIndex) code ind.binData).getD ind.binData }) := by
  unfold parseStep
  by_cases hc : code > -1
  · obtain ⟨res, h1, _, _⟩ := binsLoop_spec (adjacentBins bm snpIndex) code ind.binData hc
      (hrange hc)
    simp [hadj, h1]
  · simp [hadj, binsLoop_missing _ _ _ hc]

theorem parseStep_retained (snpIndex : Nat) (code : Int) (bm : BinManager) (ind : Individual)
    (s : Nat) (hnoadj : mapFind bm.binLookup snpIndex = none)
    (hslot : mapFind bm.genotypeOffsets snpIndex = some s) (hs : s < ind.genotypes.length) :
    parseStep false snpIndex code bm ind =
      some (bm, { ind with genotypes := ind.genotypes.set s code }) := by
  unfold parseStep
  simp [hnoadj, mapIndex, hslot, SetGenotype, hs]

/-! ## Genotype streaming: the claims -/

/-- C16: for a locus in the manager's intergenic-rare set, codes for at most
`2 ^ 32 - 1` individuals, every one of which exists and, when its code is
not missing, has a bin 0: `ParseSNP` returns with the manager unchanged, and
individual `i` is as before except that, when its code is not missing
(`> -1`), entry 0 of its `binData` has the code added (as a `uint`); no other
`binData` entry and no genotype slot changes, and an individual with a
missing code or without code is unchanged. -/
theorem ParseSNP_intergenic_locus (bm : BinManager) (snpIndex : Nat) (genotypes : List Int)
    (data : List Individual) (hin : snpIndex ∈ bm.intergenicRareVariants)
    (hlen : genotypes.length < 2 ^ 32) (hdata : genotypes.length ≤ data.length)
    (hbin : ∀ (i : Nat) (code : Int) (ind : Individual), genotypes[i]? = some code →
      data[i]? = some ind → code > -1 → ind.binData ≠ []) :
    ∃ data1 : List Individual,
      ParseSNP bm snpIndex genotypes data =
        some ((adjacentBins bm snpIndex).foldl setInsert [], bm, data1) ∧
      data1.length = data.length ∧
      ∀ (i : Nat) (ind : Individual), data[i]? = some ind →
        data1[i]? = some (match genotypes[i]? with
          | some code =>
            if code > -1 then
              { ind with binData :=
                  ind.binData.set 0 (((ind.binData[0]?).getD 0 + code.toNat) % 2 ^ 32) }
            else ind
          | none => ind) := by
  apply ParseSNP_pointwise bm snpIndex genotypes data _ hlen hdata
  intro i code ind hc hi
  rw [decide_eq_true hin]
  exact parseStep_intergenic snpIndex code bm ind (hbin i code ind hc hi)

/-- C16 at the locus of Scenario C: an intergenic-rare locus, a raw code 1 for
the first individual and a missing code for the second. -/
theorem ParseSNP_intergenic_locus_witness :
    ∃ data1 : List Individual,
      ParseSNP { BinManager.init 1 0 1000 with intergenicRareVariants := [2] } 2 [1, -1]
          [{ indID := "I", genotypes := [0], binData := [4, 0] },
            { indID := "J", genotypes := [0], binData := [4, 0] }] =
        some ((adjacentBins { BinManager.init 1 0 1000 with intergenicRareVariants := [2] }
          2).foldl setInsert [],
          { BinManager.init 1 0 1000 with intergenicRareVariants := [2] }, data1) ∧
      data1.length = 2 ∧
      data1[0]? = some { indID := "I", genotypes := [0], binData := [5, 0] } ∧
      data1[1]? = some { indID := "J", genotypes := [0], binData := [4, 0] } := by
  obtain ⟨data1, h1, h2, h3⟩ := ParseSNP_intergenic_locus
    { BinManager.init 1 0 1000 with intergenicRareVariants := [2] } 2 [1, -1]
    [{ indID := "I", genotypes := [0], binData := [4, 0] },
      { indID := "J", genotypes := [0], binData := [4, 0] }]
    (by simp [BinManager.init]) (by simp) (by simp)
    (by
      intro i code ind hc hi _
      rcases i with _ | _ | i
      · simp at hi; subst hi; simp
      · simp at hi; subst hi; simp
      · simp at hi)
  refine ⟨data1, h1, h2, ?_, ?_⟩
  · simpa using h3 0 _ rfl
  · simpa using h3 1 _ rfl

/-- C17: for a locus that is not in the intergenic-rare set and has one or
more entries in `binLookup`, codes for at most `2 ^ 32 - 1` individuals,
every one of which exists and, when its code is not missing, has all the
adjacent bins: `ParseSNP` returns with the manager unchanged and the set of
the adjacent bins, and an individual with a code `c > -1` keeps its
identifier, its genotype vector and the length of `binData`; entry `j` of its
`binData` has `c` added once per entry of `binLookup` that joins the locus to
bin `j` (as a `uint`), and is unchanged when `j` is not an adjacent bin. -/
theorem ParseSNP_binned_locus (bm : BinManager) (snpIndex : Nat) (genotypes : List Int)
    (data : List Individual) (hnot : snpIndex ∉ bm.intergenicRareVariants)
    (hadj : (mapFind bm.binLookup snpIndex).isSome = true)
    (hlen : genotypes.length < 2 ^ 32) (hdata : genotypes.length ≤ data.length)
    (hrange : ∀ (i : Nat) (code : Int) (ind : Individual), genotypes[i]? = some code →
      data[i]? = some ind → code > -1 →
      ∀ b ∈ adjacentBins bm snpIndex, b < ind.binData.length) :
    ∃ data1 : List Individual,
      ParseSNP bm snpIndex genotypes data =
        some ((adjacentBins bm snpIndex).foldl setInsert [], bm, data1) ∧
      data1.length = data.length ∧
      ∀ (i : Nat) (code : Int) (ind : Individual), genotypes[i]? = some code →
        data[i]? = some ind → code > -1 →
        ∃ ind1 : Individual, data1[i]? = some ind1 ∧ ind1.indID = ind.indID ∧
          ind1.genotypes = ind.genotypes ∧ ind1.binData.length = ind.binData.length ∧
          ∀ (j v : Nat), ind.binData[j]? = some v →
            ind1.binData[j]? = some (if j ∈ adjacentBins bm snpIndex then
              (v + code.toNat * (adjacentBins bm snpIndex).count j) % 2 ^ 32 else v) := by
  obtain ⟨data1, h1, h2, h3⟩ := ParseSNP_pointwise bm snpIndex genotypes data
    (fun code ind => { ind with binData :=
      (binsLoop (adjacentBins bm snpIndex) code ind.binData).getD ind.binData })
    hlen hdata (by
      intro i code ind hc hi
      rw [decide_eq_false hnot]
      exact parseStep_adjacent snpIndex code bm ind hadj (hrange i code ind hc hi))
  refine ⟨data1, h1, h2, ?_⟩
  intro i code ind hc hi hcode
  obtain ⟨res, r1, r2, r3⟩ := binsLoop_spec (adjacentBins bm snpIndex) code ind.binData hcode
    (hrange i code ind hc hi hcode)
  refine ⟨_, h3 i ind hi, ?_⟩
  simp only [hc, r1, Option.getD_some]
  exact ⟨trivial, trivial, r2, r3⟩

/-- C17 at the locus of Scenario D: the locus is joined to the final bins 1
and 2, and a raw code 1 for individual I adds 1 to both counts. -/
theorem ParseSNP_binned_locus_witness :
    ∃ data1 : List Individual,
      ParseSNP { BinManager.init 1 0 1000 with binLookup := [(3, 1), (3, 2)] } 3 [1]
          [{ indID := "I", genotypes := [0], binData := [0, 4, 7] }] =
        some ((adjacentBins { BinManager.init 1 0 1000 with binLookup := [(3, 1), (3, 2)] }
          3).foldl setInsert [],
          { BinManager.init 1 0 1000 with binLookup := [(3, 1), (3, 2)] }, data1) ∧
      ∃ ind1 : Individual, data1[0]? = some ind1 ∧ ind1.genotypes = [0] ∧
        ind1.binData[0]? = some 0 ∧ ind1.binData[1]? = some 5 ∧ ind1.binData[2]? = some 8 := by
  obtain ⟨data1, h1, _, h3⟩ := ParseSNP_binned_locus
    { BinManager.init 1 0 1000 with binLookup := [(3, 1), (3, 2)] } 3 [1]
    [{ indID := "I", genotypes := [0], binData := [0, 4, 7] }]
    (by simp [BinManager.init]) (by decide) (by simp) (by simp)
    (by
      intro i code ind hc hi _ b hb
      rcases i with _ | i
      · simp at hi; subst hi
        have hb' : b = 1 ∨ b = 2 := by
          simpa [adjacentBins, BinManager.init] using hb
        rcases hb' with rfl | rfl <;> simp
      · simp at hi)
  obtain ⟨ind1, e1, _, e3, _, e5⟩ := h3 0 1 _ rfl rfl (by decide)
  refine ⟨data1, h1, ind1, e1, e3, ?_, ?_, ?_⟩
  · simpa [adjacentBins, BinManager.init] using e5 0 0 rfl
  · simpa [adjacentBins, BinManager.init] using e5 1 4 rfl
  · simpa [adjacentBins, BinManager.init] using e5 2 7 rfl

/-- C18: for a locus that is a key of `genotypeOffsets` with slot `s` and is
neither in `binLookup` nor in the intergenic-rare set, codes for at most
`2 ^ 32 - 1` individuals, every one of which exists and has the slot `s`:
`ParseSNP` returns the empty set with the manager unchanged, and every
individual that has a code is as before except that slot `s` of its genotype
vector holds the raw code: one write, and no change of `binData`. -/
theorem ParseSNP_retained_locus (bm : BinManager) (snpIndex s : Nat) (genotypes : List Int)
    (data : List Individual) (hnot : snpIndex ∉ bm.intergenicRareVariants)
    (hnoadj : mapFind bm.binLookup snpIndex = none)
    (hslot : mapFind bm.genotypeOffsets snpIndex = some s)
    (hlen : genotypes.length < 2 ^ 32) (hdata : genotypes.length ≤ data.length)
    (hrange : ∀ (i : Nat) (code : Int) (ind : Individual), genotypes[i]? = some code →
      data[i]? = some ind → s < ind.genotypes.length) :
    ∃ data1 : List Individual,
      ParseSNP bm snpIndex genotypes data = some ([], bm, data1) ∧
      data1.length = data.length ∧
      ∀ (i : Nat) (ind : Individual), data[i]? = some ind →
        data1[i]? = some (match genotypes[i]? with
          | some code => { ind with genotypes := ind.genotypes.set s code }
          | none => ind) := by
  obtain ⟨data1, h1, h2, h3⟩ := ParseSNP_pointwise bm snpIndex genotypes data
    (fun code ind => { ind with genotypes := ind.genotypes.set s code })
    hlen hdata (by
      intro i code ind hc hi
      rw [decide_eq_false hnot]
      exact parseStep_retained snpIndex code bm ind s hnoadj hslot (hrange i code ind hc hi))
  rw [adjacentBins_eq_nil bm snpIndex hnoadj] at h1
  exact ⟨data1, h1, h2, h3⟩

/-- C18 at the locus of Scenario B: a retained locus with final slot 1, and a
raw code 2 for individual I. -/
theorem ParseSNP_retained_locus_witness :
    ∃ data1 : List Individual,
      ParseSNP { BinManager.init 1 0 1000 with genotypeOffsets := [(4, 1)] } 4 [2]
          [{ indID := "I", genotypes := [0, 0], binData := [0, 3] }] =
        some ([], { BinManager.init 1 0 1000 with genotypeOffsets := [(4, 1)] }, data1) ∧
      data1.length = 1 ∧
      data1[0]? = some { indID := "I", genotypes := [0, 2], binData := [0, 3] } := by
  obtain ⟨data1, h1, h2, h3⟩ := ParseSNP_retained_locus
    { BinManager.init 1 0 1000 with genotypeOffsets := [(4, 1)] } 4 1 [2]
    [{ indID := "I", genotypes := [0, 0], binData := [0, 3] }]
    (by simp [BinManager.init]) (by decide) (by decide) (by simp) (by simp)
    (by
      intro i code ind hc hi
      rcases i with _ | i
      · simp at hi; subst hi; simp
      · simp at hi)
  refine ⟨data1, h1, h2, ?_⟩
  simpa using h3 0 _ rfl

/-- C20 (as stated, refuted): for the intergenic-rare locus 2 and a raw code
1, `ParseSNP` increments entry 0 of the individual's `binData` and returns
the empty set, not the set that holds the index 0. -/
theorem ParseSNP_intergenic_returns_empty :
    ParseSNP { BinManager.init 1 0 1000 with intergenicRareVariants := [2] } 2 [1]
        [{ indID := "I", genotypes := [0], binData := [4, 0] }] =
      some ([], { BinManager.init 1 0 1000 with intergenicRareVariants := [2] },
        [{ indID := "I", genotypes := [0], binData := [5, 0] }]) := by
  decide

/-- C20 (amended): the set that `ParseSNP` returns is the set of the bins
that `binLookup` holds for the locus: bin `b` is in it exactly when
`(snpIndex, b)` is an entry of `binLookup`, so it is the set of the adjacent
final bins for a locus with entries in `binLookup` and the empty set for a
locus without entry in `binLookup`, retained-genotype or intergenic-rare. -/
theorem ParseSNP_returns_adjacent_bins (bm : BinManager) (snpIndex : Nat)
    (genotypes : List Int) (data : List Individual) (bins : List Nat) (bm1 : BinManager)
    (data1 : List Individual)
    (h : ParseSNP bm snpIndex genotypes data = some (bins, bm1, data1)) :
    bins = (adjacentBins bm snpIndex).foldl setInsert [] ∧
      (∀ b : Nat, b ∈ bins ↔ (snpIndex, b) ∈ bm.binLookup) ∧
      (mapFind bm.binLookup snpIndex = none → bins = []) := by
  unfold ParseSNP at h
  dsimp only at h
  split at h
  · exact Option.noConfusion h
  · rename_i r hl
    simp only [Option.some.injEq, Prod.mk.injEq] at h
    have hb : adjacentBins r.1 snpIndex = adjacentBins bm snpIndex := by
      simp only [adjacentBins, parseLoop_binLookup _ _ _ _ _ _ hl]
    have h1 : bins = (adjacentBins bm snpIndex).foldl setInsert [] := by
      rw [← hb]; exact h.1.symm
    refine ⟨h1, ?_, ?_⟩
    · intro b
      rw [h1, mem_foldl_setInsert, mem_adjacentBins]
      simp
    · intro hnone
      rw [h1, adjacentBins_eq_nil bm snpIndex hnone]
      rfl

/-- C20 (amended) at the locus of Scenario D, joined to the bins 1 and 2. -/
theorem ParseSNP_returns_adjacent_bins_witness :
    ([1, 2] : List Nat) =
      (adjacentBins { BinManager.init 1 0 1000 with binLookup := [(3, 1), (3, 2)] } 3).foldl
        setInsert [] ∧
      (∀ b : Nat, b ∈ ([1, 2] : List Nat) ↔
        (3, b) ∈ ({ BinManager.init 1 0 1000 with binLookup := [(3, 1), (3, 2)] }).binLookup) ∧
      (mapFind ({ BinManager.init 1 0 1000 with binLookup := [(3, 1), (3, 2)] }).binLookup 3 =
        none → ([1, 2] : List Nat) = []) :=
  ParseSNP_returns_adjacent_bins
    { BinManager.init 1 0 1000 with binLookup := [(3, 1), (3, 2)] } 3 [1]
    [{ indID := "I", genotypes := [0], binData := [0, 4, 7] }] [1, 2]
    { BinManager.init 1 0 1000 with binLookup := [(3, 1), (3, 2)] }
    [{ indID := "I", genotypes := [0], binData := [0, 5, 8] }] (by decide)

/-! ## The coordinator: numbering the elements of a set -/

theorem setInsert_sorted (s : List Nat) (x : Nat) (h : s.Pairwise (fun a b => a < b)) :
    (setInsert s x).Pairwise (fun a b => a < b) := by
  induction s with
  | nil => simp [setInsert]
  | cons y ys ih =>
    have h' := List.pairwise_cons.mp h
    unfold setInsert
    by_cases h1 : x < y
    · rw [if_pos h1]
      refine List.pairwise_cons.mpr ⟨?_, h⟩
      intro z hz
      rcases List.mem_cons.mp hz with rfl | hz
      · exact h1
      · exact lt_trans h1 (h'.1 z hz)
    · rw [if_neg h1]
      by_cases h2 : x = y
      · rw [if_pos h2]; exact h
      · rw [if_neg h2]
        refine List.pairwise_cons.mpr ⟨?_, ih h'.2⟩
        intro z hz
        rcases (mem_setInsert ys x z).mp hz with rfl | hz
        · omega
        · exact h'.1 z hz

theorem foldl_setInsert_sorted (xs s : List Nat) (h : s.Pairwise (fun a b => a < b)) :
    (xs.foldl setInsert s).Pairwise (fun a b => a < b) := by
  induction xs generalizing s with
  | nil => exact h
  | cons x xs ih => exact ih _ (setInsert_sorted s x h)

theorem sorted_nodup (G : List Nat) (h : G.Pairwise (fun a b => a < b)) : G.Nodup :=
  List.Pairwise.imp (fun hab => Nat.ne_of_lt hab) h

theorem sorted_index_lt_iff (G : List Nat) (h : G.Pairwise (fun a b => a < b))
    (j1 j2 k1 k2 : Nat) (h1 : G[j1]? = some k1) (h2 : G[j2]? = some k2) :
    j1 < j2 ↔ k1 < k2 := by
  obtain ⟨hl1, e1⟩ := List.getElem?_eq_some_iff.mp h1
  obtain ⟨hl2, e2⟩ := List.getElem?_eq_some_iff.mp h2
  have hp := List.pairwise_iff_getElem.mp h
  constructor
  · intro hlt
    rw [← e1, ← e2]
    exact hp j1 j2 hl1 hl2 hlt
  · intro hk
    by_contra hnot
    rcases Nat.lt_or_ge j2 j1 with hlt | hge
    · have := hp j2 j1 hl2 hl1 hlt
      rw [e1, e2] at this
      omega
    · have hj : j1 = j2 := by omega
      subst hj
      rw [e1] at e2
      omega

theorem assignIndices_find_not_mem (xs : List Nat) (m : List (Nat × Nat)) (n a : Nat)
    (ha : a ∉ xs) : mapFind (assignIndices xs m n).1 a = mapFind m a := by
  induction xs generalizing m n with
  | nil => rfl
  | cons x xs ih =>
    simp only [assignIndices]
    rw [ih _ _ (fun h => ha (List.mem_cons_of_mem _ h)), mapFind_mapSet]
    have hne : a ≠ x := fun e => ha (by rw [e]; exact List.mem_cons_self _ _)
    simp [hne]

theorem assignIndices_snd (xs : List Nat) (m : List (Nat × Nat)) (n : Nat)
    (hn : n + xs.length < 2 ^ 32) : (assignIndices xs m n).2 = n + xs.length := by
  induction xs generalizing m n with
  | nil => rfl
  | cons x xs ih =>
    simp only [assignIndices, List.length_cons] at hn ⊢
    have h1 : (n + 1) % 2 ^ 32 = n + 1 := Nat.mod_eq_of_lt (by omega)
    rw [h1, ih _ _ (by omega)]
    omega

theorem assignIndices_find (xs : List Nat) (m : List (Nat × Nat)) (n : Nat) (hnd : xs.Nodup)
    (hn : n + xs.length < 2 ^ 32) (j x : Nat) (hj : xs[j]? = some x) :
    mapFind (assignIndices xs m n).1 x = some (n + j) := by
  induction xs generalizing m n j with
  | nil => simp at hj
  | cons y ys ih =>
    have hnd' := List.nodup_cons.mp hnd
    simp only [List.length_cons] at hn
    have h1 : (n + 1) % 2 ^ 32 = n + 1 := Nat.mod_eq_of_lt (by omega)
    simp only [assignIndices]
    cases j with
    | zero =>
      simp only [List.getElem?_cons_zero, Option.some.injEq] at hj
      subst hj
      rw [assignIndices_find_not_mem ys _ _ y hnd'.1, mapFind_mapSet]
      simp
    | succ j =>
      simp only [List.getElem?_cons_succ] at hj
      rw [h1, ih _ _ hnd'.2 (by omega) j hj]
      congr 1
      omega

theorem buildBinIndex_spec (binnable : List Nat) (binIndex : List (Nat × Nat))
    (hset : binnable.Pairwise (fun a b => a < b)) (hsize : binnable.length + 1 < 2 ^ 32) :
    (∀ (j id : Nat), binnable[j]? = some id →
      mapFind (buildBinIndex binnable binIndex) id = some (j + 1)) ∧
    (∀ id ∈ binnable, ∃ k : Nat, mapFind (buildBinIndex binnable binIndex) id = some k ∧
      1 ≤ k ∧ k ≤ binnable.length) ∧
    (∀ a ∈ binnable, ∀ b ∈ binnable,
      mapFind (buildBinIndex binnable binIndex) a = mapFind (buildBinIndex binnable binIndex) b →
      a = b) ∧
    (∀ k : Nat, 1 ≤ k → k ≤ binnable.length →
      ∃ id ∈ binnable, mapFind (buildBinIndex binnable binIndex) id = some k) ∧
    (∀ a ∈ binnable, ∀ b ∈ binnable, ∀ (ka kb : Nat),
      mapFind (buildBinIndex binnable binIndex) a = some ka →
      mapFind (buildBinIndex binnable binIndex) b = some kb → (a < b ↔ ka < kb)) := by
  have key : ∀ (j id : Nat), binnable[j]? = some id →
      mapFind (buildBinIndex binnable binIndex) id = some (j + 1) := by
    intro j id hj
    unfold buildBinIndex
    rw [assignIndices_find binnable binIndex 1 (sorted_nodup _ hset) (by omega) j id hj]
    congr 1
    omega
  refine ⟨key, ?_, ?_, ?_, ?_⟩
  · intro id hid
    obtain ⟨j, hj⟩ := List.mem_iff_getElem?.mp hid
    obtain ⟨hlt, _⟩ := List.getElem?_eq_some_iff.mp hj
    exact ⟨j + 1, key j id hj, by omega, by omega⟩
  · intro a ha b hb hab
    obtain ⟨ja, hja⟩ := List.mem_iff_getElem?.mp ha
    obtain ⟨jb, hjb⟩ := List.mem_iff_getElem?.mp hb
    rw [key ja a hja, key jb b hjb] at hab
    have hj : ja = jb := by
      simp only [Option.some.injEq] at hab
      omega
    subst hj
    rw [hja] at hjb
    exact Option.some.inj hjb
  · intro k hk1 hk2
    have hlt : k - 1 < binnable.length := by omega
    refine ⟨binnable[k - 1], List.getElem_mem _, ?_⟩
    rw [key (k - 1) _ (List.getElem?_eq_getElem hlt)]
    congr 1
    omega
  · intro a ha b hb ka kb hka hkb
    obtain ⟨ja, hja⟩ := List.mem_iff_getElem?.mp ha
    obtain ⟨jb, hjb⟩ := List.mem_iff_getElem?.mp hb
    rw [key ja a hja] at hka
    rw [key jb b hjb] at hkb
    simp only [Option.some.injEq] at hka hkb
    rw [← sorted_index_lt_iff binnable hset ja jb a b hja hjb]
    omega

/-! ## The coordinator: classification of one chromosome -/

theorem mapSet_diag (s : List Nat) (i : Nat) :
    mapSet (s.map (fun k => (k, k))) i i = (setInsert s i).map (fun k => (k, k)) := by
  induction s with
  | nil => rfl
  | cons y ys ih =>
    simp only [List.map_cons, mapSet, setInsert]
    by_cases h1 : i < y
    · simp [h1]
    · by_cases h2 : i = y
      · simp [h2]
      · simp [h1, h2, ih]

theorem classifyLocus_chromosome (bm : BinManager) (i : Nat) (l : Locus)
    (regionData : Nat → Coverage) (mafCutoff : ℚ) (o : OutSets) :
    (classifyLocus bm i l regionData mafCutoff o).1.chromosome = bm.chromosome := by
  by_cases hc : l.chrom = bm.chromosome
  · by_cases hp : bm.bpStart < l.pos
    · by_cases he : l.pos < bm.effStop
      · by_cases hm : l.maf < mafCutoff
        · cases hf : (regionData l.pos).found
          · rw [classifyLocus_intergenic bm i l regionData mafCutoff o hc hp he hm hf]
          · rw [classifyLocus_covered bm i l regionData mafCutoff o hc hp he hm hf]
        · rw [classifyLocus_common bm i l regionData mafCutoff o hc hp he (not_lt.mp hm)]
      · rw [classifyLocus_right bm i l regionData mafCutoff o hc hp (by omega)]
    · rw [classifyLocus_left bm i l regionData mafCutoff o hc (by omega)]
  · rw [classifyLocus_other_chrom bm i l regionData mafCutoff o hc]

theorem classifyLocus_classified (locusArray : List Locus) (bm : BinManager) (i : Nat)
    (l : Locus) (regionData : Nat → Coverage) (mafCutoff : ℚ) (o : OutSets)
    (hl : locusArray[i]? = some l) (h : Classified locusArray bm o) :
    Classified locusArray (classifyLocus bm i l regionData mafCutoff o).1
      (classifyLocus bm i l regionData mafCutoff o).2 := by
  obtain ⟨h1, h2, h3, h4, h5⟩ := h
  by_cases hc : l.chrom = bm.chromosome
  · by_cases hp : bm.bpStart < l.pos
    · by_cases he : l.pos < bm.effStop
      · by_cases hm : l.maf < mafCutoff
        · cases hf : (regionData l.pos).found
          · rw [classifyLocus_intergenic bm i l regionData mafCutoff o hc hp he hm hf]
            exact ⟨h1, h2, h3, h4, h5⟩
          · rw [classifyLocus_covered bm i l regionData mafCutoff o hc hp he hm hf]
            refine ⟨h1, h2, foldl_setInsert_sorted _ _ h3, ?_, h5⟩
            intro e he'
            rcases (mem_foldl_mmInsert i _ _ e).mp he' with hold | ⟨r, hr, rfl⟩
            · exact (mem_foldl_setInsert _ _ _).mpr (Or.inr (h4 e hold))
            · exact (mem_foldl_setInsert _ _ _).mpr (Or.inl (List.mem_map.mpr ⟨r, hr, rfl⟩))
        · rw [classifyLocus_common bm i l regionData mafCutoff o hc hp he (not_lt.mp hm)]
          refine ⟨?_, setInsert_sorted _ _ h2, h3, h4, ?_⟩
          · show mapSet bm.genotypeOffsets i i = _
            rw [h1, mapSet_diag]
          · intro k hk
            rcases (mem_setInsert _ _ _).mp hk with rfl | hk
            · exact ⟨l, hl, hc⟩
            · exact h5 k hk
      · rw [classifyLocus_right bm i l regionData mafCutoff o hc hp (by omega)]
        exact ⟨h1, h2, h3, h4, h5⟩
    · rw [classifyLocus_left bm i l regionData mafCutoff o hc (by omega)]
      exact ⟨h1, h2, h3, h4, h5⟩
  · rw [classifyLocus_other_chrom bm i l regionData mafCutoff o hc]
    exact ⟨h1, h2, h3, h4, h5⟩

theorem initBinAll_classified (regionData : Nat → Coverage) (locusArray : List Locus)
    (mafCutoff : ℚ) (is : List Nat) (bm : BinManager) (o : OutSets) (r : BinManager × OutSets)
    (hrun : initBinAll regionData locusArray mafCutoff is bm o = some r)
    (h : Classified locusArray bm o) :
    Classified locusArray r.1 r.2 ∧ r.1.chromosome = bm.chromosome := by
  induction is generalizing bm o with
  | nil =>
    simp only [initBinAll, Option.some.injEq] at hrun
    subst hrun
    exact ⟨h, rfl⟩
  | cons i is ih =>
    simp only [initBinAll, InitBin] at hrun
    cases hl : locusArray[i]? with
    | none => simp [hl] at hrun
    | some l =>
      simp only [hl] at hrun
      obtain ⟨a, b⟩ := ih _ _ hrun
        (classifyLocus_classified locusArray bm i l regionData mafCutoff o hl h)
      exact ⟨a, b.trans (classifyLocus_chromosome bm i l regionData mafCutoff o)⟩

theorem classified_init (locusArray : List Locus) (chrom bpStart bpStop : Nat) :
    Classified locusArray (BinManager.init chrom bpStart bpStop) ⟨[], [], []⟩ := by
  refine ⟨rfl, List.Pairwise.nil, List.Pairwise.nil, ?_, ?_⟩
  · intro e he; simp [BinManager.init] at he
  · intro k hk; simp at hk

theorem chromosomeStep_spec (regions : Nat → Nat → Coverage) (locusRemap : Nat → List Nat)
    (locusArray : List Locus) (mafCutoff : ℚ) (st st1 : LoadState)
    (hstep : chromosomeStep regions locusRemap locusArray mafCutoff st = some st1) :
    ∃ (mNew : BinManager) (G B : List Nat),
      st1 = { binData := st.binData ++ [mNew], binnable := B.foldl setInsert st.binnable,
              genotypeCount := (assignIndices G [] st.genotypeCount).2 } ∧
      G.Pairwise (fun a b => a < b) ∧
      (∀ e ∈ mNew.binLookup, e.2 ∈ B) ∧
      mNew.genotypeOffsets =
        G.map (fun k => (k, convImage (assignIndices G [] st.genotypeCount).1 k)) ∧
      (∀ k ∈ G, ∃ l, locusArray[k]? = some l ∧ l.chrom = st.binData.length + 1) := by
  unfold chromosomeStep at hstep
  dsimp only at hstep
  split at hstep
  · exact Option.noConfusion hstep
  · rename_i r hr
    simp only [Option.some.injEq] at hstep
    obtain ⟨⟨h1, h2, _, h4, h5⟩, hch⟩ := initBinAll_classified _ _ _ _ _ _ _ hr
      (classified_init locusArray (st.binData.length + 1) 0 (2 ^ 32 - 1))
    refine ⟨_, r.2.genotypes, r.2.binnable, hstep.symm, h2, h4, ?_, ?_⟩
    · show (RealignGenotypes r.1 _).1.genotypeOffsets = _
      simp only [RealignGenotypes]
      rw [realignGenotypesLoop_fst, h1, List.map_map]
      rfl
    · intro k hk
      obtain ⟨l, hl, hlc⟩ := h5 k hk
      refine ⟨l, hl, ?_⟩
      rw [hlc, hch]
      rfl

theorem chromosomeStep_binsRecorded (regions : Nat → Nat → Coverage)
    (locusRemap : Nat → List Nat) (locusArray : List Locus) (mafCutoff : ℚ)
    (st st1 : LoadState)
    (hstep : chromosomeStep regions locusRemap locusArray mafCutoff st = some st1)
    (h : BinsRecorded st) : BinsRecorded st1 := by
  obtain ⟨mNew, G, B, rfl, _, hB, _, _⟩ := chromosomeStep_spec _ _ _ _ _ _ hstep
  refine ⟨foldl_setInsert_sorted _ _ h.1, ?_⟩
  intro m hm e he
  show e.2 ∈ B.foldl setInsert st.binnable
  rcases List.mem_append.mp hm with hm | hm
  · exact (mem_foldl_setInsert _ _ _).mpr (Or.inr (h.2 m hm e he))
  · rw [List.mem_singleton] at hm
    subst hm
    exact (mem_foldl_setInsert _ _ _).mpr (Or.inl (hB e he))

theorem classifySlots_binsRecorded (regions : Nat → Nat → Coverage)
    (locusRemap : Nat → List Nat) (locusArray : List Locus) (mafCutoff : ℚ) (n : Nat)
    (st st1 : LoadState)
    (hrun : classifySlots regions locusRemap locusArray mafCutoff n st = some st1)
    (h : BinsRecorded st) : BinsRecorded st1 := by
  induction n generalizing st with
  | zero =>
    simp only [classifySlots, Option.some.injEq] at hrun
    subst hrun
    exact h
  | succ n ih =>
    simp only [classifySlots] at hrun
    split at hrun
    · exact Option.noConfusion hrun
    · rename_i st2 hst2
      exact ih st2 hrun (chromosomeStep_binsRecorded _ _ _ _ _ _ hst2 h)

/-- C13: for every run of the classification loop from an ascending set
`binnable` that ends with fewer than `2 ^ 32 - 1` identifiers in `binnable`,
every region identifier recorded in the `binLookup` of a manager is in
`binnable`, and the map `binIndex` that the compaction builds gives the
`j`-th identifier of `binnable` the index `j + 1`: every identifier of
`binnable` gets an index between 1 and `|binnable|`, so never the index 0;
distinct identifiers get distinct indices; every index from 1 to
`|binnable|` is given to an identifier; and the indices increase with the
identifier. -/
theorem binIndex_bijection (regions : Nat → Nat → Coverage) (locusRemap : Nat → List Nat)
    (locusArray : List Locus) (mafCutoff : ℚ) (binnable : List Nat)
    (binIndex : List (Nat × Nat)) (st : LoadState)
    (hset : binnable.Pairwise (fun a b => a < b))
    (hrun : classificationLoop regions locusRemap locusArray mafCutoff binnable = some st)
    (hsize : st.binnable.length + 1 < 2 ^ 32) :
    (∀ m ∈ st.binData, ∀ e ∈ m.binLookup, e.2 ∈ st.binnable) ∧
    (∀ (j id : Nat), st.binnable[j]? = some id →
      mapFind (buildBinIndex st.binnable binIndex) id = some (j + 1)) ∧
    (∀ id ∈ st.binnable, ∃ k : Nat,
      mapFind (buildBinIndex st.binnable binIndex) id = some k ∧
      1 ≤ k ∧ k ≤ st.binnable.length) ∧
    (∀ a ∈ st.binnable, ∀ b ∈ st.binnable,
      mapFind (buildBinIndex st.binnable binIndex) a =
        mapFind (buildBinIndex st.binnable binIndex) b → a = b) ∧
    (∀ k : Nat, 1 ≤ k → k ≤ st.binnable.length →
      ∃ id ∈ st.binnable, mapFind (buildBinIndex st.binnable binIndex) id = some k) ∧
    (∀ a ∈ st.binnable, ∀ b ∈ st.binnable, ∀ (ka kb : Nat),
      mapFind (buildBinIndex st.binnable binIndex) a = some ka →
      mapFind (buildBinIndex st.binnable binIndex) b = some kb → (a < b ↔ ka < kb)) := by
  have hrec : BinsRecorded st :=
    classifySlots_binsRecorded regions locusRemap locusArray mafCutoff 26 _ st hrun
      ⟨hset, fun m hm => by simp at hm⟩
  exact ⟨hrec.2, buildBinIndex_spec st.binnable binIndex hrec.1 hsize⟩

/-- C13 on a run with one rare locus of chromosome 1 at position 290 that
the regions 5 and 6 of Scenario D cover: both identifiers are recorded, and
they get the indices 1 and 2. -/
theorem binIndex_bijection_witness :
    ∃ st : LoadState,
      classificationLoop
        (fun c => if c = 0 then fun _ => ⟨true, [⟨100, 300, 5⟩, ⟨280, 320, 6⟩]⟩
          else fun _ => ⟨false, []⟩)
        (fun ch => if ch = 1 then [0] else []) [⟨1, 290, 1 / 100⟩] (1 / 20) [] = some st ∧
      st.binnable = [5, 6] ∧
      mapFind (buildBinIndex st.binnable []) 5 = some 1 ∧
      mapFind (buildBinIndex st.binnable []) 6 = some 2 := by
  have h1 : (classificationLoop
      (fun c => if c = 0 then fun _ => ⟨true, [⟨100, 300, 5⟩, ⟨280, 320, 6⟩]⟩
        else fun _ => ⟨false, []⟩)
      (fun ch => if ch = 1 then [0] else []) [⟨1, 290, 1 / 100⟩] (1 / 20) []).map
        (fun st => st.binnable) = some [5, 6] := by
    with_unfolding_all decide
  obtain ⟨st, hst, hb⟩ := Option.map_eq_some'.mp h1
  have h := (binIndex_bijection _ _ _ _ [] [] st List.Pairwise.nil hst
    (by rw [hb]; decide)).2.1
  refine ⟨st, hst, hb, h 0 5 (by rw [hb]; rfl), h 1 6 (by rw [hb]; rfl)⟩

/-- C14 (the code at the failing input): a rare locus of chromosome 26 that
region 7 covers is classified by the manager of slot 25, the compaction map
sends the identifier 7 to the bin 1, and after the realignment loop the
`binLookup` of slot 25 still holds the identifier 7; the same locus on
chromosome 1 is realigned to the bin 1 in slot 0. -/
theorem realignLoop_skips_slot_25 :
    (loadAndCompact
      (fun c => if c = 25 then fun _ => ⟨true, [⟨100, 300, 7⟩]⟩ else fun _ => ⟨false, []⟩)
      (fun ch => if ch = 26 then [0] else []) [⟨26, 150, 1 / 100⟩] (1 / 20) [] []).map
        (fun r => (r.1.length, r.1[25]?.map (fun m => m.binLookup), r.2.1, r.2.2.1)) =
      some (26, some [(0, 7)], [7], [(7, 1)]) ∧
    (loadAndCompact
      (fun c => if c = 0 then fun _ => ⟨true, [⟨100, 300, 7⟩]⟩ else fun _ => ⟨false, []⟩)
      (fun ch => if ch = 1 then [0] else []) [⟨1, 150, 1 / 100⟩] (1 / 20) [] []).map
        (fun r => (r.1.length, r.1[0]?.map (fun m => m.binLookup), r.2.1, r.2.2.1)) =
      some (26, some [(0, 1)], [7], [(7, 1)]) := by
  constructor <;> with_unfolding_all decide

/-! ## The coordinator: the order of the genotype slots -/

theorem getElem?_snoc (l : List BinManager) (a x : BinManager) (c : Nat) :
    (l ++ [a])[c]? = some x ↔ l[c]? = some x ∨ (c = l.length ∧ x = a) := by
  rcases Nat.lt_or_ge c l.length with hlt | hge
  · rw [List.getElem?_append_left hlt]
    constructor
    · exact fun h => Or.inl h
    · rintro (h | ⟨h, _⟩)
      · exact h
      · omega
  · rw [List.getElem?_append_right hge]
    have hnone : l[c]? = none := List.getElem?_eq_none hge
    rw [hnone]
    constructor
    · intro h
      obtain ⟨hlt, hx⟩ := List.getElem?_eq_some_iff.mp h
      simp only [List.length_singleton, Nat.lt_one_iff] at hlt
      refine Or.inr ⟨by omega, ?_⟩
      simp only [hlt, List.getElem_cons_zero] at hx
      exact hx.symm
    · rintro (h | ⟨h, rfl⟩)
      · exact Option.noConfusion h
      · simp [h]

theorem getElem?_lt_length (l : List BinManager) (x : BinManager) (c : Nat)
    (h : l[c]? = some x) : c < l.length :=
  (List.getElem?_eq_some_iff.mp h).1

theorem block_entries (G : List Nat) (n k s : Nat) (hG : G.Pairwise (fun a b => a < b))
    (hn : n + G.length < 2 ^ 32) :
    (k, s) ∈ G.map (fun k => (k, convImage (assignIndices G [] n).1 k)) ↔
      ∃ j : Nat, G[j]? = some k ∧ s = n + j := by
  have hfind : ∀ (j x : Nat), G[j]? = some x → convImage (assignIndices G [] n).1 x = n + j := by
    intro j x hj
    exact convImage_of_some _ _ _ (assignIndices_find G [] n (sorted_nodup G hG) hn j x hj)
  rw [List.mem_map]
  constructor
  · rintro ⟨x, hx, he⟩
    obtain ⟨j, hj⟩ := List.mem_iff_getElem?.mp hx
    simp only [Prod.mk.injEq] at he
    obtain ⟨rfl, rfl⟩ := he
    exact ⟨j, hj, hfind j x hj⟩
  · rintro ⟨j, hj, rfl⟩
    refine ⟨k, List.mem_iff_getElem?.mpr ⟨j, hj⟩, ?_⟩
    rw [hfind j k hj]

theorem chromosomeStep_retained (regions : Nat → Nat → Coverage) (locusRemap : Nat → List Nat)
    (locusArray : List Locus) (mafCutoff : ℚ) (st st1 : LoadState)
    (hstep : chromosomeStep regions locusRemap locusArray mafCutoff st = some st1) :
    st.retained ≤ st1.retained := by
  obtain ⟨mNew, G, B, hst1, _, _, _, _⟩ := chromosomeStep_spec _ _ _ _ _ _ hstep
  have hbd : st1.binData = st.binData ++ [mNew] := by rw [hst1]
  simp [LoadState.retained, hbd]

theorem classifySlots_retained (regions : Nat → Nat → Coverage) (locusRemap : Nat → List Nat)
    (locusArray : List Locus) (mafCutoff : ℚ) (n : Nat) (st st1 : LoadState)
    (hrun : classifySlots regions locusRemap locusArray mafCutoff n st = some st1) :
    st.retained ≤ st1.retained := by
  induction n generalizing st with
  | zero =>
    simp only [classifySlots, Option.some.injEq] at hrun
    subst hrun
    exact le_refl _
  | succ n ih =>
    simp only [classifySlots] at hrun
    split at hrun
    · exact Option.noConfusion hrun
    · rename_i st2 hst2
      exact le_trans (chromosomeStep_retained _ _ _ _ _ _ hst2) (ih st2 hrun)

theorem chromosomeStep_slotsOrdered (regions : Nat → Nat → Coverage)
    (locusRemap : Nat → List Nat) (locusArray : List Locus) (mafCutoff : ℚ)
    (st st1 : LoadState)
    (hstep : chromosomeStep regions locusRemap locusArray mafCutoff st = some st1)
    (h : SlotsOrdered locusArray st) (hsize : st1.retained < 2 ^ 32) :
    SlotsOrdered locusArray st1 := by
  obtain ⟨mNew, G, B, hst1, hG, _, hgo, hchrom⟩ := chromosomeStep_spec _ _ _ _ _ _ hstep
  obtain ⟨s1, s2, s3, s4, s5⟩ := h
  have hbd : st1.binData = st.binData ++ [mNew] := by rw [hst1]
  have hgc : st1.genotypeCount = (assignIndices G [] st.genotypeCount).2 := by rw [hst1]
  have hlen : mNew.genotypeOffsets.length = G.length := by rw [hgo, List.length_map]
  have hret : st1.retained = st.genotypeCount + G.length := by
    simp [LoadState.retained, hbd, hlen, s1]
  rw [hret] at hsize
  have hcount : st1.genotypeCount = st.genotypeCount + G.length := by
    rw [hgc]
    exact assignIndices_snd G [] st.genotypeCount hsize
  have hent : ∀ (k s : Nat), (k, s) ∈ mNew.genotypeOffsets ↔
      ∃ j : Nat, G[j]? = some k ∧ s = st.genotypeCount + j := by
    intro k s
    rw [hgo]
    exact block_entries G st.genotypeCount k s hG hsize
  have hnew : ∀ (k s : Nat), (k, s) ∈ mNew.genotypeOffsets →
      st.genotypeCount ≤ s ∧ s < st.genotypeCount + G.length := by
    intro k s hks
    obtain ⟨j, hj, rfl⟩ := (hent k s).mp hks
    have := (List.getElem?_eq_some_iff.mp hj).1
    omega
  refine ⟨?_, ?_, ?_, ?_, ?_⟩
  · rw [hcount, hret]
  · intro c m k s hc hks
    rw [hcount]
    rw [hbd] at hc
    rcases (getElem?_snoc _ _ _ _).mp hc with hc | ⟨_, rfl⟩
    · have := s2 c m k s hc hks
      omega
    · exact (hnew k s hks).2
  · intro s hs
    rw [hcount] at hs
    rw [hbd]
    rcases Nat.lt_or_ge s st.genotypeCount with hlt | hge
    · obtain ⟨c, m, k, hc, hks⟩ := s3 s hlt
      exact ⟨c, m, k, (getElem?_snoc _ _ _ _).mpr (Or.inl hc), hks⟩
    · have hj : s - st.genotypeCount < G.length := by omega
      refine ⟨st.binData.length, mNew, G[s - st.genotypeCount],
        (getElem?_snoc _ _ _ _).mpr (Or.inr ⟨rfl, rfl⟩), ?_⟩
      exact (hent _ _).mpr ⟨s - st.genotypeCount, List.getElem?_eq_getElem hj, by omega⟩
  · intro c1 c2 m1 m2 k1 sl1 k2 sl2 hc1 hc2 h1 h2
    rw [hbd] at hc1 hc2
    rcases (getElem?_snoc _ _ _ _).mp hc1 with hc1 | ⟨e1, rfl⟩
    · have hl1 := getElem?_lt_length _ _ _ hc1
      have hb1 := s2 c1 m1 k1 sl1 hc1 h1
      rcases (getElem?_snoc _ _ _ _).mp hc2 with hc2 | ⟨e2, rfl⟩
      · exact s4 c1 c2 m1 m2 k1 sl1 k2 sl2 hc1 hc2 h1 h2
      · have hb2 := (hnew k2 sl2 h2).1
        constructor
        · intro _; exact Or.inl (by omega)
        · intro _; omega
    · have hb1 := (hnew k1 sl1 h1).1
      rcases (getElem?_snoc _ _ _ _).mp hc2 with hc2 | ⟨e2, rfl⟩
      · have hl2 := getElem?_lt_length _ _ _ hc2
        have hb2 := s2 c2 m2 k2 sl2 hc2 h2
        constructor
        · intro hlt; omega
        · rintro (hlt | ⟨heq, _⟩) <;> omega
      · obtain ⟨j1, hj1, rfl⟩ := (hent k1 sl1).mp h1
        obtain ⟨j2, hj2, rfl⟩ := (hent k2 sl2).mp h2
        have hiff := sorted_index_lt_iff G hG j1 j2 k1 k2 hj1 hj2
        constructor
        · intro hlt
          exact Or.inr ⟨by omega, hiff.mp (by omega)⟩
        · rintro (hlt | ⟨_, hk⟩)
          · omega
          · have := hiff.mpr hk
            omega
  · intro c m k s hc hks
    rw [hbd] at hc
    rcases (getElem?_snoc _ _ _ _).mp hc with hc | ⟨e, rfl⟩
    · exact s5 c m k s hc hks
    · obtain ⟨j, hj, _⟩ := (hent k s).mp hks
      obtain ⟨l, hl, hlc⟩ := hchrom k (List.mem_iff_getElem?.mpr ⟨j, hj⟩)
      exact ⟨l, hl, by rw [hlc, e]⟩

theorem classifySlots_slotsOrdered (regions : Nat → Nat → Coverage)
    (locusRemap : Nat → List Nat) (locusArray : List Locus) (mafCutoff : ℚ) (n : Nat)
    (st st1 : LoadState)
    (hrun : classifySlots regions locusRemap locusArray mafCutoff n st = some st1)
    (h : SlotsOrdered locusArray st) (hsize : st1.retained < 2 ^ 32) :
    SlotsOrdered locusArray st1 := by
  induction n generalizing st with
  | zero =>
    simp only [classifySlots, Option.some.injEq] at hrun
    subst hrun
    exact h
  | succ n ih =>
    simp only [classifySlots] at hrun
    split at hrun
    · exact Option.noConfusion hrun
    · rename_i st2 hst2
      have hle := classifySlots_retained _ _ _ _ _ _ _ hrun
      exact ih st2 hrun
        (chromosomeStep_slotsOrdered _ _ _ _ _ _ hst2 h (lt_of_le_of_lt hle hsize))

/-- C15: for every run of the classification loop that retains fewer than
`2 ^ 32` genotype loci, `genotypeCount` is the number of retained loci; every
slot stored in a manager's `genotypeOffsets` is below `genotypeCount`; every
number below `genotypeCount` is the slot of a retained locus; the slot of
locus `k1` in the manager of slot `c1` is smaller than the slot of locus `k2`
in the manager of slot `c2` exactly when `c1 < c2`, or `c1 = c2` and
`k1 < k2`; and a locus index is retained by one manager only, with one
slot. -/
theorem genotype_slots_order_isomorphism (regions : Nat → Nat → Coverage)
    (locusRemap : Nat → List Nat) (locusArray : List Locus) (mafCutoff : ℚ)
    (binnable : List Nat) (st : LoadState)
    (hrun : classificationLoop regions locusRemap locusArray mafCutoff binnable = some st)
    (hsize : st.retained < 2 ^ 32) :
    st.genotypeCount = st.retained ∧
    (∀ (c : Nat) (m : BinManager) (k s : Nat), st.binData[c]? = some m →
      (k, s) ∈ m.genotypeOffsets → s < st.genotypeCount) ∧
    (∀ s : Nat, s < st.genotypeCount →
      ∃ (c : Nat) (m : BinManager) (k : Nat), st.binData[c]? = some m ∧
        (k, s) ∈ m.genotypeOffsets) ∧
    (∀ (c1 c2 : Nat) (m1 m2 : BinManager) (k1 s1 k2 s2 : Nat), st.binData[c1]? = some m1 →
      st.binData[c2]? = some m2 → (k1, s1) ∈ m1.genotypeOffsets →
      (k2, s2) ∈ m2.genotypeOffsets → (s1 < s2 ↔ c1 < c2 ∨ (c1 = c2 ∧ k1 < k2))) ∧
    (∀ (c1 c2 : Nat) (m1 m2 : BinManager) (k s1 s2 : Nat), st.binData[c1]? = some m1 →
      st.binData[c2]? = some m2 → (k, s1) ∈ m1.genotypeOffsets →
      (k, s2) ∈ m2.genotypeOffsets → c1 = c2 ∧ s1 = s2) := by
  have h0 : SlotsOrdered locusArray
      { binData := [], binnable := binnable, genotypeCount := 0 } := by
    refine ⟨rfl, ?_, ?_, ?_, ?_⟩
    · intro c m k s hc; simp at hc
    · intro s hs; exact absurd hs (Nat.not_lt_zero s)
    · intro c1 c2 m1 m2 k1 s1 k2 s2 hc; simp at hc
    · intro c m k s hc; simp at hc
  obtain ⟨s1, s2, s3, s4, s5⟩ :=
    classifySlots_slotsOrdered regions locusRemap locusArray mafCutoff 26 _ st hrun h0 hsize
  refine ⟨s1, s2, s3, s4, ?_⟩
  intro c1 c2 m1 m2 k sl1 sl2 hc1 hc2 h1 h2
  obtain ⟨l1, hl1, e1⟩ := s5 c1 m1 k sl1 hc1 h1
  obtain ⟨l2, hl2, e2⟩ := s5 c2 m2 k sl2 hc2 h2
  rw [hl1] at hl2
  have hl : l1 = l2 := Option.some.inj hl2
  subst hl
  have hc : c1 = c2 := by omega
  subst hc
  have a := s4 c1 c1 m1 m2 k sl1 k sl2 hc1 hc2 h1 h2
  have b := s4 c1 c1 m2 m1 k sl2 k sl1 hc2 hc1 h2 h1
  refine ⟨rfl, ?_⟩
  have na : ¬ sl1 < sl2 := fun h => by
    rcases a.mp h with h | ⟨_, h⟩ <;> omega
  have nb : ¬ sl2 < sl1 := fun h => by
    rcases b.mp h with h | ⟨_, h⟩ <;> omega
  omega

/-- C15 on a run with the common loci 1 and 2 on chromosome 1 and the common
locus 0 on chromosome 2: the loci 1 and 2 get the slots 0 and 1 and locus 0
gets the slot 2. -/
theorem genotype_slots_order_isomorphism_witness :
    ∃ st : LoadState,
      classificationLoop (fun _ _ => ⟨false, []⟩)
        (fun ch => if ch = 1 then [1, 2] else if ch = 2 then [0] else [])
        [⟨2, 100, 1 / 5⟩, ⟨1, 200, 1 / 5⟩, ⟨1, 100, 1 / 5⟩] (1 / 20) [] = some st ∧
      st.genotypeCount = 3 ∧
      (st.binData.take 2).map (fun m => m.genotypeOffsets) = [[(1, 0), (2, 1)], [(0, 2)]] ∧
      (∀ (c1 c2 : Nat) (m1 m2 : BinManager) (k1 s1 k2 s2 : Nat), st.binData[c1]? = some m1 →
        st.binData[c2]? = some m2 → (k1, s1) ∈ m1.genotypeOffsets →
        (k2, s2) ∈ m2.genotypeOffsets → (s1 < s2 ↔ c1 < c2 ∨ (c1 = c2 ∧ k1 < k2))) := by
  have h1 : (classificationLoop (fun _ _ => ⟨false, []⟩)
      (fun ch => if ch = 1 then [1, 2] else if ch = 2 then [0] else [])
      [⟨2, 100, 1 / 5⟩, ⟨1, 200, 1 / 5⟩, ⟨1, 100, 1 / 5⟩] (1 / 20) []).map
        (fun st => (st.genotypeCount, st.retained,
          (st.binData.take 2).map (fun m => m.genotypeOffsets))) =
      some (3, 3, [[(1, 0), (2, 1)], [(0, 2)]]) := by
    with_unfolding_all decide
  obtain ⟨st, hst, hb⟩ := Option.map_eq_some'.mp h1
  simp only [Prod.mk.injEq] at hb
  have h := genotype_slots_order_isomorphism _ _ _ _ [] st hst (by rw [hb.2.1]; decide)
  exact ⟨st, hst, hb.1, hb.2.2, h.2.2.2.1⟩

/-! ## Loci out of range -/

/-- C23: for a locus on the manager's chromosome with `pos ≤ bpStart` or
`effStop ≤ pos`, whatever its frequency and the coverage, `InitBin` returns
and records no classification: `binLookup`, the intergenic set,
`genotypeOffsets`, `effStop` and the three out-sets are as before the call. -/
theorem InitBin_out_of_range_records_nothing (bm : BinManager) (i : Nat)
    (regionData : Nat → Coverage) (freqs : List Locus) (mafCutoff : ℚ) (o : OutSets) (l : Locus)
    (hl : freqs[i]? = some l) (hc : l.chrom = bm.chromosome)
    (hp : l.pos ≤ bm.bpStart ∨ bm.effStop ≤ l.pos) :
    ∃ bm1, InitBin bm i regionData freqs mafCutoff o = some (bm1, o) ∧
      bm1.binLookup = bm.binLookup ∧
      bm1.intergenicRareVariants = bm.intergenicRareVariants ∧
      bm1.genotypeOffsets = bm.genotypeOffsets ∧
      bm1.effStop = bm.effStop := by
  by_cases h : l.pos ≤ bm.bpStart
  · refine ⟨(classifyLocus bm i l regionData mafCutoff o).1, ?_, ?_⟩
    · simp only [InitBin, hl]
      rw [classifyLocus_left bm i l regionData mafCutoff o hc h]
    · rw [classifyLocus_left bm i l regionData mafCutoff o hc h]
      exact ⟨rfl, rfl, rfl, rfl⟩
  · have he : bm.effStop ≤ l.pos := by
      rcases hp with hp | hp
      · exact absurd hp h
      · exact hp
    refine ⟨bm, ?_, rfl, rfl, rfl, rfl⟩
    simp only [InitBin, hl]
    rw [classifyLocus_right bm i l regionData mafCutoff o hc (by omega) he]

/-- C23 at a rare, covered locus at position 0, the left edge of segment
`[0, 1000]`. -/
theorem InitBin_out_of_range_records_nothing_witness :
    ∃ bm1, InitBin (BinManager.init 1 0 1000) 0 (fun _ => ⟨true, [⟨100, 300, 5⟩]⟩)
        [⟨1, 0, 1 / 100⟩] (1 / 20) ⟨[], [], []⟩ = some (bm1, ⟨[], [], []⟩) ∧
      bm1.binLookup = (BinManager.init 1 0 1000).binLookup ∧
      bm1.intergenicRareVariants = (BinManager.init 1 0 1000).intergenicRareVariants ∧
      bm1.genotypeOffsets = (BinManager.init 1 0 1000).genotypeOffsets ∧
      bm1.effStop = (BinManager.init 1 0 1000).effStop :=
  InitBin_out_of_range_records_nothing (BinManager.init 1 0 1000) 0
    (fun _ => ⟨true, [⟨100, 300, 5⟩]⟩) [⟨1, 0, 1 / 100⟩] (1 / 20) ⟨[], [], []⟩
    ⟨1, 0, 1 / 100⟩ rfl (by simp [BinManager.init]) (Or.inl (by simp [BinManager.init]))

/-! ## Batch and per-locus classification -/

theorem classifyLocus_intergenic_eq (bm : BinManager) (i : Nat) (l : Locus)
    (regionData : Nat → Coverage) (mafCutoff : ℚ) (o : OutSets) :
    (classifyLocus bm i l regionData mafCutoff o).1.intergenicRareVariants =
      bm.intergenicRareVariants := by
  unfold classifyLocus
  simp only [regionLoop_eq]
  split_ifs <;> rfl

theorem initBinAll_intergenic_eq (regionData : Nat → Coverage) (freqs : List Locus)
    (mafCutoff : ℚ) (is : List Nat) (bm : BinManager) (o : OutSets) (r : BinManager × OutSets)
    (h : initBinAll regionData freqs mafCutoff is bm o = some r) :
    r.1.intergenicRareVariants = bm.intergenicRareVariants := by
  induction is generalizing bm o with
  | nil =>
    simp only [initBinAll, Option.some.injEq] at h
    rw [← h]
  | cons i is ih =>
    unfold initBinAll at h
    cases hi : InitBin bm i regionData freqs mafCutoff o with
    | none => rw [hi] at h; exact absurd h (by simp)
    | some r1 =>
      rw [hi] at h
      have h1 := ih r1.1 r1.2 h
      rw [h1]
      unfold InitBin at hi
      cases hl : freqs[i]? with
      | none => rw [hl] at hi; exact absurd hi (by simp)
      | some l =>
        rw [hl] at hi
        simp only [Option.some.injEq] at hi
        rw [← hi]
        exact classifyLocus_intergenic_eq bm i l regionData mafCutoff o

theorem initBinAll_range (regionData : Nat → Coverage) (mafCutoff : ℚ) (ls : List Locus) :
    ∀ (pre : List Locus) (bm : BinManager) (o : OutSets),
      pre.length + ls.length ≤ 2 ^ 32 →
      initBinAll regionData (pre ++ ls) mafCutoff (List.range' pre.length ls.length) bm o =
        some (initBinsLoop regionData mafCutoff ls pre.length bm o) := by
  induction ls with
  | nil => intro pre bm o _; simp [initBinAll, initBinsLoop]
  | cons l ls ih =>
    intro pre bm o hn
    have hget : (pre ++ l :: ls)[pre.length]? = some l := by
      rw [List.getElem?_append_right (le_refl _)]
      simp
    simp only [List.length_cons, List.range', initBinAll, InitBin, hget, initBinsLoop]
    have e : pre ++ l :: ls = (pre ++ [l]) ++ ls := by simp
    have hlen : (pre ++ [l]).length = pre.length + 1 := by simp
    have h1 := ih (pre ++ [l]) (classifyLocus bm pre.length l regionData mafCutoff o).1
      (classifyLocus bm pre.length l regionData mafCutoff o).2
      (by rw [hlen]; simp only [List.length_cons] at hn; omega)
    rw [hlen, ← e] at h1
    rw [h1]
    cases ls with
    | nil => simp [initBinsLoop]
    | cons l2 ls2 =>
      simp only [List.length_cons] at hn
      rw [Nat.mod_eq_of_lt (by omega)]

/-- C28: for a manager with `genotypeBoundaries = (0, 0)` and a locus vector
that a `uint` index can run through, the calls `InitBin(i, ...)` for
`i = 0, ..., |freqs| - 1` in order all return, and `InitBins(0, ...)` gives
the same manager and the same three out-sets except for
`intergenicRareVariants`: `InitBins` extends it by the out-set `intronic`,
the calls of `InitBin` leave it as it was. -/
theorem InitBins_matches_InitBin_sequence (bm : BinManager) (regionData : Nat → Coverage)
    (freqs : List Locus) (mafCutoff : ℚ) (o : OutSets)
    (hb : bm.genotypeBoundaries = (0, 0)) (hn : freqs.length ≤ 2 ^ 32) :
    ∃ r, initBinAll regionData freqs mafCutoff (List.range freqs.length) bm o = some r ∧
      InitBins bm 0 regionData freqs mafCutoff o =
        ({ r.1 with intergenicRareVariants :=
            r.2.intronic.foldl setInsert r.1.intergenicRareVariants }, r.2) ∧
      r.1.intergenicRareVariants = bm.intergenicRareVariants := by
  have h := initBinAll_range regionData mafCutoff freqs [] bm o (by simpa using hn)
  simp only [List.nil_append, List.length_nil] at h
  rw [← List.range_eq_range'] at h
  refine ⟨_, h, ?_, initBinAll_intergenic_eq _ _ _ _ _ _ _ h⟩
  have e : { bm with genotypeBoundaries := (0, 0) } = bm := by
    cases bm
    simp only at hb
    subst hb
    rfl
  simp only [InitBins, e]

/-- C28 at two loci of segment `[0, 1000]`: a rare locus at position 150 that
region 5 covers and a common locus at position 500. -/
theorem InitBins_matches_InitBin_sequence_witness :
    ∃ r, initBinAll (fun _ => ⟨true, [⟨100, 1200, 5⟩]⟩)
        [⟨1, 150, 1 / 100⟩, ⟨1, 500, 1 / 5⟩] (1 / 20) (List.range 2)
        (BinManager.init 1 0 1000) ⟨[], [], []⟩ = some r ∧
      InitBins (BinManager.init 1 0 1000) 0 (fun _ => ⟨true, [⟨100, 1200, 5⟩]⟩)
          [⟨1, 150, 1 / 100⟩, ⟨1, 500, 1 / 5⟩] (1 / 20) ⟨[], [], []⟩ =
        ({ r.1 with intergenicRareVariants :=
            r.2.intronic.foldl setInsert r.1.intergenicRareVariants }, r.2) ∧
      r.1.intergenicRareVariants = (BinManager.init 1 0 1000).intergenicRareVariants :=
  InitBins_matches_InitBin_sequence (BinManager.init 1 0 1000)
    (fun _ => ⟨true, [⟨100, 1200, 5⟩]⟩) [⟨1, 150, 1 / 100⟩, ⟨1, 500, 1 / 5⟩] (1 / 20)
    ⟨[], [], []⟩ (by simp [BinManager.init]) (by simp)

/-! ## Individuals -/

/-- C21: for every identifier, genotype count `g` and bin count `n` for which
`n + 1` is a `uint`, `Individual::Init` and the sizing constructor give a
vector `binData` of length `n + 1` with every entry 0 and a genotype store
with `g` slots. -/
theorem Individual_Init_sizes (ind : Individual) (indID : String)
    (genotypeCount binCount : Nat) (fresh : Int) (hn : binCount + 1 < 2 ^ 32) :
    (ind.Init indID genotypeCount binCount fresh).binData.length = binCount + 1 ∧
    (∀ v ∈ (ind.Init indID genotypeCount binCount fresh).binData, v = 0) ∧
    (ind.Init indID genotypeCount binCount fresh).genotypes.length = genotypeCount ∧
    (ind.Init indID genotypeCount binCount fresh).indID = indID ∧
    (Individual.construct indID genotypeCount binCount fresh).binData.length = binCount + 1 ∧
    (∀ v ∈ (Individual.construct indID genotypeCount binCount fresh).binData, v = 0) ∧
    (Individual.construct indID genotypeCount binCount fresh).genotypes.length =
      genotypeCount := by
  simp only [Individual.Init, Individual.construct, GenotypeStorage.new, List.length_replicate,
    Nat.mod_eq_of_lt hn, true_and, and_true]
  exact ⟨fun v hv => (List.mem_replicate.mp hv).2, fun v hv => (List.mem_replicate.mp hv).2⟩

/-- C21 for an individual with 3 genotype slots and 2 bins. -/
theorem Individual_Init_sizes_witness :
    ((Individual.mk "" [] []).Init "I" 3 2 0).binData.length = 2 + 1 ∧
    (∀ v ∈ ((Individual.mk "" [] []).Init "I" 3 2 0).binData, v = 0) ∧
    ((Individual.mk "" [] []).Init "I" 3 2 0).genotypes.length = 3 ∧
    ((Individual.mk "" [] []).Init "I" 3 2 0).indID = "I" ∧
    (Individual.construct "I" 3 2 0).binData.length = 2 + 1 ∧
    (∀ v ∈ (Individual.construct "I" 3 2 0).binData, v = 0) ∧
    (Individual.construct "I" 3 2 0).genotypes.length = 3 :=
  Individual_Init_sizes (Individual.mk "" [] []) "I" 3 2 0 (by decide)

/-- C29 (the code at the failing input): one rare locus of chromosome 1 at
position 290 that the regions 5 and 6 cover, one individual with the code 1,
and a dataset of size 1 (the run `exampleStreamed`). The run gives `binnable = {5, 6}` and
`genotypeCount = 0`; the individual gets a `binData` of 3 entries, `binCounts`
gets 2 entries, and `ApplyBinCounts` reads `binCounts[2]`, past its end. -/
theorem ApplyBinCounts_past_end_of_binCounts :
    exampleStreamed.map (fun s =>
        (s.1, s.2.1, s.2.2.map Individual.binData, binCountsInit 1 s.2.1)) =
      some ([5, 6], 0, [[0, 1, 1]], [0, 0]) ∧
    exampleStreamed.map (fun s =>
        s.2.2.map (fun ind => ind.ApplyBinCounts (binCountsInit 1 s.2.1))) =
      some [none] := by
  constructor <;> with_unfolding_all decide

/-! ## Disease-dependent groups -/

namespace Knowledge

theorem countDDLoop_nonempty (fuel : Nat) (g : GroupManager × List Nat)
    (rest : List (GroupManager × List Nat)) (num_dd : Nat) :
    countDDLoop fuel (g :: rest) num_dd = none := by
  induction fuel generalizing num_dd with
  | zero => rfl
  | succ fuel ih => simp only [countDDLoop]; exact ih _

/-- For a region without group source the loop of `CountDDCapable` ends at
once and the result is 0. -/
theorem CountDDCapable_no_groups (r : Region) (hg : r.groups = []) (fuel : Nat) :
    r.CountDDCapable (fuel + 1) = some 0 := by
  simp [Region.CountDDCapable, hg, countDDLoop]

/-- C30 (the code at a region with a group source): for a region whose map
`groups` is not empty, the loop of `CountDDCapable` has not ended after any
number of evaluations of its condition; the function returns no count. -/
theorem CountDDCapable_never_returns (r : Region) (hg : r.groups ≠ []) (fuel : Nat) :
    r.CountDDCapable fuel = none := by
  unfold Region.CountDDCapable
  cases h : r.groups with
  | nil => exact absurd h hg
  | cons g rest => exact countDDLoop_nonempty fuel g rest 0

/-- C30 at a region of one disease-dependent group source, for 1000
evaluations of the loop condition. -/
theorem CountDDCapable_never_returns_witness :
    (Region.mk "A" "E1" 1 1 100 300 100 300 [] [1, 2] [(⟨1, true⟩, [7])]).CountDDCapable 1000 =
      none :=
  CountDDCapable_never_returns
    (Region.mk "A" "E1" 1 1 100 300 100 300 [] [1, 2] [(⟨1, true⟩, [7])]) (by simp) 1000

end Knowledge

/-! ## Bin contributors -/

theorem countLoop_spec (es : List (Nat × Nat)) :
    ∀ counts : List Nat, (∀ e ∈ es, e.2 < counts.length) →
      ∃ out, countLoop es counts = some out ∧ out.length = counts.length ∧
        ∀ (b v : Nat), counts[b]? = some v → v + es.length < 2 ^ 32 →
          out[b]? = some (v + (es.filter (fun e => decide (e.2 = b))).length) := by
  induction es with
  | nil => intro counts _; exact ⟨counts, rfl, rfl, fun b v h _ => by simpa using h⟩
  | cons e es ih =>
    intro counts hb
    have he : e.2 < counts.length := hb e (List.mem_cons_self _ _)
    obtain ⟨cs, hc, hlen, hval⟩ := ih (counts.set e.2 ((counts[e.2] + 1) % 2 ^ 32))
      (fun x hx => by rw [List.length_set]; exact hb x (List.mem_cons_of_mem _ hx))
    refine ⟨cs, ?_, by rw [hlen, List.length_set], ?_⟩
    · simp only [countLoop, List.getElem?_eq_getElem he]
      exact hc
    · intro b v hv hsz
      simp only [List.length_cons] at hsz
      by_cases hbe : e.2 = b
      · subst hbe
        have hv' : counts[e.2] = v := by
          rw [List.getElem?_eq_getElem he] at hv
          exact Option.some.inj hv
        have h1 := hval e.2 (v + 1)
          (by rw [List.getElem?_set_self he, hv', Nat.mod_eq_of_lt (by omega)]) (by omega)
        rw [h1]
        simp only [List.filter_cons, decide_True, if_true, List.length_cons]
        congr 1
        omega
      · have h1 := hval b v (by rw [List.getElem?_set_ne hbe]; exact hv) (by omega)
        rw [h1]
        simp [List.filter_cons, hbe]

theorem contributorLoop_spec (es : List (Nat × Nat)) :
    ∀ contributors : List (List Nat), (∀ e ∈ es, e.2 < contributors.length) →
      ∃ out, contributorLoop es contributors = some out ∧ out.length = contributors.length ∧
        ∀ (b : Nat) (l : List Nat), contributors[b]? = some l →
          out[b]? = some (l ++ (es.filter (fun e => decide (e.2 = b))).map Prod.fst) := by
  induction es with
  | nil => intro contributors _; exact ⟨contributors, rfl, rfl, fun b l h => by simpa using h⟩
  | cons e es ih =>
    intro contributors hb
    have he : e.2 < contributors.length := hb e (List.mem_cons_self _ _)
    obtain ⟨cs, hc, hlen, hval⟩ := ih (contributors.set e.2 (contributors[e.2] ++ [e.1]))
      (fun x hx => by rw [List.length_set]; exact hb x (List.mem_cons_of_mem _ hx))
    refine ⟨cs, ?_, by rw [hlen, List.length_set], ?_⟩
    · simp only [contributorLoop, List.getElem?_eq_getElem he]
      exact hc
    · intro b l hl
      by_cases hbe : e.2 = b
      · subst hbe
        have hl' : contributors[e.2] = l := by
          rw [List.getElem?_eq_getElem he] at hl
          exact Option.some.inj hl
        have h1 := hval e.2 (l ++ [e.1]) (by rw [List.getElem?_set_self he, hl'])
        rw [h1]
        simp [List.filter_cons]
      · have h1 := hval b l (by rw [List.getElem?_set_ne hbe]; exact hl)
        rw [h1]
        simp [List.filter_cons, hbe]

/-- C25 (as stated, refuted): a manager with locus 2 in the intergenic-rare
set and an empty `binLookup`. On the zeroed vector of one count
`CountBinContributors` gives `counts[0] = 1`, while no entry of `binLookup`
has bin 0 and `BuildContributorList` leaves `contributors[0]` empty. -/
theorem CountBinContributors_counts_intergenic :
    CountBinContributors { BinManager.init 1 0 1000 with intergenicRareVariants := [2] } [0] =
      some [1] ∧
    BuildContributorList { BinManager.init 1 0 1000 with intergenicRareVariants := [2] } [[]] =
      some [[]] ∧
    ({ BinManager.init 1 0 1000 with intergenicRareVariants := [2] } : BinManager).binLookup.filter
      (fun e => decide (e.2 = 0)) = [] := by
  decide

/-- C25 (amended): on a zeroed count vector and a vector of empty lists, both
of `n` entries with `n` above every bin of `binLookup`, and with the sizes
within a `uint`, both functions return; for every bin index `b < n`,
`counts[b]` is the number of entries of `binLookup` whose bin is `b`, plus
the size of the intergenic-rare set when `b = 0`; `contributors[b]` holds the
locus indices of those entries in their order; so `counts[b]` is the length
of `contributors[b]` for every `b` other than 0. -/
theorem contributors_from_binLookup (bm : BinManager) (n : Nat) (hn : 0 < n)
    (hbins : ∀ e ∈ bm.binLookup, e.2 < n)
    (hsize : bm.binLookup.length + bm.intergenicRareVariants.length < 2 ^ 32) :
    ∃ counts contributors,
      CountBinContributors bm (List.replicate n 0) = some counts ∧
      BuildContributorList bm (List.replicate n []) = some contributors ∧
      counts.length = n ∧ contributors.length = n ∧
      ∀ b : Nat, b < n →
        counts[b]? = some ((bm.binLookup.filter (fun e => decide (e.2 = b))).length +
          (if b = 0 then bm.intergenicRareVariants.length else 0)) ∧
        contributors[b]? =
          some ((bm.binLookup.filter (fun e => decide (e.2 = b))).map Prod.fst) ∧
        (b ≠ 0 → counts[b]? = contributors[b]?.map List.length) := by
  have hz : (List.replicate n 0)[0]? = some 0 := by
    rw [List.getElem?_replicate]; simp [hn]
  have hmod : (0 + bm.intergenicRareVariants.length) % 2 ^ 32 =
      bm.intergenicRareVariants.length := by
    rw [Nat.zero_add]; exact Nat.mod_eq_of_lt (by omega)
  obtain ⟨cs, hc, hclen, hcval⟩ := countLoop_spec bm.binLookup
    ((List.replicate n 0).set 0 bm.intergenicRareVariants.length)
    (fun e he => by rw [List.length_set, List.length_replicate]; exact hbins e he)
  obtain ⟨ds, hd, hdlen, hdval⟩ := contributorLoop_spec bm.binLookup (List.replicate n [])
    (fun e he => by rw [List.length_replicate]; exact hbins e he)
  refine ⟨cs, ds, ?_, hd, by simpa using hclen, by simpa using hdlen, ?_⟩
  · simp only [CountBinContributors, hz, hmod]
    exact hc
  · intro b hb
    have hfl : (bm.binLookup.filter (fun e => decide (e.2 = b))).length ≤ bm.binLookup.length :=
      List.length_filter_le _ _
    have h2 : ds[b]? = some ((bm.binLookup.filter (fun e => decide (e.2 = b))).map Prod.fst) := by
      have h3 := hdval b [] (by rw [List.getElem?_replicate]; simp [hb])
      simpa using h3
    by_cases hb0 : b = 0
    · subst hb0
      have h1 := hcval 0 bm.intergenicRareVariants.length
        (by rw [List.getElem?_set_self (by simpa using hn)]) (by omega)
      refine ⟨?_, h2, fun h => absurd rfl h⟩
      rw [h1]; simp [Nat.add_comm]
    · have h1 := hcval b 0
        (by rw [List.getElem?_set_ne (Ne.symm hb0), List.getElem?_replicate]; simp [hb])
        (by omega)
      refine ⟨?_, h2, fun _ => ?_⟩
      · rw [h1]; simp [hb0]
      · rw [h1, h2]; simp

/-- C25 (amended) at a manager with the entries `(0, 1)`, `(3, 1)`, `(4, 2)`
and the intergenic-rare locus 2, for vectors of 3 entries. -/
theorem contributors_from_binLookup_witness :
    ∃ counts contributors,
      CountBinContributors
        { BinManager.init 1 0 1000 with
          intergenicRareVariants := [2], binLookup := [(0, 1), (3, 1), (4, 2)] }
        (List.replicate 3 0) = some counts ∧
      BuildContributorList
        { BinManager.init 1 0 1000 with
          intergenicRareVariants := [2], binLookup := [(0, 1), (3, 1), (4, 2)] }
        (List.replicate 3 []) = some contributors ∧
      counts = [1, 2, 1] ∧ contributors = [[], [0, 3], [4]] := by
  obtain ⟨counts, contributors, h1, h2, -, -, -⟩ := contributors_from_binLookup
    { BinManager.init 1 0 1000 with
      intergenicRareVariants := [2], binLookup := [(0, 1), (3, 1), (4, 2)] } 3 (by decide)
    (by decide) (by decide)
  refine ⟨counts, contributors, h1, h2, ?_, ?_⟩
  · have e : CountBinContributors
        { BinManager.init 1 0 1000 with
          intergenicRareVariants := [2], binLookup := [(0, 1), (3, 1), (4, 2)] }
        (List.replicate 3 0) = some [1, 2, 1] := by decide
    rw [e] at h1
    exact (Option.some.inj h1).symm
  · have e : BuildContributorList
        { BinManager.init 1 0 1000 with
          intergenicRareVariants := [2], binLookup := [(0, 1), (3, 1), (4, 2)] }
        (List.replicate 3 []) = some [[], [0, 3], [4]] := by decide
    rw [e] at h2
    exact (Option.some.inj h2).symm

/-! ## The classifier during the streaming -/

theorem parseStep_fst (isRareIntron : Bool) (snpIndex : Nat) (code : Int) (bm : BinManager)
    (ind : Individual) (r : BinManager × Individual)
    (h : parseStep isRareIntron snpIndex code bm ind = some r) :
    r.1 = stepManager isRareIntron snpIndex bm := by
  unfold parseStep at h
  unfold stepManager
  split at h
  · rename_i hr
    simp only [hr, if_true]
    split at h
    · cases ha : addToBin ind.binData 0 code with
      | none => simp [ha] at h
      | some bd =>
        simp only [ha, Option.map_some', Option.some.injEq] at h
        subst h; rfl
    · simp only [Option.some.injEq] at h
      subst h; rfl
  · rename_i hr
    simp only [hr]
    split at h
    · rename_i hb
      simp only [hb, if_true]
      cases ha : binsLoop (adjacentBins bm snpIndex) code ind.binData with
      | none => simp [ha] at h
      | some bd =>
        simp only [ha, Option.map_some', Option.some.injEq] at h
        subst h; simp
    · rename_i hb
      simp only [hb]
      cases ha : SetGenotype ind.genotypes (mapIndex bm.genotypeOffsets snpIndex).1 code with
      | none => simp [ha] at h
      | some g =>
        simp only [ha, Option.map_some', Option.some.injEq] at h
        subst h; simp

theorem mapIndex_snd_idem (m : List (Nat × Nat)) (k : Nat) :
    (mapIndex (mapIndex m k).2 k).2 = (mapIndex m k).2 :=
  mapIndex_snd_of_some _ _ _ (mapFind_mapIndex_self m k)

theorem stepManager_idem (isRareIntron : Bool) (snpIndex : Nat) (bm : BinManager) :
    stepManager isRareIntron snpIndex (stepManager isRareIntron snpIndex bm) =
      stepManager isRareIntron snpIndex bm := by
  unfold stepManager
  by_cases hr : isRareIntron = true
  · simp [hr]
  · by_cases hb : (mapFind bm.binLookup snpIndex).isSome = true
    · simp [hr, hb]
    · simp [hr, hb, mapIndex_snd_idem]

theorem parseLoop_fst (isRareIntron : Bool) (snpIndex : Nat) (codes : List Int)
    (data : List Individual) (bm : BinManager) (r : BinManager × List Individual)
    (h : parseLoop isRareIntron snpIndex codes data bm = some r) :
    r.1 = if codes = [] then bm else stepManager isRareIntron snpIndex bm := by
  induction codes generalizing data bm r with
  | nil =>
    simp only [parseLoop, Option.some.injEq] at h
    subst h; simp
  | cons code codes ih =>
    cases data with
    | nil => simp [parseLoop] at h
    | cons ind0 rest =>
      simp only [parseLoop] at h
      cases hs : parseStep isRareIntron snpIndex code bm ind0 with
      | none => simp [hs] at h
      | some r0 =>
        simp only [hs] at h
        cases hl : parseLoop isRareIntron snpIndex codes rest r0.1 with
        | none => simp [hl] at h
        | some r1 =>
          simp only [hl, Option.some.injEq] at h
          subst h
          have e1 := ih rest r0.1 r1 hl
          have e0 := parseStep_fst _ _ _ _ _ _ hs
          simp only [reduceCtorEq, if_false]
          rw [e1, e0]
          split
          · rfl
          · exact stepManager_idem _ _ _

theorem ParseSNP_manager (bm : BinManager) (snpIndex : Nat) (genotypes : List Int)
    (data : List Individual) (r : List Nat × BinManager × List Individual)
    (h : ParseSNP bm snpIndex genotypes data = some r) :
    r.2.1 = if genotypes.length % 2 ^ 32 = 0 then bm
      else stepManager (decide (snpIndex ∈ bm.intergenicRareVariants)) snpIndex bm := by
  unfold ParseSNP at h
  dsimp only at h
  split at h
  · exact absurd h (by simp)
  · rename_i r1 hr1
    simp only [Option.some.injEq] at h
    subst h
    have e := parseLoop_fst _ _ _ _ _ _ hr1
    rw [e]
    by_cases hz : genotypes.length % 2 ^ 32 = 0
    · have ht : List.take (genotypes.length % 2 ^ 32) genotypes = [] := by rw [hz]; rfl
      rw [if_pos ht, if_pos hz]
    · have ht : List.take (genotypes.length % 2 ^ 32) genotypes ≠ [] := by
        intro hnil
        have hl := congrArg List.length hnil
        rw [List.length_take] at hl
        simp only [List.length_nil] at hl
        have hle : genotypes.length % 2 ^ 32 ≤ genotypes.length := Nat.mod_le _ _
        omega
      rw [if_neg ht, if_neg hz]

/-- C26 (as stated, refuted): locus 7 is in none of the collections of the
manager. Streaming it with one code reads `genotypeOffsets[7]`, and after the
call `genotypeOffsets` holds the entry `(7, 0)`. -/
theorem ParseSNP_unclassified_locus_extends_genotypeOffsets :
    ParseSNP (BinManager.init 1 0 1000) 7 [1]
        [{ indID := "I", genotypes := [0], binData := [0] }] =
      some ([], { BinManager.init 1 0 1000 with genotypeOffsets := [(7, 0)] },
        [{ indID := "I", genotypes := [1], binData := [0] }]) ∧
    (BinManager.init 1 0 1000).genotypeOffsets = [] := by
  decide

/-- C26 (amended): for every call of `ParseSNP` that returns, `binLookup` and
the intergenic-rare set are the same after the call as before; the whole
manager is the same when the locus is in the intergenic-rare set, has an
entry in `binLookup`, is a key of `genotypeOffsets`, or no code is given;
for a locus in none of the three collections and at least one code,
`genotypeOffsets` gets the entry `snpIndex ↦ 0` and nothing else of the
manager changes. -/
theorem ParseSNP_classifier_frame (bm : BinManager) (snpIndex : Nat) (genotypes : List Int)
    (data : List Individual) (r : List Nat × BinManager × List Individual)
    (h : ParseSNP bm snpIndex genotypes data = some r) :
    r.2.1.binLookup = bm.binLookup ∧
    r.2.1.intergenicRareVariants = bm.intergenicRareVariants ∧
    ((snpIndex ∈ bm.intergenicRareVariants ∨ (mapFind bm.binLookup snpIndex).isSome = true ∨
        (mapFind bm.genotypeOffsets snpIndex).isSome = true ∨ genotypes.length % 2 ^ 32 = 0) →
      r.2.1 = bm) ∧
    (snpIndex ∉ bm.intergenicRareVariants → mapFind bm.binLookup snpIndex = none →
      mapFind bm.genotypeOffsets snpIndex = none → genotypes.length % 2 ^ 32 ≠ 0 →
      r.2.1 = { bm with genotypeOffsets := mapSet bm.genotypeOffsets snpIndex 0 }) := by
  have e := ParseSNP_manager bm snpIndex genotypes data r h
  rw [e]
  unfold stepManager
  refine ⟨?_, ?_, ?_, ?_⟩
  · split_ifs <;> rfl
  · split_ifs <;> rfl
  · intro hcase
    by_cases hz : genotypes.length % 2 ^ 32 = 0
    · rw [if_pos hz]
    · rw [if_neg hz]
      by_cases hi : snpIndex ∈ bm.intergenicRareVariants
      · simp [hi]
      · by_cases hb : (mapFind bm.binLookup snpIndex).isSome = true
        · simp [hi, hb]
        · have hg : (mapFind bm.genotypeOffsets snpIndex).isSome = true := by
            rcases hcase with h1 | h1 | h1 | h1
            · exact absurd h1 hi
            · exact absurd h1 hb
            · exact h1
            · exact absurd h1 hz
          obtain ⟨v, hv⟩ := Option.isSome_iff_exists.mp hg
          simp [hi, hb, mapIndex_snd_of_some _ _ _ hv]
  · intro hi hb hg hz
    rw [if_neg hz]
    simp [hi, hb, mapIndex, hg]

/-- C26 (amended) at a locus of `binLookup`: the manager is the same after
the call. -/
theorem ParseSNP_classifier_frame_witness :
    ∃ r : List Nat × BinManager × List Individual,
      ParseSNP { BinManager.init 1 0 1000 with binLookup := [(4, 1)] } 4 [2]
        [{ indID := "I", genotypes := [], binData := [0, 3] }] = some r ∧
      r.2.1.binLookup = [(4, 1)] ∧
      r.2.1 = { BinManager.init 1 0 1000 with binLookup := [(4, 1)] } ∧
      r.2.2 = [{ indID := "I", genotypes := [], binData := [0, 5] }] :=
  have h := ParseSNP_classifier_frame { BinManager.init 1 0 1000 with binLookup := [(4, 1)] } 4
    [2] [{ indID := "I", genotypes := [], binData := [0, 3] }]
    ([1], { BinManager.init 1 0 1000 with binLookup := [(4, 1)] },
      [{ indID := "I", genotypes := [], binData := [0, 5] }]) (by decide)
  ⟨_, by decide, h.1, h.2.2.1 (Or.inr (Or.inl (by decide))), rfl⟩

/-! ## Order of the loci in the streaming -/

theorem binsLoop_defined (adj : List Nat) (code : Int) (binData res : List Nat)
    (h : binsLoop adj code binData = some res) (hcode : code > -1) :
    ∀ b ∈ adj, b < binData.length := by
  induction adj generalizing binData with
  | nil => intro b hb; simp at hb
  | cons b0 bs ih =>
    simp only [binsLoop, hcode, if_true] at h
    cases ha : addToBin binData b0 code with
    | none => simp [ha] at h
    | some bd1 =>
      simp only [ha, Option.some_bind] at h
      unfold addToBin at ha
      cases hv : binData[b0]? with
      | none => simp [hv] at ha
      | some v =>
        simp only [hv, Option.some.injEq] at ha
        have hlt : b0 < binData.length := (List.getElem?_eq_some_iff.mp hv).1
        have hlen : bd1.length = binData.length := by rw [← ha, List.length_set]
        intro b hb
        rcases List.mem_cons.mp hb with e | hmem
        · rw [e]; exact hlt
        · rw [← hlen]; exact ih bd1 h b hmem

theorem binsLoop_total (adj : List Nat) (code : Int) (binData : List Nat)
    (hrange : code > -1 → ∀ b ∈ adj, b < binData.length) :
    ∃ res : List Nat, binsLoop adj code binData = some res ∧ res.length = binData.length ∧
      ∀ (j v : Nat), binData[j]? = some v →
        res[j]? = some (if code > -1 ∧ j ∈ adj then (v + code.toNat * adj.count j) % 2 ^ 32
          else v) := by
  by_cases hcode : code > -1
  · obtain ⟨res, h1, h2, h3⟩ := binsLoop_spec adj code binData hcode (hrange hcode)
    refine ⟨res, h1, h2, fun j v hj => ?_⟩
    rw [h3 j v hj]
    simp [hcode]
  · refine ⟨binData, binsLoop_missing adj code binData hcode, rfl, fun j v hj => ?_⟩
    rw [hj]
    simp [hcode]

theorem binsLoop_commute (adj1 adj2 : List Nat) (c1 c2 : Int) (bd bd1 bd2 : List Nat)
    (h1 : binsLoop adj1 c1 bd = some bd1) (h2 : binsLoop adj2 c2 bd1 = some bd2) :
    ∃ bd3 : List Nat, binsLoop adj2 c2 bd = some bd3 ∧ binsLoop adj1 c1 bd3 = some bd2 := by
  obtain ⟨r1, e1, l1, v1⟩ := binsLoop_total adj1 c1 bd (binsLoop_defined adj1 c1 bd bd1 h1)
  rw [h1] at e1
  simp only [Option.some.injEq] at e1
  subst e1
  obtain ⟨r2, e2, l2, v2⟩ := binsLoop_total adj2 c2 bd1 (binsLoop_defined adj2 c2 bd1 bd2 h2)
  rw [h2] at e2
  simp only [Option.some.injEq] at e2
  subst e2
  obtain ⟨bd3, e3, l3, v3⟩ := binsLoop_total adj2 c2 bd
    (fun hc b hb => by rw [← l1]; exact binsLoop_defined adj2 c2 bd1 bd2 h2 hc b hb)
  obtain ⟨bd4, e4, l4, v4⟩ := binsLoop_total adj1 c1 bd3
    (fun hc b hb => by rw [l3]; exact binsLoop_defined adj1 c1 bd bd1 h1 hc b hb)
  refine ⟨bd3, e3, ?_⟩
  rw [e4]
  congr 1
  apply List.ext_getElem?
  intro j
  cases hj : bd[j]? with
  | none =>
    have hge : bd.length ≤ j := List.getElem?_eq_none_iff.mp hj
    rw [List.getElem?_eq_none_iff.mpr (by omega), List.getElem?_eq_none_iff.mpr (by omega)]
  | some v =>
    rw [v4 j _ (v3 j v hj), v2 j _ (v1 j v hj)]
    congr 1
    split_ifs <;> first | rfl | omega

theorem SetGenotype_commute (g g1 g2 : List Int) (s1 s2 : Nat) (c1 c2 : Int) (hs : s1 ≠ s2)
    (h1 : SetGenotype g s1 c1 = some g1) (h2 : SetGenotype g1 s2 c2 = some g2) :
    ∃ g3 : List Int, SetGenotype g s2 c2 = some g3 ∧ SetGenotype g3 s1 c1 = some g2 := by
  unfold SetGenotype at h1 h2 ⊢
  split at h1
  · rename_i hl1
    simp only [Option.some.injEq] at h1
    subst h1
    split at h2
    · rename_i hl2
      simp only [Option.some.injEq] at h2
      subst h2
      rw [List.length_set] at hl2
      refine ⟨g.set s2 c2, by simp [hl2], ?_⟩
      simp only [List.length_set, hl1, if_true]
      rw [List.set_comm c2 c1 g (Ne.symm hs)]
    · exact absurd h2 (by simp)
  · exact absurd h1 (by simp)

theorem parseStep_of_rare (bm : BinManager) (snpIndex : Nat) (h : IsRare bm snpIndex) :
    ∃ adj : List Nat, ∀ (code : Int) (ind : Individual),
      parseStep (decide (snpIndex ∈ bm.intergenicRareVariants)) snpIndex code bm ind =
        (binsLoop adj code ind.binData).map (fun bd => (bm, { ind with binData := bd })) := by
  by_cases hi : snpIndex ∈ bm.intergenicRareVariants
  · refine ⟨[0], fun code ind => ?_⟩
    simp only [parseStep, hi, decide_True, if_true, binsLoop]
    by_cases hc : code > -1
    · simp only [hc, if_true]
      cases addToBin ind.binData 0 code <;> rfl
    · simp only [hc, if_false]
      rfl
  · have hb : (mapFind bm.binLookup snpIndex).isSome = true := by
      rcases h with h | h
      · exact absurd h hi
      · exact h
    refine ⟨adjacentBins bm snpIndex, fun code ind => ?_⟩
    simp [parseStep, hi, hb]

theorem parseStep_of_retained (bm : BinManager) (snpIndex s : Nat)
    (h : RetainedAt bm snpIndex s) (code : Int) (ind : Individual) :
    parseStep (decide (snpIndex ∈ bm.intergenicRareVariants)) snpIndex code bm ind =
      (SetGenotype ind.genotypes s code).map (fun g => (bm, { ind with genotypes := g })) := by
  obtain ⟨hi, hb, hg⟩ := h
  simp [parseStep, hi, hb, mapIndex, hg]

theorem stepManager_of_classified (bm : BinManager) (snpIndex : Nat)
    (h : IsRare bm snpIndex ∨ ∃ s, RetainedAt bm snpIndex s) :
    stepManager (decide (snpIndex ∈ bm.intergenicRareVariants)) snpIndex bm = bm := by
  unfold stepManager
  by_cases hi : snpIndex ∈ bm.intergenicRareVariants
  · simp [hi]
  · by_cases hb : (mapFind bm.binLookup snpIndex).isSome = true
    · simp [hi, hb]
    · rcases h with h | ⟨s, -, -, hg⟩
      · rcases h with h | h
        · exact absurd h hi
        · exact absurd h hb
      · simp [hi, hb, mapIndex, hg]

theorem parseLoop_fst_classified (bm : BinManager) (snpIndex : Nat)
    (h : IsRare bm snpIndex ∨ ∃ s, RetainedAt bm snpIndex s) (codes : List Int)
    (data : List Individual) (r : BinManager × List Individual)
    (hr : parseLoop (decide (snpIndex ∈ bm.intergenicRareVariants)) snpIndex codes data bm =
      some r) : r.1 = bm := by
  rw [parseLoop_fst _ _ _ _ _ _ hr, stepManager_of_classified bm snpIndex h]
  simp

theorem parseStep_commute (bm : BinManager) (a b : Nat)
    (ha : IsRare bm a ∨ ∃ s, RetainedAt bm a s) (hb : IsRare bm b ∨ ∃ s, RetainedAt bm b s)
    (hslots : ∀ sa sb : Nat, RetainedAt bm a sa → RetainedAt bm b sb → sa ≠ sb)
    (cA cB : Int) (ind : Individual) (r1 r2 : BinManager × Individual)
    (h1 : parseStep (decide (a ∈ bm.intergenicRareVariants)) a cA bm ind = some r1)
    (h2 : parseStep (decide (b ∈ bm.intergenicRareVariants)) b cB bm r1.2 = some r2) :
    r1.1 = bm ∧ r2.1 = bm ∧ ∃ i3 : Individual,
      parseStep (decide (b ∈ bm.intergenicRareVariants)) b cB bm ind = some (bm, i3) ∧
      parseStep (decide (a ∈ bm.intergenicRareVariants)) a cA bm i3 = some (bm, r2.2) := by
  rcases ha with ha | ⟨sa, ha⟩
  · obtain ⟨adjA, fA⟩ := parseStep_of_rare bm a ha
    rw [fA] at h1
    obtain ⟨bd1, e1, rfl⟩ := Option.map_eq_some'.mp h1
    rcases hb with hb | ⟨sb, hb⟩
    · obtain ⟨adjB, fB⟩ := parseStep_of_rare bm b hb
      rw [fB] at h2
      obtain ⟨bd2, e2, rfl⟩ := Option.map_eq_some'.mp h2
      obtain ⟨bd3, e3, e4⟩ := binsLoop_commute adjA adjB cA cB ind.binData bd1 bd2 e1 e2
      refine ⟨rfl, rfl, { ind with binData := bd3 }, ?_, ?_⟩
      · rw [fB, e3]; rfl
      · rw [fA]
        simp only [e4]
        rfl
    · have fB := parseStep_of_retained bm b sb hb
      rw [fB] at h2
      obtain ⟨g2, e2, rfl⟩ := Option.map_eq_some'.mp h2
      refine ⟨rfl, rfl, { ind with genotypes := g2 }, ?_, ?_⟩
      · rw [fB]
        simp only at e2
        rw [e2]; rfl
      · rw [fA]
        simp only [e1]
        rfl
  · have fA := parseStep_of_retained bm a sa ha
    rw [fA] at h1
    obtain ⟨g1, e1, rfl⟩ := Option.map_eq_some'.mp h1
    rcases hb with hb | ⟨sb, hb⟩
    · obtain ⟨adjB, fB⟩ := parseStep_of_rare bm b hb
      rw [fB] at h2
      obtain ⟨bd2, e2, rfl⟩ := Option.map_eq_some'.mp h2
      refine ⟨rfl, rfl, { ind with binData := bd2 }, ?_, ?_⟩
      · rw [fB]
        simp only at e2
        rw [e2]; rfl
      · rw [fA]
        simp only [e1]
        rfl
    · have fB := parseStep_of_retained bm b sb hb
      rw [fB] at h2
      obtain ⟨g2, e2, rfl⟩ := Option.map_eq_some'.mp h2
      obtain ⟨g3, e3, e4⟩ := SetGenotype_commute ind.genotypes g1 g2 sa sb cA cB
        (hslots sa sb ha hb) e1 e2
      refine ⟨rfl, rfl, { ind with genotypes := g3 }, ?_, ?_⟩
      · rw [fB, e3]; rfl
      · rw [fA]
        simp only [e4]
        rfl

theorem parseLoop_commute (bm : BinManager) (a b : Nat)
    (ha : IsRare bm a ∨ ∃ s, RetainedAt bm a s) (hb : IsRare bm b ∨ ∃ s, RetainedAt bm b s)
    (hslots : ∀ sa sb : Nat, RetainedAt bm a sa → RetainedAt bm b sb → sa ≠ sb)
    (codesA : List Int) :
    ∀ (codesB : List Int) (data : List Individual) (r1 r2 : BinManager × List Individual),
      parseLoop (decide (a ∈ bm.intergenicRareVariants)) a codesA data bm = some r1 →
      parseLoop (decide (b ∈ bm.intergenicRareVariants)) b codesB r1.2 bm = some r2 →
      ∃ d3 : List Individual,
        parseLoop (decide (b ∈ bm.intergenicRareVariants)) b codesB data bm = some (bm, d3) ∧
        parseLoop (decide (a ∈ bm.intergenicRareVariants)) a codesA d3 bm = some (bm, r2.2) := by
  induction codesA with
  | nil =>
    intro codesB data r1 r2 h1 h2
    simp only [parseLoop, Option.some.injEq] at h1
    subst h1
    have e2 := parseLoop_fst_classified bm b hb codesB data r2 h2
    refine ⟨r2.2, ?_, by simp [parseLoop]⟩
    rw [h2, ← e2]
  | cons cA csA ih =>
    intro codesB data r1 r2 h1 h2
    have e1 := parseLoop_fst_classified bm a ha (cA :: csA) data r1 h1
    cases data with
    | nil => simp [parseLoop] at h1
    | cons ind rest =>
      cases codesB with
      | nil =>
        simp only [parseLoop, Option.some.injEq] at h2
        subst h2
        refine ⟨ind :: rest, by simp [parseLoop], ?_⟩
        rw [h1, ← e1]
      | cons cB csB =>
        simp only [parseLoop] at h1
        cases hs1 : parseStep (decide (a ∈ bm.intergenicRareVariants)) a cA bm ind with
        | none => simp [hs1] at h1
        | some r0 =>
          simp only [hs1] at h1
          cases hl1 : parseLoop (decide (a ∈ bm.intergenicRareVariants)) a csA rest r0.1 with
          | none => simp [hl1] at h1
          | some rest1 =>
            simp only [hl1, Option.some.injEq] at h1
            subst h1
            simp only [parseLoop] at h2
            cases hs2 : parseStep (decide (b ∈ bm.intergenicRareVariants)) b cB bm r0.2 with
            | none => simp [hs2] at h2
            | some q0 =>
              simp only [hs2] at h2
              cases hl2 : parseLoop (decide (b ∈ bm.intergenicRareVariants)) b csB rest1.2
                  q0.1 with
              | none => simp [hl2] at h2
              | some rest2 =>
                simp only [hl2, Option.some.injEq] at h2
                subst h2
                obtain ⟨e0, f0, i3, s1, s2⟩ :=
                  parseStep_commute bm a b ha hb hslots cA cB ind r0 q0 hs1 hs2
                rw [e0] at hl1
                rw [f0] at hl2
                obtain ⟨d3, l1, l2⟩ := ih csB rest rest1 rest2 hl1 hl2
                refine ⟨i3 :: d3, ?_, ?_⟩
                · simp [parseLoop, s1, l1]
                · simp [parseLoop, s2, l2]

theorem ParseSNP_eq_some (bm : BinManager) (snpIndex : Nat) (genotypes : List Int)
    (data : List Individual) (r : List Nat × BinManager × List Individual)
    (h : ParseSNP bm snpIndex genotypes data = some r) :
    ∃ p : BinManager × List Individual,
      parseLoop (decide (snpIndex ∈ bm.intergenicRareVariants)) snpIndex
        (genotypes.take (genotypes.length % 2 ^ 32)) data bm = some p ∧
      r = ((adjacentBins p.1 snpIndex).foldl setInsert [], p.1, p.2) := by
  unfold ParseSNP at h
  dsimp only at h
  split at h
  · exact absurd h (by simp)
  · rename_i p hp
    exact ⟨p, hp, (Option.some.inj h).symm⟩

theorem ParseSNP_of_parseLoop (bm : BinManager) (snpIndex : Nat) (genotypes : List Int)
    (data : List Individual) (p : BinManager × List Individual)
    (h : parseLoop (decide (snpIndex ∈ bm.intergenicRareVariants)) snpIndex
      (genotypes.take (genotypes.length % 2 ^ 32)) data bm = some p) :
    ParseSNP bm snpIndex genotypes data =
      some ((adjacentBins p.1 snpIndex).foldl setInsert [], p.1, p.2) := by
  unfold ParseSNP
  dsimp only
  rw [h]

/-- C24: for two loci `a` and `b` that are each rare (intergenic-rare or with
an entry in `binLookup`) or retained, with distinct slots when both are
retained: when streaming `a` and then `b` returns, streaming `b` and then
`a` returns as well, leaves the manager as it was, gives the same sets of
bins, and leaves every individual, with its `binData` and its genotype
vector, in the same state. -/
theorem ParseSNP_order_independent (bm : BinManager) (a b : Nat) (codesA codesB : List Int)
    (data : List Individual)
    (ha : IsRare bm a ∨ ∃ s, RetainedAt bm a s) (hb : IsRare bm b ∨ ∃ s, RetainedAt bm b s)
    (hslots : ∀ sa sb : Nat, RetainedAt bm a sa → RetainedAt bm b sb → sa ≠ sb)
    (rA rB : List Nat × BinManager × List Individual)
    (h1 : ParseSNP bm a codesA data = some rA)
    (h2 : ParseSNP rA.2.1 b codesB rA.2.2 = some rB) :
    rA.2.1 = bm ∧ rB.2.1 = bm ∧
    ∃ d3 : List Individual,
      ParseSNP bm b codesB data = some (rB.1, bm, d3) ∧
      ParseSNP bm a codesA d3 = some (rA.1, bm, rB.2.2) := by
  obtain ⟨p1, hp1, rfl⟩ := ParseSNP_eq_some bm a codesA data rA h1
  have e1 := parseLoop_fst_classified bm a ha _ data p1 hp1
  simp only at h2
  rw [e1] at h2
  obtain ⟨p2, hp2, rfl⟩ := ParseSNP_eq_some bm b codesB p1.2 rB h2
  have e2 := parseLoop_fst_classified bm b hb _ p1.2 p2 hp2
  obtain ⟨d3, l1, l2⟩ := parseLoop_commute bm a b ha hb hslots _ _ data p1 p2 hp1 hp2
  refine ⟨e1, e2, d3, ?_, ?_⟩
  · rw [ParseSNP_of_parseLoop bm b codesB data (bm, d3) l1, e2]
  · rw [ParseSNP_of_parseLoop bm a codesA d3 (bm, p2.2) l2, e1]

/-- C24 at the binned locus 4 (bin 1) and the retained locus 5 (slot 0), for
one individual with the codes 2 and 1: both orders end with the count 5 in
bin 1 and the code 1 in slot 0. -/
theorem ParseSNP_order_independent_witness :
    ∃ d3 : List Individual,
      ParseSNP
        { BinManager.init 1 0 1000 with
          binLookup := [(4, 1)], genotypeOffsets := [(5, 0), (6, 1)] } 5 [1]
        [{ indID := "I", genotypes := [0, 0], binData := [0, 3] }] =
        some ([],
          { BinManager.init 1 0 1000 with
            binLookup := [(4, 1)], genotypeOffsets := [(5, 0), (6, 1)] }, d3) ∧
      ParseSNP
        { BinManager.init 1 0 1000 with
          binLookup := [(4, 1)], genotypeOffsets := [(5, 0), (6, 1)] } 4 [2] d3 =
        some ([1],
          { BinManager.init 1 0 1000 with
            binLookup := [(4, 1)], genotypeOffsets := [(5, 0), (6, 1)] },
          [{ indID := "I", genotypes := [1, 0], binData := [0, 5] }]) :=
  (ParseSNP_order_independent
    { BinManager.init 1 0 1000 with binLookup := [(4, 1)], genotypeOffsets := [(5, 0), (6, 1)] }
    4 5 [2] [1] [{ indID := "I", genotypes := [0, 0], binData := [0, 3] }]
    (Or.inl (Or.inr (by decide))) (Or.inr ⟨0, by decide, by decide, by decide⟩)
    (fun _ _ h _ => absurd h.2.1 (by decide))
    ([1],
      { BinManager.init 1 0 1000 with
        binLookup := [(4, 1)], genotypeOffsets := [(5, 0), (6, 1)] },
      [{ indID := "I", genotypes := [0, 0], binData := [0, 5] }])
    ([],
      { BinManager.init 1 0 1000 with
        binLookup := [(4, 1)], genotypeOffsets := [(5, 0), (6, 1)] },
      [{ indID := "I", genotypes := [1, 0], binData := [0, 5] }])
    (by decide) (by decide)).2.2

/-! ## Removal of the regions without SNP -/

theorem length_setInsert_of_not_mem (s : List Nat) (x : Nat) (h : x ∉ s) :
    (setInsert s x).length = s.length + 1 := by
  induction s with
  | nil => rfl
  | cons y ys ih =>
    have hxy : x ≠ y := fun e => h (by rw [e]; exact List.mem_cons_self _ _)
    have hys : x ∉ ys := fun hm => h (List.mem_cons_of_mem _ hm)
    unfold setInsert
    by_cases h1 : x < y
    · rw [if_pos h1]; rfl
    · rw [if_neg h1, if_neg hxy]
      simp [ih hys]

namespace Knowledge

theorem mem_collectEmpties (rs : List Region) :
    ∀ (i : Nat) (e : List Nat) (k : Nat),
      k ∈ collectEmpties rs i e ↔
        k ∈ e ∨ ∃ (j : Nat) (r : Region), rs[j]? = some r ∧ k = i + j ∧ r.SnpCount = 0 := by
  induction rs with
  | nil => intro i e k; simp [collectEmpties]
  | cons r0 rs ih =>
    intro i e k
    simp only [collectEmpties]
    rw [ih]
    constructor
    · rintro (hk | ⟨j, r, hj, hkj, hr⟩)
      · by_cases h0 : r0.SnpCount = 0
        · rw [if_pos h0, mem_setInsert] at hk
          rcases hk with hk | hk
          · exact Or.inr ⟨0, r0, by simp, by omega, h0⟩
          · exact Or.inl hk
        · rw [if_neg h0] at hk
          exact Or.inl hk
      · exact Or.inr ⟨j + 1, r, by simpa using hj, by omega, hr⟩
    · rintro (hk | ⟨j, r, hj, hkj, hr⟩)
      · left
        by_cases h0 : r0.SnpCount = 0
        · rw [if_pos h0, mem_setInsert]; exact Or.inr hk
        · rw [if_neg h0]; exact hk
      · cases j with
        | zero =>
          simp only [List.getElem?_cons_zero, Option.some.injEq] at hj
          subst hj
          left
          rw [if_pos hr, mem_setInsert]
          left; omega
        | succ j =>
          right
          exact ⟨j, r, by simpa using hj, by omega, hr⟩

theorem length_collectEmpties (rs : List Region) :
    ∀ (i : Nat) (e : List Nat), (∀ x ∈ e, x < i) →
      (collectEmpties rs i e).length =
        e.length + (rs.filter (fun r => decide (r.SnpCount = 0))).length := by
  induction rs with
  | nil => intro i e _; simp [collectEmpties]
  | cons r0 rs ih =>
    intro i e he
    simp only [collectEmpties]
    by_cases h0 : r0.SnpCount = 0
    · rw [if_pos h0, ih (i + 1) (setInsert e i)
        (fun x hx => by
          rcases (mem_setInsert e i x).mp hx with hx | hx
          · omega
          · have := he x hx
            omega)]
      rw [length_setInsert_of_not_mem e i (fun hm => Nat.lt_irrefl i (he i hm))]
      simp [List.filter_cons, h0]
      omega
    · rw [if_neg h0, ih (i + 1) e (fun x hx => by have := he x hx; omega)]
      simp [List.filter_cons, h0]

theorem rebuildRegions_fst (empties : List Nat) (rs : List Region) :
    ∀ (i : Nat) (regions : List Region) (remap : List (Nat × Nat)),
      (∀ (j : Nat) (r : Region), rs[j]? = some r → (i + j ∈ empties ↔ r.SnpCount = 0)) →
      (rebuildRegions empties rs i regions remap).1 =
        regions ++ (rs.filter (fun r => decide (r.SnpCount ≠ 0))).map Region.copy := by
  induction rs with
  | nil => intro i regions remap _; simp [rebuildRegions]
  | cons r0 rs ih =>
    intro i regions remap h
    have h0 := h 0 r0 (by simp)
    have hrest : ∀ (j : Nat) (r : Region), rs[j]? = some r →
        (i + 1 + j ∈ empties ↔ r.SnpCount = 0) := by
      intro j r hj
      have := h (j + 1) r (by simpa using hj)
      rw [show i + 1 + j = i + (j + 1) by omega]
      exact this
    simp only [rebuildRegions]
    by_cases hi : i ∈ empties
    · have hz : r0.SnpCount = 0 := h0.mp (by simpa using hi)
      rw [if_neg (by simpa using hi), ih _ _ _ hrest]
      simp [List.filter_cons, hz]
    · have hz : ¬ r0.SnpCount = 0 := fun e => hi (by simpa using h0.mpr e)
      rw [if_pos hi, ih _ _ _ hrest]
      simp [List.filter_cons, hz]

theorem filter_map_copy (rs : List Region) :
    (((rs.map Region.copy).filter (fun r => decide (r.SnpCount ≠ 0))).map Region.copy) =
      (rs.filter (fun r => decide (r.SnpCount ≠ 0))).map Region.copy := by
  induction rs with
  | nil => rfl
  | cons r rs ih =>
    have e : r.copy.SnpCount = r.SnpCount := rfl
    by_cases hz : r.SnpCount = 0
    · simp only [List.map_cons, List.filter_cons, e, hz, ne_eq, not_true_eq_false,
        decide_False, Bool.false_eq_true, if_false]
      exact ih
    · simp only [List.map_cons, List.filter_cons, e, hz, ne_eq, not_false_eq_true,
        decide_True, if_true, List.cons.injEq]
      exact ⟨rfl, ih⟩

/-- C22: for a manager whose number of regions is a `uint`, `Squeeze` leaves
in `regions` the regions with `SnpCount() != 0`, in their order, each as the
copy that the copy constructor makes of it (all members but `enID`), so it
removes exactly the regions with `SnpCount() == 0`; every region left has
`SnpCount() > 0`; and the result is the number of regions removed, the size
before minus the size after. -/
theorem Squeeze_removes_regions_without_snps (rm : RegionManager)
    (hn : rm.regions.length < 2 ^ 32) :
    rm.Squeeze.1.regions =
      (rm.regions.filter (fun r => decide (r.SnpCount ≠ 0))).map Region.copy ∧
    (∀ r ∈ rm.Squeeze.1.regions, r.SnpCount > 0) ∧
    rm.Squeeze.2 = (rm.regions.filter (fun r => decide (r.SnpCount = 0))).length ∧
    rm.Squeeze.2 = rm.regions.length - rm.Squeeze.1.regions.length := by
  have htake : rm.regions.take (rm.regions.length % 2 ^ 32) = rm.regions := by
    rw [Nat.mod_eq_of_lt hn, List.take_length]
  have htake2 : (rm.regions.map Region.copy).take (rm.regions.length % 2 ^ 32) =
      rm.regions.map Region.copy := by
    rw [Nat.mod_eq_of_lt hn]
    exact List.take_of_length_le (by simp)
  have hregs : rm.Squeeze.1.regions =
      (rm.regions.filter (fun r => decide (r.SnpCount ≠ 0))).map Region.copy := by
    simp only [RegionManager.Squeeze, htake, htake2]
    rw [rebuildRegions_fst]
    · rw [List.nil_append]
      exact filter_map_copy rm.regions
    · intro j r hj
      rw [List.getElem?_map] at hj
      obtain ⟨r0, hr0, rfl⟩ := Option.map_eq_some'.mp hj
      rw [mem_collectEmpties]
      constructor
      · rintro (hk | ⟨j2, r2, hj2, hk, hr2⟩)
        · simp at hk
        · have e : j2 = j := by omega
          subst e
          rw [hr0] at hj2
          rw [Option.some.inj hj2]
          exact hr2
      · intro hr
        exact Or.inr ⟨j, r0, hr0, rfl, hr⟩
  have hret : rm.Squeeze.2 =
      (rm.regions.filter (fun r => decide (r.SnpCount = 0))).length := by
    simp only [RegionManager.Squeeze, htake]
    rw [length_collectEmpties rm.regions 0 [] (fun x hx => by simp at hx)]
    have hle : (rm.regions.filter (fun r => decide (r.SnpCount = 0))).length ≤
        rm.regions.length := List.length_filter_le _ _
    simp only [List.length_nil, Nat.zero_add]
    exact Nat.mod_eq_of_lt (by omega)
  refine ⟨hregs, ?_, hret, ?_⟩
  · intro r hr
    rw [hregs] at hr
    obtain ⟨r0, hr0, rfl⟩ := List.mem_map.mp hr
    have h2 := (List.mem_filter.mp hr0).2
    simp only [decide_eq_true_eq] at h2
    have e : r0.copy.SnpCount = r0.SnpCount := rfl
    omega
  · rw [hret, hregs, List.length_map]
    have hsum := @List.length_eq_length_filter_add _ rm.regions
      (fun r => decide (r.SnpCount ≠ 0))
    have hneg : (rm.regions.filter (fun r => ! decide (r.SnpCount ≠ 0))) =
        rm.regions.filter (fun r => decide (r.SnpCount = 0)) := by
      congr 1
      funext r
      by_cases h : r.SnpCount = 0 <;> simp [h]
    rw [hneg] at hsum
    omega

/-- C22 at a manager of three regions, the second one without SNP: the
copies of the first and the third region are left in this order, without
their `enID`, and the result is 1. -/
theorem Squeeze_removes_regions_without_snps_witness :
    (RegionManager.mk [(10, 0), (11, 1), (12, 2)] [("A", 0), ("B", 1), ("C", 2)]
        [Region.mk "A" "E1" 1 10 100 300 100 300 [] [1, 2] [],
          Region.mk "B" "E2" 1 11 400 500 400 500 [] [] [],
          Region.mk "C" "E3" 1 12 600 700 600 700 [] [3] []]).Squeeze.1.regions =
      [Region.mk "A" "" 1 10 100 300 100 300 [] [1, 2] [],
        Region.mk "C" "" 1 12 600 700 600 700 [] [3] []] ∧
    (RegionManager.mk [(10, 0), (11, 1), (12, 2)] [("A", 0), ("B", 1), ("C", 2)]
        [Region.mk "A" "E1" 1 10 100 300 100 300 [] [1, 2] [],
          Region.mk "B" "E2" 1 11 400 500 400 500 [] [] [],
          Region.mk "C" "E3" 1 12 600 700 600 700 [] [3] []]).Squeeze.2 = 1 := by
  have h := Squeeze_removes_regions_without_snps
    (RegionManager.mk [(10, 0), (11, 1), (12, 2)] [("A", 0), ("B", 1), ("C", 2)]
      [Region.mk "A" "E1" 1 10 100 300 100 300 [] [1, 2] [],
        Region.mk "B" "E2" 1 11 400 500 400 500 [] [] [],
        Region.mk "C" "E3" 1 12 600 700 600 700 [] [3] []]) (by decide)
  exact ⟨h.1.trans (by decide), h.2.2.1.trans (by decide)⟩

end Knowledge

/-! ## Models of two regions -/

namespace Knowledge

end Knowledge

end BioBin
